import Mathlib

/-!
# Expense approval routing

A shallow embedding of the approval-routing engine of the expense management
server: the Mongoose data model (`models/*.js`), the request handlers of
`routes/expenses.js`, `routes/approvals.js`, `routes/approvalRules.js` and
`mongodb-server.js`, and the toggle action of the admin client.

Conventions of the embedding.

* A MongoDB `ObjectId` is a natural number.  A field that may be absent
  (`undefined` or `null`) is an `Option`.
* The record store is passed explicitly.  A handler maps the store before the
  request to the store after it together with the HTTP response.
* Expenses are keyed by `_id` (MongoDB keeps `_id` unique); rules, users and
  companies are kept in collection order, and `findOne` takes the first match.
* `new Date()` is a parameter `now` of the handler.
* A finite JavaScript `Number` is the rational it denotes.  The result of an
  arithmetic operation is rounded to the nearest IEEE-754 binary64 value, ties
  to even (`roundDouble`); overflow to `Infinity` and the subnormal range are
  not part of the embedding.  Division of array lengths keeps the two
  non-finite outcomes (`Infinity`, `NaN`) that JavaScript gives for a zero
  divisor.
* Exceptions of the driver (the `catch` branches answering 500) are not
  modelled, except the duplicate-key failure of an insert, the missing
  company of `POST /api/expenses`, the missing employee of `GET /:id` and the
  exceptions of the notification block of `mongodb-server.js`.
* List elements of a rule (`approvers`, `conditionalApprovers`) and history
  entries carry all their fields, as in the data model of the specification.
-/

namespace ExpenseManagement

/-- A MongoDB object identifier. -/
abbrev ObjectId := Nat

/-- The `status` enum of `models/Expense.js`. -/
inductive Status where
  | draft
  | pending
  | approved
  | rejected
deriving DecidableEq, Repr

/-- The `action` enum of an approval-history entry; the validator of
`routes/approvals.js` (`isIn(['approved', 'rejected'])`) admits no other value. -/
inductive Action where
  | approved
  | rejected
deriving DecidableEq, Repr

/-- The `role` enum of `models/User.js`. -/
inductive Role where
  | admin
  | manager
  | employee
deriving DecidableEq, Repr

/-- An element of `approvalHistory` in `models/Expense.js`. -/
structure HistoryEntry where
  approver : ObjectId
  action : Action
  comment : Option String
  date : Nat
deriving DecidableEq, Repr

/-- An element of `approvers` in `models/ApprovalRule.js`. -/
structure Approver where
  user : ObjectId
  sequence : Int
deriving DecidableEq, Repr

/-- An element of `conditionalApprovers` in `models/ApprovalRule.js`. -/
structure ConditionalApprover where
  user : ObjectId
  autoApprove : Bool
deriving DecidableEq, Repr

/-- The document of `models/ApprovalRule.js`. -/
structure ApprovalRule where
  id : ObjectId
  company : ObjectId
  name : String
  category : String
  isManagerApprover : Bool
  approvers : List Approver
  minimumApprovalPercentage : ℚ
  conditionalApprovers : List ConditionalApprover
  isActive : Bool
deriving DecidableEq

/-- The document of `models/Expense.js` (its `_id` is the key in the store). -/
structure Expense where
  employee : ObjectId
  company : ObjectId
  description : String
  category : String
  amount : ℚ
  currency : String
  amountInBaseCurrency : ℚ
  expenseDate : Nat
  paidBy : String
  remarks : Option String
  receipt : Option String
  status : Status
  approvalRule : Option ObjectId
  currentApprover : Option ObjectId
  approvalHistory : List HistoryEntry
deriving DecidableEq

/-- The document of `models/User.js`. -/
structure User where
  id : ObjectId
  name : String
  email : String
  role : Role
  company : ObjectId
  manager : Option ObjectId
  isActive : Bool
deriving DecidableEq

/-- The document of `models/Company.js`. -/
structure Company where
  id : ObjectId
  name : String
  country : String
  baseCurrency : String
  admin : ObjectId
deriving DecidableEq

/-- The record store: the four collections. -/
structure Store where
  expenses : ObjectId → Option Expense
  rules : List ApprovalRule
  users : List User
  companies : List Company

/-- The token payload `req.user` set by `authenticateToken`. -/
structure AuthUser where
  userId : ObjectId
  role : Role
  company : ObjectId
deriving DecidableEq, Repr

/-- The answer of a handler: HTTP status, the `message` field, the `expense`
field when the body carries one, and the messages of the `errors` array of a
validation failure. -/
structure Response where
  status : Nat
  message : String
  expense : Option Expense
  errors : List String
deriving DecidableEq

/-! ## Store access -/

/-- `Expense.findOne({ _id: id, ...conditions })`. -/
def Store.findOneExpense (s : Store) (id : ObjectId) (conditions : Expense → Bool) :
    Option Expense :=
  (s.expenses id).filter conditions

/-- `ApprovalRule.findById(id)`. -/
def Store.findRuleById (s : Store) (id : ObjectId) : Option ApprovalRule :=
  s.rules.find? (fun r => r.id == id)

/-- `expense.save()` for a document loaded under `id`. -/
def Store.saveExpense (s : Store) (id : ObjectId) (expense : Expense) : Store :=
  { s with expenses := fun k => if k = id then some expense else s.expenses k }

/-- `.populate('approvalRule')`: the referenced rule, or nothing when the
reference is absent or dangling. -/
def Store.populateApprovalRule (s : Store) (expense : Expense) : Option ApprovalRule :=
  expense.approvalRule.bind s.findRuleById

/-! ## JavaScript array and number helpers -/

/-- `approvers.sort((a, b) => a.sequence - b.sequence)`: `Array.prototype.sort`
is stable, so the result is the stable ascending sort by `sequence`. -/
def sortApprovers (approvers : List Approver) : List Approver :=
  approvers.insertionSort (fun a b => a.sequence ≤ b.sequence)

/-- `Array.prototype.findIndex`: the first index whose element satisfies the
predicate, or `-1`. -/
def findIndex {α : Type} (xs : List α) (p : α → Bool) : Int :=
  if xs.findIdx p < xs.length then (xs.findIdx p : Int) else -1

/-- The integer nearest to `n / d`, the even one of the two when `n / d` lies
half-way between two integers (`roundTiesToEven` of IEEE 754). -/
def roundHalfEven (n d : Nat) : Nat :=
  if 2 * (n % d) < d then n / d
  else if d < 2 * (n % d) then n / d + 1
  else if (n / d) % 2 = 0 then n / d
  else n / d + 1

/-- The position of the leading binary digit of `n`, found by halving at most
`fuel` times: `floorLog2 n n` is the `k` with `2 ^ k ≤ n < 2 ^ (k + 1)` for
`0 < n`. -/
def floorLog2 : Nat → Nat → Nat
  | 0, _ => 0
  | fuel + 1, n => if n < 2 then 0 else floorLog2 fuel (n / 2) + 1

/-- The binary exponent of the positive ratio `a / b`: the `e` with
`2 ^ e ≤ a / b < 2 ^ (e + 1)`. -/
def binaryExponent (a b : Nat) : Int :=
  let e : Int := (floorLog2 a a : Int) - (floorLog2 b b : Int)
  if b * 2 ^ e.toNat ≤ a * 2 ^ (-e).toNat then e else e - 1

/-- The positive ratio `a / b` rounded to 53 significant binary digits: with
`e` its binary exponent, the nearest multiple of `2 ^ (e - 52)`, ties to the
even multiple. -/
def roundRatio (a b : Nat) : ℚ :=
  let shift : Int := 52 - binaryExponent a b
  let m := roundHalfEven (a * 2 ^ shift.toNat) (b * 2 ^ (-shift).toNat)
  (m * 2 ^ (-shift).toNat : Nat) / (2 ^ shift.toNat : Nat)

/-- The IEEE-754 binary64 value nearest to `q`, ties to even: the `Number` that
JavaScript takes for the exact result `q` of an arithmetic operation, for `q`
in the range of normal doubles.  `roundDouble_spec` shows that the result has
53 significant binary digits and lies within half a unit in the last place of
`q`; `roundDouble_values` gives its value at some familiar inputs. -/
def roundDouble (q : ℚ) : ℚ :=
  if q.num = 0 then 0
  else if 0 < q.num then roundRatio q.num.natAbs q.den
  else -roundRatio q.num.natAbs q.den

/-- `String(x)` of the finite number `x` is a decimal numeral without exponent:
`Number::toString` switches to exponent notation from `1e21` on and below
`1e-6`, the `Number` whose numeral is `1e-6` being the double nearest to
`10 ^ (-6)`. -/
def printsPlainDecimal (x : ℚ) : Bool :=
  decide (x = 0 ∨ (roundDouble (1 / 10 ^ 6) ≤ |x| ∧ |x| < 10 ^ 21))

/-- The values of `(approvalCount / totalApprovers) * 100`. -/
inductive JSNumber where
  | finite (q : ℚ)
  | infinity
  | nan
deriving DecidableEq

/-- `a / b` for two array lengths: the lengths are integers below `2 ^ 32`,
hence doubles, and the quotient is rounded to the nearest double. -/
def JSNumber.divLengths (a b : Nat) : JSNumber :=
  if b = 0 then (if a = 0 then JSNumber.nan else JSNumber.infinity)
  else JSNumber.finite (roundDouble ((a : ℚ) / (b : ℚ)))

/-- `x * 100`, the product rounded to the nearest double. -/
def JSNumber.times100 : JSNumber → JSNumber
  | JSNumber.finite q => JSNumber.finite (roundDouble (q * 100))
  | JSNumber.infinity => JSNumber.infinity
  | JSNumber.nan => JSNumber.nan

/-- `x >= y` for a finite `y`. -/
def JSNumber.ge (x : JSNumber) (y : ℚ) : Bool :=
  match x with
  | JSNumber.finite q => decide (y ≤ q)
  | JSNumber.infinity => true
  | JSNumber.nan => false

/-! ## `routes/approvals.js`: `POST /:id/action` -/

/-- `expense.approvalHistory.filter(h => h.action === 'approved').length`. -/
def approvalCount (history : List HistoryEntry) : Nat :=
  (history.filter (fun h => h.action == Action.approved)).length

/-- `(approvalCount / totalApprovers) * 100`. -/
def approvalPercentage (history : List HistoryEntry) (sortedApprovers : List Approver) :
    JSNumber :=
  (JSNumber.divLengths (approvalCount history) sortedApprovers.length).times100

/-- The nested `some` of lines 86-92: some conditional approver is flagged
`autoApprove` and has an `approved` entry in the history. -/
def hasConditionalApproval (conditionalApprovers : List ConditionalApprover)
    (history : List HistoryEntry) : Bool :=
  conditionalApprovers.any (fun conditional =>
    history.any (fun h =>
      h.approver == conditional.user && h.action == Action.approved &&
        conditional.autoApprove))

/-- Lines 59-108 of `routes/approvals.js`: the status and current approver
after the history entry has been pushed.  `expense` already carries the new
entry; `approvalRule` is the populated rule. -/
def evaluateAction (expense : Expense) (approvalRule : Option ApprovalRule)
    (userId : ObjectId) (action : Action) : Expense :=
  if action = Action.rejected then
    { expense with status := Status.rejected, currentApprover := none }
  else
    match approvalRule with
    | some rule =>
      let sortedApprovers := sortApprovers rule.approvers
      let currentApproverIndex := findIndex sortedApprovers (fun approver => approver.user == userId)
      if currentApproverIndex < (sortedApprovers.length : Int) - 1 then
        { expense with
          currentApprover := (sortedApprovers[(currentApproverIndex + 1).toNat]?).map Approver.user }
      else if (approvalPercentage expense.approvalHistory sortedApprovers).ge
          rule.minimumApprovalPercentage then
        { expense with status := Status.approved, currentApprover := none }
      else if hasConditionalApproval rule.conditionalApprovers expense.approvalHistory then
        { expense with status := Status.approved, currentApprover := none }
      else
        { expense with currentApprover := none }
    | none =>
      { expense with status := Status.approved, currentApprover := none }

/-- The `action` word in the success message. -/
def Action.toString : Action → String
  | Action.approved => "approved"
  | Action.rejected => "rejected"

/-- The handler `router.post('/:id/action')` of `routes/approvals.js`. -/
def approvalsAction (s : Store) (user : AuthUser) (id : ObjectId) (action : Action)
    (comment : Option String) (now : Nat) : Store × Response :=
  match s.findOneExpense id
      (fun e => e.currentApprover == some user.userId && e.status == Status.pending) with
  | none => (s, ⟨404, "Expense not found or not pending your approval", none, []⟩)
  | some expense =>
    let approvalRule := s.populateApprovalRule expense
    let pushed : Expense :=
      { expense with
        approvalHistory := expense.approvalHistory ++ [⟨user.userId, action, comment, now⟩] }
    let saved := evaluateAction pushed approvalRule user.userId action
    (s.saveExpense id saved,
      ⟨200, "Expense " ++ action.toString ++ " successfully", some saved, []⟩)

/-! ## `mongodb-server.js`: `POST /api/approvals/:id/action` -/

/-- The handler `app.post('/api/approvals/:id/action')` of `mongodb-server.js`
up to `expense.save()`; the notification e-mail that follows does not touch the
store.  The history schema admits the two `Action` values only. -/
def mongodbApprovalsAction (s : Store) (user : AuthUser) (id : ObjectId) (action : Action)
    (comment : Option String) (now : Nat) : Store × Response :=
  if user.role = Role.employee then
    (s, ⟨403, "Only managers and admins can approve/reject expenses", none, []⟩)
  else
    match s.findOneExpense id
        (fun e => e.currentApprover == some user.userId && e.status == Status.pending) with
    | none => (s, ⟨404, "Expense not found or not pending your approval", none, []⟩)
    | some expense =>
      let pushed : Expense :=
        { expense with
          approvalHistory := expense.approvalHistory ++ [⟨user.userId, action, comment, now⟩] }
      let saved : Expense :=
        if action = Action.rejected then
          { pushed with status := Status.rejected, currentApprover := none }
        else
          { pushed with status := Status.approved, currentApprover := none }
      (s.saveExpense id saved,
        ⟨200, "Expense " ++ action.toString ++ " successfully", some saved, []⟩)

/-! ## `routes/expenses.js`: `POST /` and `POST /:id/submit` -/

/-- The fields read from `req.body` by `router.post('/')`.  `amount` is a JSON
number and `expenseDate` a date in ISO 8601 form, taken as already parsed; an
absent string field is `""`. -/
structure ExpenseBody where
  description : String
  category : String
  amount : ℚ
  currency : String
  expenseDate : Nat
  paidBy : String
  remarks : Option String
deriving DecidableEq

/-- The validators of lines 56-61, with their messages: the `notEmpty()` checks
and `isNumeric()` on the amount, which tests `String(amount)` and so refuses a
number printed in exponent form. -/
def ExpenseBody.validationErrors (body : ExpenseBody) : List String :=
  (if body.description = "" then ["Description is required"] else []) ++
  (if body.category = "" then ["Category is required"] else []) ++
  (if printsPlainDecimal body.amount then [] else ["Amount must be a number"]) ++
  (if body.currency = "" then ["Currency is required"] else []) ++
  (if body.paidBy = "" then ["Paid by is required"] else [])

/-- `ApprovalRule.findOne({ company, category, isActive: true })`. -/
def Store.findActiveRule (s : Store) (company : ObjectId) (category : String) :
    Option ApprovalRule :=
  s.rules.find? (fun r => r.company == company && r.category == category && r.isActive)

/-- `Company.findById(id)`. -/
def Store.findCompanyById (s : Store) (id : ObjectId) : Option Company :=
  s.companies.find? (fun c => c.id == id)

/-- The handler `router.post('/')` of `routes/expenses.js`.  `rate` is the
outcome of the exchange-rate request (`none` when it throws) and `newId` the
`_id` generated for the new document; an `_id` already in use makes the insert
fail, which the handler answers with 500, as it does when the company of the
token does not exist. -/
def expensesCreate (s : Store) (user : AuthUser) (body : ExpenseBody) (rate : Option ℚ)
    (newId : ObjectId) : Store × Response :=
  if body.validationErrors ≠ [] then
    (s, ⟨400, "", none, body.validationErrors⟩)
  else
    match s.findCompanyById user.company with
    | none => (s, ⟨500, "Server error", none, []⟩)
    | some company =>
      let converted : Option ℚ :=
        if body.currency ≠ company.baseCurrency then
          rate.map (fun r => roundDouble (body.amount * r))
        else some body.amount
      match converted with
      | none => (s, ⟨400, "Currency conversion failed", none, []⟩)
      | some amountInBaseCurrency =>
        let approvalRule := s.findActiveRule user.company body.category
        let expense : Expense :=
          { employee := user.userId
            company := user.company
            description := body.description
            category := body.category
            amount := body.amount
            currency := body.currency
            amountInBaseCurrency := amountInBaseCurrency
            expenseDate := body.expenseDate
            paidBy := body.paidBy
            remarks := body.remarks
            receipt := none
            status := Status.draft
            approvalRule := approvalRule.map ApprovalRule.id
            currentApprover := none
            approvalHistory := [] }
        if (s.expenses newId).isSome then (s, ⟨500, "Server error", none, []⟩)
        else (s.saveExpense newId expense, ⟨201, "Expense created successfully", some expense, []⟩)

/-- The handler `router.post('/:id/submit')` of `routes/expenses.js`. -/
def expensesSubmit (s : Store) (user : AuthUser) (id : ObjectId) : Store × Response :=
  match s.findOneExpense id
      (fun e => e.employee == user.userId && e.status == Status.draft) with
  | none => (s, ⟨404, "Expense not found or already submitted", none, []⟩)
  | some expense =>
    let pending : Expense := { expense with status := Status.pending }
    let saved : Expense :=
      match expense.approvalRule with
      | some ruleId =>
        match s.findRuleById ruleId with
        | some approvalRule =>
          if approvalRule.approvers.length > 0 then
            let sortedApprovers := sortApprovers approvalRule.approvers
            { pending with currentApprover := (sortedApprovers[0]?).map Approver.user }
          else pending
        | none => pending
      | none => pending
    (s.saveExpense id saved, ⟨200, "Expense submitted for approval", some saved, []⟩)

/-! ## Sequences of lifecycle requests -/

/-- A request to one of the three lifecycle handlers of `routes/`. -/
inductive Request where
  | create (user : AuthUser) (body : ExpenseBody) (rate : Option ℚ) (newId : ObjectId)
  | submit (user : AuthUser) (id : ObjectId)
  | action (user : AuthUser) (id : ObjectId) (action : Action) (comment : Option String)
      (now : Nat)

/-- Dispatch of a request to its handler. -/
def handle (s : Store) : Request → Store × Response
  | Request.create user body rate newId => expensesCreate s user body rate newId
  | Request.submit user id => expensesSubmit s user id
  | Request.action user id action comment now => approvalsAction s user id action comment now

/-- The store after a sequence of requests served one after the other. -/
def run (s : Store) (requests : List Request) : Store :=
  requests.foldl (fun acc request => (handle acc request).1) s

/-! ## The document saved by a decision -/

/-- The entry pushed by a decision. -/
def pushedEntry (user : AuthUser) (action : Action) (comment : Option String) (now : Nat) :
    HistoryEntry :=
  ⟨user.userId, action, comment, now⟩

/-- The document saved by a decision on `expense`. -/
def decided (s : Store) (expense : Expense) (user : AuthUser) (action : Action)
    (comment : Option String) (now : Nat) : Expense :=
  evaluateAction
    { expense with
      approvalHistory := expense.approvalHistory ++ [pushedEntry user action comment now] }
    (s.populateApprovalRule expense) user.userId action

/-! ## `mongodb-server.js`: `POST /api/expenses/:id/submit` -/

/-- `User.findById(id)`. -/
def Store.findUserById (s : Store) (id : ObjectId) : Option User :=
  s.users.find? (fun u => u.id == id)

/-- `User.findOne({ company, role: 'admin' })`. -/
def Store.findAdmin (s : Store) (company : ObjectId) : Option User :=
  s.users.find? (fun u => u.company == company && u.role == Role.admin)

/-- The handler `app.post('/api/expenses/:id/submit')` of `mongodb-server.js`:
the approver is the manager of the caller, else the first admin of the
caller's company, else `null`. -/
def mongodbExpensesSubmit (s : Store) (user : AuthUser) (id : ObjectId) : Store × Response :=
  match s.findOneExpense id
      (fun e => e.employee == user.userId && e.status == Status.draft) with
  | none => (s, ⟨404, "Expense not found or already submitted", none, []⟩)
  | some expense =>
    let employee := s.findUserById user.userId
    let approver : Option ObjectId :=
      match employee.bind User.manager with
      | some manager => some manager
      | none => (s.findAdmin user.company).map User.id
    let saved : Expense := { expense with status := Status.pending, currentApprover := approver }
    (s.saveExpense id saved, ⟨200, "Expense submitted for approval", some saved, []⟩)

/-! ## `routes/approvalRules.js` -/

/-- The field `minimumApprovalPercentage` of a request body: absent, a value
that is neither a number nor a string spelling a decimal numeral without
exponent (`isNumeric()` refuses it), a JSON number, or a string that spells a
decimal numeral without exponent, with the number it is cast to. -/
inductive RawPercentage where
  | absent
  | notNumeric
  | number (q : ℚ)
  | numericString (q : ℚ)
deriving DecidableEq

/-- The field `approvers` of a request body: absent, a value that `isArray()`
refuses, or an array. -/
inductive RawApprovers where
  | absent
  | notArray
  | array (approvers : List Approver)
deriving DecidableEq

/-- The fields of `req.body` that are paths of the rule schema.  A string
field that is absent is `none`. -/
structure RuleBody where
  name : Option String
  category : Option String
  isManagerApprover : Option Bool
  approvers : RawApprovers
  minimumApprovalPercentage : RawPercentage
  conditionalApprovers : Option (List ConditionalApprover)
  isActive : Option Bool
  company : Option ObjectId
deriving DecidableEq

/-- The answer of a rule handler: HTTP status, the `message` field, the `rule`
field when the body carries one, and the messages of a validation failure. -/
structure RuleResponse where
  status : Nat
  message : String
  rule : Option ApprovalRule
  errors : List String
deriving DecidableEq

/-- `isNumeric()` of express-validator on the field: the value is turned into a
string and the string must be a decimal numeral without exponent.  A JSON
number passes exactly when `String(value)` is such a numeral. -/
def RawPercentage.isNumeric : RawPercentage → Bool
  | RawPercentage.absent => false
  | RawPercentage.notNumeric => false
  | RawPercentage.number q => printsPlainDecimal q
  | RawPercentage.numericString _ => true

/-- The validators of `router.post('/')`, lines 24-27, with their messages. -/
def RuleBody.createErrors (body : RuleBody) : List String :=
  (if body.name = none ∨ body.name = some "" then ["Name is required"] else []) ++
  (if body.category = none ∨ body.category = some "" then ["Category is required"] else []) ++
  (match body.approvers with
    | RawApprovers.array _ => []
    | _ => ["Approvers must be an array"]) ++
  (if body.minimumApprovalPercentage.isNumeric then []
    else ["Minimum approval percentage must be a number"])

/-- The validators of `router.put('/:id')`, lines 66-69: each is `optional()`,
so an absent field passes. -/
def RuleBody.updateErrors (body : RuleBody) : List String :=
  (if body.name = some "" then ["Name cannot be empty"] else []) ++
  (if body.category = some "" then ["Category cannot be empty"] else []) ++
  (match body.approvers with
    | RawApprovers.notArray => ["Approvers must be an array"]
    | _ => []) ++
  (if body.minimumApprovalPercentage = RawPercentage.absent ∨
      body.minimumApprovalPercentage.isNumeric then []
    else ["Minimum approval percentage must be a number"])

/-- `approvers || []`. -/
def RawApprovers.orEmpty : RawApprovers → List Approver
  | RawApprovers.array approvers => approvers
  | _ => []

/-- `minimumApprovalPercentage || 100`: the number `0` is falsy, a non-empty
string is truthy. -/
def RawPercentage.orDefault : RawPercentage → ℚ
  | RawPercentage.number q => if q = 0 then 100 else q
  | RawPercentage.numericString q => q
  | _ => 100

/-- The handler `router.post('/')` of `routes/approvalRules.js`.  `newId` is
the `_id` generated for the new document; an `_id` already in use makes the
insert fail, which the handler answers with 500. -/
def rulesCreate (s : Store) (user : AuthUser) (body : RuleBody) (newId : ObjectId) :
    Store × RuleResponse :=
  if user.role ≠ Role.admin then
    (s, ⟨403, "Only admins can create approval rules", none, []⟩)
  else if body.createErrors ≠ [] then
    (s, ⟨400, "", none, body.createErrors⟩)
  else
    let approvalRule : ApprovalRule :=
      { id := newId
        company := user.company
        name := body.name.getD ""
        category := body.category.getD ""
        isManagerApprover := body.isManagerApprover.getD false
        approvers := body.approvers.orEmpty
        minimumApprovalPercentage := body.minimumApprovalPercentage.orDefault
        conditionalApprovers := body.conditionalApprovers.getD []
        isActive := true }
    if s.rules.any (fun r => r.id == newId) then (s, ⟨500, "Server error", none, []⟩)
    else
      ({ s with rules := s.rules ++ [approvalRule] },
        ⟨201, "Approval rule created successfully", some approvalRule, []⟩)

/-- The handler `router.get('/')` of `routes/approvalRules.js`: the rules of
the caller's company, newest first (the collection is in creation order).  The
answer carries each approver's user populated with name and e-mail in place of
the id; the lists and their order are those of the stored documents. -/
def rulesGet (s : Store) (user : AuthUser) : List ApprovalRule :=
  (s.rules.filter (fun r => r.company == user.company)).reverse

/-- Replacement of the first element that satisfies `p`. -/
def updateFirst {α : Type} (p : α → Bool) (f : α → α) : List α → List α
  | [] => []
  | x :: xs => if p x then f x :: xs else x :: updateFirst p f xs

/-- The update document `req.body` applied to a rule: every path present in
the body is set. -/
def RuleBody.applyTo (body : RuleBody) (rule : ApprovalRule) : ApprovalRule :=
  { rule with
    company := body.company.getD rule.company
    name := body.name.getD rule.name
    category := body.category.getD rule.category
    isManagerApprover := body.isManagerApprover.getD rule.isManagerApprover
    approvers :=
      match body.approvers with
      | RawApprovers.array approvers => approvers
      | _ => rule.approvers
    minimumApprovalPercentage :=
      match body.minimumApprovalPercentage with
      | RawPercentage.number q => q
      | RawPercentage.numericString q => q
      | _ => rule.minimumApprovalPercentage
    conditionalApprovers := body.conditionalApprovers.getD rule.conditionalApprovers
    isActive := body.isActive.getD rule.isActive }

/-- `ApprovalRule.findOne({ _id: id, company })`, the filter of the three
modifying handlers. -/
def Store.findRuleOfCompany (s : Store) (id company : ObjectId) : Option ApprovalRule :=
  s.rules.find? (fun r => r.id == id && r.company == company)

/-- The handler `router.put('/:id')` of `routes/approvalRules.js`. -/
def rulesUpdate (s : Store) (user : AuthUser) (id : ObjectId) (body : RuleBody) :
    Store × RuleResponse :=
  if user.role ≠ Role.admin then
    (s, ⟨403, "Only admins can update approval rules", none, []⟩)
  else if body.updateErrors ≠ [] then
    (s, ⟨400, "", none, body.updateErrors⟩)
  else
    match s.findRuleOfCompany id user.company with
    | none => (s, ⟨404, "Approval rule not found", none, []⟩)
    | some rule =>
      ({ s with
          rules := updateFirst (fun r => r.id == id && r.company == user.company)
            body.applyTo s.rules },
        ⟨200, "Approval rule updated successfully", some (body.applyTo rule), []⟩)

/-- The handler `router.delete('/:id')` of `routes/approvalRules.js`. -/
def rulesDelete (s : Store) (user : AuthUser) (id : ObjectId) : Store × RuleResponse :=
  if user.role ≠ Role.admin then
    (s, ⟨403, "Only admins can delete approval rules", none, []⟩)
  else
    match s.findRuleOfCompany id user.company with
    | none => (s, ⟨404, "Approval rule not found", none, []⟩)
    | some _ =>
      ({ s with rules := s.rules.eraseP (fun r => r.id == id && r.company == user.company) },
        ⟨200, "Approval rule deleted successfully", none, []⟩)

/-- The handler `router.patch('/:id/toggle')` of `routes/approvalRules.js`;
`isActive` is `req.body.isActive` (absent counts as falsy). -/
def rulesToggle (s : Store) (user : AuthUser) (id : ObjectId) (isActive : Option Bool) :
    Store × RuleResponse :=
  if user.role ≠ Role.admin then
    (s, ⟨403, "Only admins can toggle approval rules", none, []⟩)
  else
    match s.findRuleOfCompany id user.company with
    | none => (s, ⟨404, "Approval rule not found", none, []⟩)
    | some rule =>
      ({ s with
          rules := updateFirst (fun r => r.id == id && r.company == user.company)
            (fun r => { r with isActive := !(isActive.getD false) }) s.rules },
        ⟨200, "Approval rule status updated",
          some { rule with isActive := !(isActive.getD false) }, []⟩)

/-! ## `routes/expenses.js`: `GET /:id` and `routes/approvals.js`: `GET /:id/history` -/

/-- The handler `router.get('/:id')` of `routes/expenses.js`.  The query is
`Expense.findById(id)`; the access check reads `expense.employee._id` of the
populated employee, which throws (answer 500) when that user does not exist. -/
def expensesGet (s : Store) (user : AuthUser) (id : ObjectId) : Response :=
  match s.expenses id with
  | none => ⟨404, "Expense not found", none, []⟩
  | some expense =>
    match s.findUserById expense.employee with
    | none => ⟨500, "Server error", none, []⟩
    | some employee =>
      if employee.id ≠ user.userId ∧ user.role ≠ Role.admin ∧ user.role ≠ Role.manager then
        ⟨403, "Access denied", none, []⟩
      else ⟨200, "", some expense, []⟩

/-- The answer of `GET /:id/history`: HTTP status, the `message` field and the
history when the body is one. -/
structure HistoryResponse where
  status : Nat
  message : String
  history : Option (List HistoryEntry)
deriving DecidableEq

/-- The handler `router.get('/:id/history')` of `routes/approvals.js`. -/
def approvalsHistory (s : Store) (_user : AuthUser) (id : ObjectId) : HistoryResponse :=
  match s.expenses id with
  | none => ⟨404, "Expense not found", none⟩
  | some expense => ⟨200, "", some expense.approvalHistory⟩

/-! ## `mongodb-server.js`: the notification after a decision -/

/-- What the calls of the notification block do: whether a `User.findById`
throws and whether `sendEmail` throws. -/
structure MailEnvironment where
  lookupThrows : Bool
  sendThrows : Bool
deriving DecidableEq

/-- A message handed to `sendEmail`: recipient and subject. -/
structure Mail where
  recipient : String
  subject : String
deriving DecidableEq

/-- The body of the `try` of lines 948-984 of `mongodb-server.js`: the mail
sent, if any, or the exception thrown.  Besides the two external calls, the
read of `approver.name` throws when the approver's user document is missing. -/
def notifyEmployee (s : Store) (env : MailEnvironment) (expense : Expense) (user : AuthUser)
    (action : Action) : Except String (Option Mail) :=
  if env.lookupThrows then Except.error "User.findById failed"
  else
    match s.findUserById expense.employee with
    | none => Except.ok none
    | some employee =>
      if employee.email = "" then Except.ok none
      else
        match s.findUserById user.userId with
        | none => Except.error "TypeError: approver is null"
        | some _ =>
          if env.sendThrows then Except.error "sendEmail failed"
          else
            Except.ok (some ⟨employee.email,
              if action = Action.approved then "Expense Approved" else "Expense Rejected"⟩)

/-- The whole handler `app.post('/api/approvals/:id/action')` of
`mongodb-server.js`: the decision, then the notification inside `try`/`catch`,
then the answer.  The third component lists the mails sent. -/
def mongodbApprovalsActionNotified (s : Store) (user : AuthUser) (id : ObjectId)
    (action : Action) (comment : Option String) (now : Nat) (env : MailEnvironment) :
    Store × Response × List Mail :=
  match (mongodbApprovalsAction s user id action comment now).2.expense with
  | none =>
    ((mongodbApprovalsAction s user id action comment now).1,
      (mongodbApprovalsAction s user id action comment now).2, [])
  | some expense =>
    match notifyEmployee (mongodbApprovalsAction s user id action comment now).1 env expense
        user action with
    | Except.ok (some mail) =>
      ((mongodbApprovalsAction s user id action comment now).1,
        (mongodbApprovalsAction s user id action comment now).2, [mail])
    | Except.ok none =>
      ((mongodbApprovalsAction s user id action comment now).1,
        (mongodbApprovalsAction s user id action comment now).2, [])
    | Except.error _ =>
      ((mongodbApprovalsAction s user id action comment now).1,
        (mongodbApprovalsAction s user id action comment now).2, [])

/-! ## The client: `components/Admin/ApprovalRules.js` -/

/-- The client function `handleToggleStatus(ruleId, isActive)`: it sends
`PATCH /:id/toggle` with the body `{ isActive: !isActive }`. -/
def handleToggleStatus (s : Store) (user : AuthUser) (ruleId : ObjectId) (isActive : Bool) :
    Store × RuleResponse :=
  rulesToggle s user ruleId (some (!isActive))

/-! ## Runs of approvals along a chain -/

/-- The store after the given approvals of the expense `id`, served one after
the other; each call carries its caller, comment and time. -/
def approveAll (s : Store) (id : ObjectId) : List (AuthUser × Option String × Nat) → Store
  | [] => s
  | (user, comment, now) :: rest =>
    approveAll (approvalsAction s user id Action.approved comment now).1 id rest

/-- Each call of the run is made by the user who is the current approver of
the expense `id` at that time. -/
def byCurrentApprover (s : Store) (id : ObjectId) :
    List (AuthUser × Option String × Nat) → Prop
  | [] => True
  | (user, comment, now) :: rest =>
    (∃ e, s.expenses id = some e ∧ e.currentApprover = some user.userId) ∧
      byCurrentApprover (approvalsAction s user id Action.approved comment now).1 id rest

/-- The state of an expense that has been approved by the first `k` approvers
of the order: it is pending, refers to the rule, waits for the approver at
index `k`, and its history holds the approvals of the first `k` users. -/
def chainState (rule : ApprovalRule) (ruleId : ObjectId) (k : Nat) (e : Expense) : Prop :=
  e.status = Status.pending ∧ e.approvalRule = some ruleId ∧
  e.currentApprover = ((sortApprovers rule.approvers)[k]?).map Approver.user ∧
  e.approvalHistory.map (fun h => (h.approver, h.action)) =
    ((sortApprovers rule.approvers).take k).map (fun a => (a.user, Action.approved))

/-! ## Rules that differ in `isManagerApprover` only -/

/-- The rule `r'` is the rule `r` up to the value of `isManagerApprover`. -/
def sameUpToManagerFlag (r r' : ApprovalRule) : Prop :=
  r' = { r with isManagerApprover := r'.isManagerApprover }

/-! ## The footprint of a rule handler -/

/-- The rule collection `after` is `before`, or is `before` with one rule
replaced or removed, that rule having the given id and company. -/
def touchesOnly (company id : ObjectId) (before after : List ApprovalRule) : Prop :=
  after = before ∨
  ∃ pre r post, before = pre ++ r :: post ∧ r.id = id ∧ r.company = company ∧
    (after = pre ++ post ∨ ∃ r', after = pre ++ r' :: post)

/-! ## Sample data

Users `1`, `2`, `3` stand for the approvers `A`, `B`, `C` of the scenarios of
the specification; the employee is user `9`, the company is `1`, the expense
is stored under `7` and the rule under `50`. -/

/-- A sample expense with the given lifecycle fields. -/
def sampleExpense (status : Status) (currentApprover : Option ObjectId)
    (approvalRule : Option ObjectId) (history : List HistoryEntry) : Expense :=
  { employee := 9
    company := 1
    description := "Test Business Lunch"
    category := "Food & Dining"
    amount := 50
    currency := "USD"
    amountInBaseCurrency := 50
    expenseDate := 20241004
    paidBy := "Company Credit Card"
    remarks := some "Client meeting"
    receipt := none
    status := status
    approvalRule := approvalRule
    currentApprover := currentApprover
    approvalHistory := history }

/-- A sample rule of company `1` with the given routing fields. -/
def sampleRule (approvers : List Approver) (minimumApprovalPercentage : ℚ)
    (conditionalApprovers : List ConditionalApprover) : ApprovalRule :=
  { id := 50
    company := 1
    name := "Meals"
    category := "Food & Dining"
    isManagerApprover := false
    approvers := approvers
    minimumApprovalPercentage := minimumApprovalPercentage
    conditionalApprovers := conditionalApprovers
    isActive := true }

/-- A store holding one expense, under id `7`, and the given rules. -/
def sampleStore (expense : Expense) (rules : List ApprovalRule) : Store :=
  { expenses := fun k => if k = 7 then some expense else none
    rules := rules
    users := []
    companies := [⟨1, "Acme", "US", "USD", 3⟩] }

/-- A manager token for the given user. -/
def managerToken (userId : ObjectId) : AuthUser :=
  ⟨userId, Role.manager, 1⟩

/-- The token of the employee, user `9`. -/
def employeeToken : AuthUser :=
  ⟨9, Role.employee, 1⟩

/-- The request body of the workflow test, in the base currency. -/
def sampleBody : ExpenseBody :=
  { description := "Test Business Lunch"
    category := "Food & Dining"
    amount := 50
    currency := "USD"
    expenseDate := 20241004
    paidBy := "Company Credit Card"
    remarks := some "Client meeting" }

/-- The users of the workflow test: admin `3`, manager `2` and employee `9`,
who reports to `2`. -/
def sampleUsers : List User :=
  [⟨3, "Admin User", "admin@test.com", Role.admin, 1, none, true⟩,
    ⟨2, "Manager User", "manager@test.com", Role.manager, 1, none, true⟩,
    ⟨9, "Employee User", "employee@test.com", Role.employee, 1, some 2, true⟩]

/-- A store holding one expense, under id `7`, the given rules and users. -/
def sampleUserStore (expense : Expense) (rules : List ApprovalRule) (users : List User) :
    Store :=
  { expenses := fun k => if k = 7 then some expense else none
    rules := rules
    users := users
    companies := [⟨1, "Acme", "US", "USD", 3⟩] }

/-- The token of user `20`, admin of another company, `2`. -/
def foreignAdminToken : AuthUser :=
  ⟨20, Role.admin, 2⟩

/-- The token of user `21`, employee of another company, `2`. -/
def foreignEmployeeToken : AuthUser :=
  ⟨21, Role.employee, 2⟩

/-- The token of the admin, user `3`. -/
def adminToken : AuthUser :=
  ⟨3, Role.admin, 1⟩

/-- A rule form as the client sends it. -/
def sampleRuleBody (name : Option String) (approvers : RawApprovers)
    (minimumApprovalPercentage : RawPercentage)
    (conditionalApprovers : Option (List ConditionalApprover)) : RuleBody :=
  { name := name
    category := some "Food & Dining"
    isManagerApprover := some true
    approvers := approvers
    minimumApprovalPercentage := minimumApprovalPercentage
    conditionalApprovers := conditionalApprovers
    isActive := none
    company := none }

/-- A store without expenses, holding the given rules. -/
def sampleEmptyStore (rules : List ApprovalRule) : Store :=
  { expenses := fun _ => none
    rules := rules
    users := []
    companies := [⟨1, "Acme", "US", "USD", 3⟩] }

/-- The chain of `n` approvers: user `i` with sequence `i`, for `i` from 1 to
`n`. -/
def sampleChain (n : Nat) : List Approver :=
  (List.range n).map (fun i => ⟨i + 1, i + 1⟩)

/-- A history in which the users 1 to `n` have approved, in this order. -/
def sampleApprovals (n : Nat) : List HistoryEntry :=
  (List.range n).map (fun i => ⟨i + 1, Action.approved, none, 0⟩)

/-! ## Auxiliary facts about the store and the decision handler -/

/-- Values of `roundDouble` at some familiar inputs: the doubles written `0.1`,
`0.58`, `0.3333333333333333` and `-0.8333333333333334`, the two products of
the handler that differ from the exact percentage (`57.99999999999999` and
`83.33333333333334`), the ties at `2 ^ 53 + 1` and `2 ^ 53 + 3`, and the fixed
points 1, 100 and `1e21`. -/
theorem roundDouble_values :
    roundDouble (1 / 10) = 3602879701896397 / 36028797018963968 ∧
    roundDouble (29 / 50) = 5224175567749775 / 9007199254740992 ∧
    roundDouble (1 / 3) = 6004799503160661 / 18014398509481984 ∧
    roundDouble (-5 / 6) = -7505999378950827 / 9007199254740992 ∧
    roundDouble (roundDouble (29 / 50) * 100) = 8162774324609023 / 140737488355328 ∧
    roundDouble (roundDouble (5 / 6) * 100) = 2932031007402667 / 35184372088832 ∧
    roundDouble (2 ^ 53 + 1) = 2 ^ 53 ∧
    roundDouble (2 ^ 53 + 3) = 2 ^ 53 + 4 ∧
    roundDouble 1 = 1 ∧ roundDouble 100 = 100 ∧ roundDouble (10 ^ 21) = 10 ^ 21 ∧
    roundDouble (1 / 10 ^ 6) = 4722366482869645 / 4722366482869645213696 := by
  decide!

/-- The halving count finds the leading binary digit. -/
theorem floorLog2_spec : ∀ (fuel n : Nat), 0 < n → n ≤ fuel →
    2 ^ floorLog2 fuel n ≤ n ∧ n < 2 ^ (floorLog2 fuel n + 1)
  | 0, n, h0, h => by omega
  | fuel + 1, n, h0, h => by
    unfold floorLog2
    by_cases h2 : n < 2
    · rw [if_pos h2]
      have h1 : n = 1 := by omega
      subst h1
      simp
    · rw [if_neg h2]
      have ih := floorLog2_spec fuel (n / 2) (by omega) (by omega)
      constructor
      · have := ih.1
        rw [pow_succ]
        omega
      · have := ih.2
        rw [pow_succ]
        omega

/-- The rounded quotient is within one half of the quotient. -/
theorem roundHalfEven_near (n d : Nat) (hd : 0 < d) :
    2 * roundHalfEven n d * d ≤ 2 * n + d ∧ 2 * n ≤ 2 * roundHalfEven n d * d + d := by
  have hdiv := Nat.div_add_mod n d
  have hmod := Nat.mod_lt n hd
  have e1 : 2 * (n / d) * d = 2 * (d * (n / d)) := by ring
  have e2 : 2 * (n / d + 1) * d = 2 * (d * (n / d)) + 2 * d := by ring
  unfold roundHalfEven
  split_ifs with h1 h2 h3
  · rw [e1]; omega
  · rw [e2]; omega
  · rw [e1]; omega
  · rw [e2]; omega

/-- The rounded quotient lies between integer bounds of the quotient. -/
theorem roundHalfEven_bounds (n d lo hi : Nat) (hd : 0 < d) (hlo : lo * d ≤ n)
    (hhi : n ≤ hi * d) : lo ≤ roundHalfEven n d ∧ roundHalfEven n d ≤ hi := by
  have hdiv := Nat.div_add_mod n d
  have hmod := Nat.mod_lt n hd
  have hq : lo ≤ n / d := (Nat.le_div_iff_mul_le hd).mpr hlo
  have hqhi : n / d ≤ hi := by
    apply Nat.div_le_of_le_mul
    rw [Nat.mul_comm]; exact hhi
  have hcase : n / d < hi ∨ (n / d = hi ∧ n % d = 0) := by
    rcases Nat.lt_or_ge (n / d) hi with h | h
    · exact Or.inl h
    · have he : n / d = hi := le_antisymm hqhi h
      refine Or.inr ⟨he, ?_⟩
      rw [he, Nat.mul_comm] at hdiv
      omega
  unfold roundHalfEven
  split_ifs with h1 h2 h3
  · exact ⟨hq, hqhi⟩
  · rcases hcase with h | ⟨_, h0⟩
    · exact ⟨by omega, by omega⟩
    · omega
  · exact ⟨hq, hqhi⟩
  · rcases hcase with h | ⟨_, h0⟩
    · exact ⟨by omega, by omega⟩
    · omega

/-- A power of two with an integer exponent, as a quotient of two powers with
natural exponents. -/
theorem two_zpow_eq (z : Int) :
    (2 : ℚ) ^ z = (2 : ℚ) ^ z.toNat / (2 : ℚ) ^ (-z).toNat := by
  rcases le_total 0 z with h | h
  · have h1 : (-z).toNat = 0 := Int.toNat_eq_zero.mpr (by omega)
    have h2 : ((z.toNat : Int)) = z := Int.toNat_of_nonneg h
    rw [h1, pow_zero, div_one]
    conv_lhs => rw [← h2]
    exact zpow_natCast 2 z.toNat
  · have h1 : z.toNat = 0 := Int.toNat_eq_zero.mpr h
    have h2 : (((-z).toNat : Int)) = -z := Int.toNat_of_nonneg (by omega)
    have h3 : z = -(((-z).toNat : Int)) := by omega
    rw [h1, pow_zero, one_div]
    conv_lhs => rw [h3]
    rw [zpow_neg, zpow_natCast]

/-- The binary exponent brackets the ratio between two powers of two. -/
theorem binaryExponent_spec (a b : Nat) (ha : 0 < a) (hb : 0 < b) :
    (2 : ℚ) ^ binaryExponent a b ≤ (a : ℚ) / (b : ℚ) ∧
      (a : ℚ) / (b : ℚ) < (2 : ℚ) ^ (binaryExponent a b + 1) := by
  obtain ⟨hla1, hla2⟩ := floorLog2_spec a a ha le_rfl
  obtain ⟨hlb1, hlb2⟩ := floorLog2_spec b b hb le_rfl
  have ha' : (0 : ℚ) < a := by exact_mod_cast ha
  have hb' : (0 : ℚ) < b := by exact_mod_cast hb
  have qla1 : (2 : ℚ) ^ floorLog2 a a ≤ a := by exact_mod_cast hla1
  have qla2 : (a : ℚ) < 2 ^ (floorLog2 a a + 1) := by exact_mod_cast hla2
  have qlb1 : (2 : ℚ) ^ floorLog2 b b ≤ b := by exact_mod_cast hlb1
  have qlb2 : (b : ℚ) < 2 ^ (floorLog2 b b + 1) := by exact_mod_cast hlb2
  have h2 : (2 : ℚ) ≠ 0 := two_ne_zero
  have hpa : (0 : ℚ) < 2 ^ floorLog2 a a := pow_pos two_pos _
  have hpb : (0 : ℚ) < 2 ^ floorLog2 b b := pow_pos two_pos _
  have hT : ∀ z : Int, (b * 2 ^ z.toNat ≤ a * 2 ^ (-z).toNat) ↔
      (2 : ℚ) ^ z ≤ (a : ℚ) / (b : ℚ) := by
    intro z
    rw [two_zpow_eq z, div_le_div_iff₀ (pow_pos two_pos _) hb']
    rw [← Nat.cast_le (α := ℚ)]
    push_cast
    rw [mul_comm (b : ℚ)]
  have hup : (a : ℚ) / (b : ℚ) <
      (2 : ℚ) ^ ((floorLog2 a a : Int) - (floorLog2 b b : Int) + 1) := by
    have he : ((floorLog2 a a : Int) - (floorLog2 b b : Int) + 1) =
        ((floorLog2 a a + 1 : Nat) : Int) - ((floorLog2 b b : Nat) : Int) := by
      push_cast; ring
    rw [he, zpow_sub₀ h2, zpow_natCast, zpow_natCast, div_lt_div_iff₀ hb' hpb]
    calc (a : ℚ) * 2 ^ floorLog2 b b ≤ a * b := by
          exact mul_le_mul_of_nonneg_left qlb1 ha'.le
      _ < 2 ^ (floorLog2 a a + 1) * b := by
          exact mul_lt_mul_of_pos_right qla2 hb'
  have hlow : (2 : ℚ) ^ ((floorLog2 a a : Int) - (floorLog2 b b : Int) - 1) ≤
      (a : ℚ) / (b : ℚ) := by
    have he : ((floorLog2 a a : Int) - (floorLog2 b b : Int) - 1) =
        ((floorLog2 a a : Nat) : Int) - ((floorLog2 b b + 1 : Nat) : Int) := by
      push_cast; ring
    rw [he, zpow_sub₀ h2, zpow_natCast, zpow_natCast,
      div_le_div_iff₀ (pow_pos two_pos _) hb']
    calc (2 : ℚ) ^ floorLog2 a a * b ≤ a * b := by
          exact mul_le_mul_of_nonneg_right qla1 hb'.le
      _ ≤ a * 2 ^ (floorLog2 b b + 1) := by
          exact mul_le_mul_of_nonneg_left qlb2.le ha'.le
  unfold binaryExponent
  dsimp only
  split_ifs with h
  · exact ⟨(hT _).mp h, hup⟩
  · refine ⟨hlow, ?_⟩
    rw [sub_add_cancel]
    exact not_le.mp (fun hle => h ((hT _).mpr hle))

/-- The rounding of a positive ratio: with `e` the binary exponent, the
result is `m * 2 ^ (e - 52)` for an integer `m` of 53 binary digits (or
`2 ^ 53`), and it differs from the ratio by at most `2 ^ (e - 53)`, half a unit
in the last place. -/
theorem roundRatio_spec (a b : Nat) (ha : 0 < a) (hb : 0 < b) :
    ∃ m : Nat, 2 ^ 52 ≤ m ∧ m ≤ 2 ^ 53 ∧
      roundRatio a b = (m : ℚ) * (2 : ℚ) ^ (binaryExponent a b - 52) ∧
      |roundRatio a b - (a : ℚ) / (b : ℚ)| ≤ (2 : ℚ) ^ (binaryExponent a b - 53) := by
  obtain ⟨he1, he2⟩ := binaryExponent_spec a b ha hb
  have ha' : (0 : ℚ) < a := by exact_mod_cast ha
  have hb' : (0 : ℚ) < b := by exact_mod_cast hb
  have h2 : (2 : ℚ) ≠ 0 := two_ne_zero
  unfold roundRatio
  dsimp only
  generalize binaryExponent a b = e at he1 he2 ⊢
  have hP := two_zpow_eq (52 - e)
  generalize (52 - e).toNat = S at hP ⊢
  generalize (-(52 - e)).toNat = R at hP ⊢
  have hPpos : (0 : ℚ) < (2 : ℚ) ^ (52 - e) := zpow_pos two_pos _
  have hEpos : (0 : ℚ) < (2 : ℚ) ^ e := zpow_pos two_pos _
  have hEP : (2 : ℚ) ^ e * (2 : ℚ) ^ (52 - e) = 2 ^ 52 := by
    rw [← zpow_add₀ h2]
    have : e + (52 - e) = ((52 : Nat) : Int) := by push_cast; ring
    rw [this, zpow_natCast]
  have hinv : (2 : ℚ) ^ (e - 52) = ((2 : ℚ) ^ (52 - e))⁻¹ := by
    rw [← zpow_neg]
    congr 1
    ring
  have hhalf : (2 : ℚ) ^ (e - 53) = ((2 : ℚ) ^ (52 - e))⁻¹ / 2 := by
    rw [← hinv, show e - 53 = (e - 52) - 1 by ring, zpow_sub_one₀ h2, div_eq_mul_inv]
  have hE1 : (2 : ℚ) ^ (e + 1) = 2 * (2 : ℚ) ^ e := by
    rw [zpow_add_one₀ h2, mul_comm]
  rw [hE1] at he2
  rw [hinv, hhalf]
  generalize (2 : ℚ) ^ (52 - e) = P at hP hPpos hEP ⊢
  generalize (2 : ℚ) ^ e = E at he1 he2 hEpos hEP
  have hr : (0 : ℚ) < (2 : ℚ) ^ R := pow_pos two_pos _
  have hs : (2 : ℚ) ^ S = P * 2 ^ R := by
    rw [hP, div_mul_cancel₀ _ hr.ne']
  have hx1 : E * (b : ℚ) ≤ a := (le_div_iff₀ hb').mp he1
  have hx2 : (a : ℚ) < 2 * E * b := (div_lt_iff₀ hb').mp he2
  have hPr : (0 : ℚ) < P * 2 ^ R := mul_pos hPpos hr
  have hD : 0 < b * 2 ^ R := Nat.mul_pos hb (pow_pos (by decide) _)
  have hlo : 2 ^ 52 * (b * 2 ^ R) ≤ a * 2 ^ S := by
    have hq : ((2 ^ 52 * (b * 2 ^ R) : Nat) : ℚ) ≤ ((a * 2 ^ S : Nat) : ℚ) := by
      simp only [Nat.cast_mul, Nat.cast_pow, Nat.cast_ofNat]
      rw [hs, ← hEP]
      calc E * P * ((b : ℚ) * 2 ^ R) = E * b * (P * 2 ^ R) := by ring
        _ ≤ a * (P * 2 ^ R) := mul_le_mul_of_nonneg_right hx1 hPr.le
    exact_mod_cast hq
  have hhi : a * 2 ^ S ≤ 2 ^ 53 * (b * 2 ^ R) := by
    have hq : ((a * 2 ^ S : Nat) : ℚ) ≤ ((2 ^ 53 * (b * 2 ^ R) : Nat) : ℚ) := by
      simp only [Nat.cast_mul, Nat.cast_pow, Nat.cast_ofNat]
      rw [hs]
      calc (a : ℚ) * (P * 2 ^ R) ≤ 2 * E * b * (P * 2 ^ R) :=
            mul_le_mul_of_nonneg_right hx2.le hPr.le
        _ = 2 * (E * P) * (b * 2 ^ R) := by ring
        _ = 2 ^ 53 * (b * 2 ^ R) := by rw [hEP]; norm_num
    exact_mod_cast hq
  obtain ⟨hm1, hm2⟩ := roundHalfEven_bounds _ _ _ _ hD hlo hhi
  obtain ⟨hn1, hn2⟩ := roundHalfEven_near (a * 2 ^ S) (b * 2 ^ R) hD
  generalize roundHalfEven (a * 2 ^ S) (b * 2 ^ R) = m at hm1 hm2 hn1 hn2 ⊢
  have qn1 : 2 * (m : ℚ) * (b * 2 ^ R) ≤ 2 * (a * (P * 2 ^ R)) + b * 2 ^ R := by
    rw [← hs]
    exact_mod_cast hn1
  have qn2 : 2 * ((a : ℚ) * (P * 2 ^ R)) ≤ 2 * (m : ℚ) * (b * 2 ^ R) + b * 2 ^ R := by
    rw [← hs]
    exact_mod_cast hn2
  have hval : (((m * 2 ^ R : Nat) : ℚ)) / ((2 ^ S : Nat) : ℚ) = (m : ℚ) * P⁻¹ := by
    push_cast
    rw [hs]
    field_simp
    ring
  refine ⟨m, hm1, hm2, hval, ?_⟩
  rw [hval]
  have k1 : 2 * (m : ℚ) * b ≤ 2 * (a * P) + b := by
    have := qn1
    have h' : 2 * (m : ℚ) * b * 2 ^ R ≤ (2 * (a * P) + b) * 2 ^ R := by
      calc 2 * (m : ℚ) * b * 2 ^ R = 2 * m * (b * 2 ^ R) := by ring
        _ ≤ 2 * (a * (P * 2 ^ R)) + b * 2 ^ R := qn1
        _ = (2 * (a * P) + b) * 2 ^ R := by ring
    exact le_of_mul_le_mul_right h' hr
  have k2 : 2 * ((a : ℚ) * P) ≤ 2 * (m : ℚ) * b + b := by
    have h' : 2 * ((a : ℚ) * P) * 2 ^ R ≤ (2 * (m : ℚ) * b + b) * 2 ^ R := by
      calc 2 * ((a : ℚ) * P) * 2 ^ R = 2 * (a * (P * 2 ^ R)) := by ring
        _ ≤ 2 * (m : ℚ) * (b * 2 ^ R) + b * 2 ^ R := qn2
        _ = (2 * (m : ℚ) * b + b) * 2 ^ R := by ring
    exact le_of_mul_le_mul_right h' hr
  have hPb : (0 : ℚ) < P * b := mul_pos hPpos hb'
  have hdiff : (m : ℚ) * P⁻¹ - (a : ℚ) / b = (m * b - a * P) / (P * b) := by
    field_simp
    ring
  rw [hdiff, abs_le]
  constructor
  · rw [le_div_iff₀ hPb]
    have : -(P⁻¹ / 2) * (P * b) = -(b / 2) := by
      field_simp
      ring
    rw [this]
    linarith
  · rw [div_le_iff₀ hPb]
    have : P⁻¹ / 2 * (P * b) = b / 2 := by
      field_simp
      ring
    rw [this]
    linarith

/-- The rounding of a positive rational `q`: for some integer exponent `e`
with `2 ^ e ≤ q < 2 ^ (e + 1)` the result is `m * 2 ^ (e - 52)` with
`2 ^ 52 ≤ m ≤ 2 ^ 53`, and it differs from `q` by at most `2 ^ (e - 53)`. -/
theorem roundDouble_spec (q : ℚ) (hq : 0 < q) :
    ∃ (e : Int) (m : Nat), (2 : ℚ) ^ e ≤ q ∧ q < (2 : ℚ) ^ (e + 1) ∧
      2 ^ 52 ≤ m ∧ m ≤ 2 ^ 53 ∧ roundDouble q = (m : ℚ) * (2 : ℚ) ^ (e - 52) ∧
      |roundDouble q - q| ≤ (2 : ℚ) ^ (e - 53) := by
  have hnum : 0 < q.num := Rat.num_pos.mpr hq
  have hne : q.num ≠ 0 := ne_of_gt hnum
  have ha : 0 < q.num.natAbs := Int.natAbs_pos.mpr hne
  have hb : 0 < q.den := q.den_pos
  have hcast : ((q.num.natAbs : ℚ)) / (q.den : ℚ) = q := by
    have h2 : ((q.num.natAbs : ℚ)) = (q.num : ℚ) := by
      rw [Nat.cast_natAbs, abs_of_nonneg hnum.le]
    rw [h2]
    exact Rat.num_div_den q
  obtain ⟨he1, he2⟩ := binaryExponent_spec _ _ ha hb
  obtain ⟨m, hm1, hm2, hval, herr⟩ := roundRatio_spec _ _ ha hb
  rw [hcast] at he1 he2 herr
  have hrd : roundDouble q = roundRatio q.num.natAbs q.den := by
    unfold roundDouble
    rw [if_neg hne, if_pos hnum]
  rw [← hrd] at hval herr
  exact ⟨_, m, he1, he2, hm1, hm2, hval, herr⟩

/-- Rounding is odd and fixes zero. -/
theorem roundDouble_neg (q : ℚ) : roundDouble (-q) = -roundDouble q := by
  unfold roundDouble
  rw [Rat.neg_num, Rat.neg_den, Int.natAbs_neg]
  rcases lt_trichotomy q.num 0 with h | h | h
  · have h1 : ¬ (-q.num = 0) := by omega
    have h2 : 0 < -q.num := by omega
    have h3 : ¬ (q.num = 0) := by omega
    have h4 : ¬ (0 < q.num) := by omega
    rw [if_neg h1, if_pos h2, if_neg h3, if_neg h4, neg_neg]
  · rw [h]
    simp
  · have h1 : ¬ (-q.num = 0) := by omega
    have h2 : ¬ (0 < -q.num) := by omega
    have h3 : ¬ (q.num = 0) := by omega
    rw [if_neg h1, if_neg h2, if_neg h3, if_pos h]

theorem saveExpense_same (s : Store) (id : ObjectId) (e : Expense) :
    (s.saveExpense id e).expenses id = some e := by
  simp [Store.saveExpense]

theorem saveExpense_other (s : Store) (id k : ObjectId) (e : Expense) (h : k ≠ id) :
    (s.saveExpense id e).expenses k = s.expenses k := by
  simp [Store.saveExpense, h]

theorem findOneExpense_eq_some_iff (s : Store) (id : ObjectId) (c : Expense → Bool)
    (e : Expense) :
    s.findOneExpense id c = some e ↔ s.expenses id = some e ∧ c e = true := by
  unfold Store.findOneExpense
  cases h : s.expenses id with
  | none => simp [Option.filter]
  | some x =>
    by_cases hc : c x = true
    · simp only [Option.filter, hc, if_true, Option.some.injEq]
      constructor
      · intro hx; subst hx; exact ⟨rfl, hc⟩
      · intro hx; exact hx.1
    · simp only [Option.filter, hc, Bool.false_eq_true, if_false, Option.some.injEq]
      constructor
      · intro hx; cases hx
      · intro hx; rw [← hx.1] at hx; exact absurd hx.2 hc

theorem findOneExpense_eq_none_iff (s : Store) (id : ObjectId) (c : Expense → Bool) :
    s.findOneExpense id c = none ↔ ∀ e, s.expenses id = some e → c e = false := by
  unfold Store.findOneExpense
  cases h : s.expenses id with
  | none => simp [Option.filter]
  | some x =>
    by_cases hc : c x = true
    · simp [Option.filter, hc]
    · simp [Option.filter, hc]

/-- A pending expense whose current approver is the caller is decided and saved. -/
theorem approvalsAction_of_pending (s : Store) (user : AuthUser) (id : ObjectId)
    (action : Action) (comment : Option String) (now : Nat) (e : Expense)
    (he : s.expenses id = some e) (hs : e.status = Status.pending)
    (hc : e.currentApprover = some user.userId) :
    approvalsAction s user id action comment now =
      (s.saveExpense id (decided s e user action comment now),
        ⟨200, "Expense " ++ action.toString ++ " successfully",
          some (decided s e user action comment now), []⟩) := by
  have hf : s.findOneExpense id
      (fun e => e.currentApprover == some user.userId && e.status == Status.pending) = some e := by
    rw [findOneExpense_eq_some_iff]
    exact ⟨he, by simp [hs, hc]⟩
  simp only [approvalsAction, hf, decided, pushedEntry]

/-- Any other request to the decision handler is answered 404 and changes nothing. -/
theorem approvalsAction_of_not_pending (s : Store) (user : AuthUser) (id : ObjectId)
    (action : Action) (comment : Option String) (now : Nat)
    (h : ∀ e, s.expenses id = some e →
      ¬ (e.status = Status.pending ∧ e.currentApprover = some user.userId)) :
    approvalsAction s user id action comment now =
      (s, ⟨404, "Expense not found or not pending your approval", none, []⟩) := by
  have hf : s.findOneExpense id
      (fun e => e.currentApprover == some user.userId && e.status == Status.pending) = none := by
    rw [findOneExpense_eq_none_iff]
    intro e he
    have := h e he
    by_cases h1 : e.status = Status.pending
    · have h2 : e.currentApprover ≠ some user.userId := fun h2 => this ⟨h1, h2⟩
      simp [h2]
    · simp [h1]
  simp only [approvalsAction, hf]

/-! ## Claims about `POST /:id/action` -/

/-- C1. The decision handler of `routes/approvals.js` answers 200 only for an
expense that is stored under the given id, is pending and has the caller as
current approver; for every other request it answers 404 with the
not-found-or-not-yours message and returns the store as it was. -/
theorem approvalsAction_guard (s : Store) (user : AuthUser) (id : ObjectId)
    (action : Action) (comment : Option String) (now : Nat) :
    ((approvalsAction s user id action comment now).2.status = 200 →
      ∃ e, s.expenses id = some e ∧ e.status = Status.pending ∧
        e.currentApprover = some user.userId) ∧
    ((¬ ∃ e, s.expenses id = some e ∧ e.status = Status.pending ∧
        e.currentApprover = some user.userId) →
      approvalsAction s user id action comment now =
        (s, ⟨404, "Expense not found or not pending your approval", none, []⟩)) := by
  have key : (¬ ∃ e, s.expenses id = some e ∧ e.status = Status.pending ∧
        e.currentApprover = some user.userId) →
      approvalsAction s user id action comment now =
        (s, ⟨404, "Expense not found or not pending your approval", none, []⟩) := by
    intro h
    apply approvalsAction_of_not_pending
    intro e he hp
    exact h ⟨e, he, hp.1, hp.2⟩
  refine ⟨?_, key⟩
  intro h200
  by_contra hne
  rw [key hne] at h200
  simp at h200

/-- Witness of C1: user `2` acting on an expense that waits for user `1` is
answered 404 and the store is returned as it was. -/
theorem approvalsAction_guard_witness :
    approvalsAction (sampleStore (sampleExpense Status.pending (some 1) none []) [])
        (managerToken 2) 7 Action.approved none 0 =
      (sampleStore (sampleExpense Status.pending (some 1) none []) [],
        ⟨404, "Expense not found or not pending your approval", none, []⟩) :=
  (approvalsAction_guard (sampleStore (sampleExpense Status.pending (some 1) none []) [])
      (managerToken 2) 7 Action.approved none 0).2
    (by
      rintro ⟨e, he, -, hc⟩
      simp only [sampleStore, if_true, Option.some.injEq] at he
      subst he
      simp [sampleExpense, managerToken] at hc)

theorem evaluateAction_approvalHistory (x : Expense) (rule : Option ApprovalRule)
    (userId : ObjectId) (action : Action) :
    (evaluateAction x rule userId action).approvalHistory = x.approvalHistory := by
  unfold evaluateAction
  split
  · rfl
  · split
    · dsimp only
      split
      · rfl
      · split
        · rfl
        · split <;> rfl
    · rfl

theorem decided_approvalHistory (s : Store) (e : Expense) (user : AuthUser) (action : Action)
    (comment : Option String) (now : Nat) :
    (decided s e user action comment now).approvalHistory =
      e.approvalHistory ++ [pushedEntry user action comment now] := by
  simp [decided, evaluateAction_approvalHistory]

theorem decided_rejected (s : Store) (e : Expense) (user : AuthUser)
    (comment : Option String) (now : Nat) :
    (decided s e user Action.rejected comment now).status = Status.rejected ∧
      (decided s e user Action.rejected comment now).currentApprover = none := by
  simp [decided, evaluateAction]

/-- C2. A rejection by the current approver of a pending expense is saved with
status `rejected` and no current approver, for any rule store (so for any rule
attached to the expense, or none) and any position of the caller in it. -/
theorem approvalsAction_rejected (s : Store) (user : AuthUser) (id : ObjectId)
    (comment : Option String) (now : Nat) (e : Expense)
    (he : s.expenses id = some e) (hs : e.status = Status.pending)
    (hc : e.currentApprover = some user.userId) :
    (approvalsAction s user id Action.rejected comment now).2.status = 200 ∧
    ∃ e', (approvalsAction s user id Action.rejected comment now).1.expenses id = some e' ∧
      (approvalsAction s user id Action.rejected comment now).2.expense = some e' ∧
      e'.status = Status.rejected ∧ e'.currentApprover = none := by
  rw [approvalsAction_of_pending s user id Action.rejected comment now e he hs hc]
  exact ⟨rfl, _, saveExpense_same _ _ _, rfl, decided_rejected s e user comment now⟩

/-- Witness of C2: user `1`, first of the chain `A, B, C`, rejects. -/
theorem approvalsAction_rejected_witness :
    ∃ e', (approvalsAction
        (sampleStore (sampleExpense Status.pending (some 1) (some 50) [])
          [sampleRule [⟨3, 3⟩, ⟨1, 1⟩, ⟨2, 2⟩] 100 []])
        (managerToken 1) 7 Action.rejected none 0).1.expenses 7 = some e' ∧
      e'.status = Status.rejected ∧ e'.currentApprover = none :=
  let ⟨e', h1, _, h3⟩ := (approvalsAction_rejected
    (sampleStore (sampleExpense Status.pending (some 1) (some 50) [])
      [sampleRule [⟨3, 3⟩, ⟨1, 1⟩, ⟨2, 2⟩] 100 []])
    (managerToken 1) 7 none 0 (sampleExpense Status.pending (some 1) (some 50) [])
    (by decide) (by decide) (by decide)).2
  ⟨e', h1, h3⟩

theorem filter_orderedInsert_sequence (k : Int) (a : Approver) (l : List Approver) :
    (l.orderedInsert (fun x y => x.sequence ≤ y.sequence) a).filter
        (fun x => decide (x.sequence = k)) =
      (a :: l).filter (fun x => decide (x.sequence = k)) := by
  induction l with
  | nil => rfl
  | cons b l ih =>
    simp only [List.orderedInsert]
    split_ifs with hab
    · rfl
    · have hlt : b.sequence < a.sequence := lt_of_not_le hab
      rw [List.filter_cons, ih]
      by_cases ha : a.sequence = k <;> by_cases hb : b.sequence = k <;>
        simp [List.filter_cons, ha, hb]
      omega

/-- The sort of the handlers is the stable ascending sort by `sequence`. -/
theorem sortApprovers_spec (l : List Approver) :
    List.Sorted (fun x y => x.sequence ≤ y.sequence) (sortApprovers l) ∧
    (sortApprovers l).Perm l ∧
    ∀ k : Int, (sortApprovers l).filter (fun x => decide (x.sequence = k)) =
      l.filter (fun x => decide (x.sequence = k)) := by
  haveI : IsTotal Approver (fun x y => x.sequence ≤ y.sequence) := ⟨fun x y => le_total _ _⟩
  haveI : IsTrans Approver (fun x y => x.sequence ≤ y.sequence) :=
    ⟨fun x y z hxy hyz => le_trans hxy hyz⟩
  refine ⟨List.sorted_insertionSort _ l, List.perm_insertionSort _ l, ?_⟩
  intro k
  induction l with
  | nil => rfl
  | cons a l ih =>
    show (List.orderedInsert _ a (List.insertionSort _ l)).filter _ = _
    rw [filter_orderedInsert_sequence, List.filter_cons, List.filter_cons]
    have ih' : (List.insertionSort (fun x y => x.sequence ≤ y.sequence) l).filter
        (fun x => decide (x.sequence = k)) = l.filter (fun x => decide (x.sequence = k)) := ih
    rw [ih']

theorem sortApprovers_length (l : List Approver) : (sortApprovers l).length = l.length :=
  List.length_insertionSort _ l

theorem findIndex_eq_of_first {α : Type} (xs : List α) (p : α → Bool) (i : Nat) (a : α)
    (hi : xs[i]? = some a) (ha : p a = true)
    (hfirst : ∀ j c, j < i → xs[j]? = some c → p c = false) :
    findIndex xs p = (i : Int) := by
  obtain ⟨hlt, hget⟩ := List.getElem?_eq_some_iff.mp hi
  have hidx : xs.findIdx p = i := by
    rw [List.findIdx_eq hlt]
    refine ⟨by rw [hget]; exact ha, ?_⟩
    intro j hji
    exact hfirst j _ hji (List.getElem?_eq_getElem (Nat.lt_trans hji hlt))
  unfold findIndex
  rw [hidx, if_pos hlt]

theorem findIndex_eq_neg_one {α : Type} (xs : List α) (p : α → Bool)
    (h : ∀ x ∈ xs, p x = false) : findIndex xs p = -1 := by
  unfold findIndex
  rw [List.findIdx_eq_length.mpr h, if_neg (Nat.lt_irrefl _)]

theorem populateApprovalRule_eq (s : Store) (e : Expense) (ruleId : ObjectId)
    (rule : ApprovalRule) (hrid : e.approvalRule = some ruleId)
    (hrule : s.findRuleById ruleId = some rule) :
    s.populateApprovalRule e = some rule := by
  simp [Store.populateApprovalRule, hrid, hrule]

/-- Approval by an approver found before the last index moves to the next one. -/
theorem evaluateAction_advance (x : Expense) (rule : ApprovalRule) (userId : ObjectId)
    (i : Nat) (a b : Approver)
    (hi : (sortApprovers rule.approvers)[i]? = some a) (ha : a.user = userId)
    (hfirst : ∀ j c, j < i → (sortApprovers rule.approvers)[j]? = some c → c.user ≠ userId)
    (hb : (sortApprovers rule.approvers)[i + 1]? = some b) :
    evaluateAction x (some rule) userId Action.approved =
      { x with currentApprover := some b.user } := by
  have hidx : findIndex (sortApprovers rule.approvers) (fun approver => approver.user == userId)
      = (i : Int) := by
    apply findIndex_eq_of_first _ _ i a hi
    · simp [ha]
    · intro j c hj hc
      simpa using hfirst j c hj hc
  have hlen : i + 1 < (sortApprovers rule.approvers).length :=
    (List.getElem?_eq_some_iff.mp hb).1
  have hcond : (i : Int) < ((sortApprovers rule.approvers).length : Int) - 1 := by omega
  have hnat : ((i : Int) + 1).toNat = i + 1 := by omega
  simp only [evaluateAction, hidx, hcond, hnat, hb]
  simp

/-- Approval by an approver found at the last index is settled by the
threshold and the conditional approvers. -/
theorem evaluateAction_last (x : Expense) (rule : ApprovalRule) (userId : ObjectId)
    (i : Nat) (a : Approver)
    (hi : (sortApprovers rule.approvers)[i]? = some a) (ha : a.user = userId)
    (hfirst : ∀ j c, j < i → (sortApprovers rule.approvers)[j]? = some c → c.user ≠ userId)
    (hlast : i + 1 = (sortApprovers rule.approvers).length) :
    evaluateAction x (some rule) userId Action.approved =
      if (approvalPercentage x.approvalHistory (sortApprovers rule.approvers)).ge
          rule.minimumApprovalPercentage then
        { x with status := Status.approved, currentApprover := none }
      else if hasConditionalApproval rule.conditionalApprovers x.approvalHistory then
        { x with status := Status.approved, currentApprover := none }
      else { x with currentApprover := none } := by
  have hidx : findIndex (sortApprovers rule.approvers) (fun approver => approver.user == userId)
      = (i : Int) := by
    apply findIndex_eq_of_first _ _ i a hi
    · simp [ha]
    · intro j c hj hc
      simpa using hfirst j c hj hc
  have hcond : ¬ ((i : Int) < ((sortApprovers rule.approvers).length : Int) - 1) := by omega
  simp only [evaluateAction, hidx, hcond]
  simp

/-- The percentage of the handler, for a non-empty approver list, is the
quotient `count / total` rounded to a double, times 100, rounded again. -/
theorem approvalPercentage_eq (history : List HistoryEntry) (sorted : List Approver)
    (h : sorted ≠ []) :
    approvalPercentage history sorted =
      JSNumber.finite (roundDouble (roundDouble
        ((history.countP (fun h => h.action = Action.approved) : ℚ) / (sorted.length : ℚ)) *
          100)) := by
  have hl : sorted.length ≠ 0 := by
    intro h0; exact h (List.length_eq_zero.mp h0)
  have hc : approvalCount history = history.countP (fun h => h.action = Action.approved) := by
    unfold approvalCount
    rw [List.countP_eq_length_filter]
    congr 1
  unfold approvalPercentage JSNumber.divLengths
  rw [if_neg hl, hc]
  rfl

theorem approvalPercentage_ge_iff (history : List HistoryEntry) (sorted : List Approver)
    (h : sorted ≠ []) (m : ℚ) :
    (approvalPercentage history sorted).ge m = true ↔
      m ≤ roundDouble (roundDouble
        ((history.countP (fun h => h.action = Action.approved) : ℚ) / (sorted.length : ℚ)) *
          100) := by
  rw [approvalPercentage_eq history sorted h]
  simp [JSNumber.ge]

/-- The numbers 1 and 100 are doubles, so `(n / n) * 100` is exactly 100. -/
theorem roundDouble_full (n : Nat) (h : n ≠ 0) :
    roundDouble (roundDouble ((n : ℚ) / (n : ℚ)) * 100) = 100 := by
  have hn : (n : ℚ) ≠ 0 := Nat.cast_ne_zero.mpr h
  rw [div_self hn]
  have h1 : roundDouble 1 = 1 := by decide!
  rw [h1]
  have h100 : roundDouble (1 * 100) = 100 := by decide!
  exact h100

theorem hasConditionalApproval_iff (cs : List ConditionalApprover) (history : List HistoryEntry) :
    hasConditionalApproval cs history = true ↔
      ∃ c ∈ cs, c.autoApprove = true ∧
        ∃ h ∈ history, h.approver = c.user ∧ h.action = Action.approved := by
  unfold hasConditionalApproval
  simp only [List.any_eq_true, Bool.and_eq_true, beq_iff_eq]
  constructor
  · rintro ⟨c, hc, h, hh, ⟨h1, h2⟩, h3⟩
    exact ⟨c, hc, h3, h, hh, h1, h2⟩
  · rintro ⟨c, hc, h3, h, hh, h1, h2⟩
    exact ⟨c, hc, h, hh, ⟨h1, h2⟩, h3⟩

/-- C3, counterexample to the claim as stated.  With approvers `A(1), A(2), B(3)`
user `A` sits at index 1, which is not the last index, and the user at index 2
is `B`; after `A` approves, the current approver is `A` again, not `B`. -/
theorem approvalsAction_advances_counterexample :
    (sortApprovers [⟨1, 1⟩, ⟨1, 2⟩, ⟨2, 3⟩])[1]? = some ⟨1, 2⟩ ∧
    (sortApprovers [⟨1, 1⟩, ⟨1, 2⟩, ⟨2, 3⟩])[2]? = some ⟨2, 3⟩ ∧
    ((approvalsAction
        (sampleStore (sampleExpense Status.pending (some 1) (some 50) [])
          [sampleRule [⟨1, 1⟩, ⟨1, 2⟩, ⟨2, 3⟩] 100 []])
        (managerToken 1) 7 Action.approved none 0).1.expenses 7).map
      (fun e => (e.status, e.currentApprover)) = some (Status.pending, some 1) := by
  decide

/-- C3, amended.  For a pending expense with an attached rule, let the sorted
approvers be the rule's approvers in ascending order of `sequence`, equal
sequences kept in insertion order.  If the acting approver sits at index `i` of
the sorted approvers and at no earlier index, and index `i + 1` exists, then an
approval leaves the status `pending` and makes the user at index `i + 1` the
current approver. -/
theorem approvalsAction_advances (s : Store) (user : AuthUser) (id : ObjectId)
    (comment : Option String) (now : Nat) (e : Expense) (ruleId : ObjectId)
    (rule : ApprovalRule) (i : Nat) (a b : Approver)
    (he : s.expenses id = some e) (hs : e.status = Status.pending)
    (hc : e.currentApprover = some user.userId)
    (hrid : e.approvalRule = some ruleId) (hrule : s.findRuleById ruleId = some rule)
    (hi : (sortApprovers rule.approvers)[i]? = some a) (ha : a.user = user.userId)
    (hfirst : ∀ j c, j < i → (sortApprovers rule.approvers)[j]? = some c →
      c.user ≠ user.userId)
    (hb : (sortApprovers rule.approvers)[i + 1]? = some b) :
    (List.Sorted (fun x y => x.sequence ≤ y.sequence) (sortApprovers rule.approvers) ∧
      (sortApprovers rule.approvers).Perm rule.approvers ∧
      ∀ k : Int, (sortApprovers rule.approvers).filter (fun x => decide (x.sequence = k)) =
        rule.approvers.filter (fun x => decide (x.sequence = k))) ∧
    ∃ e', (approvalsAction s user id Action.approved comment now).1.expenses id = some e' ∧
      (approvalsAction s user id Action.approved comment now).2.expense = some e' ∧
      e'.status = Status.pending ∧ e'.currentApprover = some b.user := by
  refine ⟨sortApprovers_spec rule.approvers, ?_⟩
  rw [approvalsAction_of_pending s user id Action.approved comment now e he hs hc]
  refine ⟨_, saveExpense_same _ _ _, rfl, ?_⟩
  unfold decided
  rw [populateApprovalRule_eq s e ruleId rule hrid hrule,
    evaluateAction_advance _ rule user.userId i a b hi ha hfirst hb]
  exact ⟨hs, rfl⟩

/-- Witness of C3: sequences `[3, 1, 2]` for users `[C, A, B]`; approving as
`A` makes `B` the current approver. -/
theorem approvalsAction_advances_witness :
    ∃ e', (approvalsAction
        (sampleStore (sampleExpense Status.pending (some 1) (some 50) [])
          [sampleRule [⟨3, 3⟩, ⟨1, 1⟩, ⟨2, 2⟩] 100 []])
        (managerToken 1) 7 Action.approved none 0).1.expenses 7 = some e' ∧
      e'.status = Status.pending ∧ e'.currentApprover = some 2 :=
  let ⟨e', h1, _, h3, h4⟩ := (approvalsAction_advances
    (sampleStore (sampleExpense Status.pending (some 1) (some 50) [])
      [sampleRule [⟨3, 3⟩, ⟨1, 1⟩, ⟨2, 2⟩] 100 []])
    (managerToken 1) 7 none 0 (sampleExpense Status.pending (some 1) (some 50) []) 50
    (sampleRule [⟨3, 3⟩, ⟨1, 1⟩, ⟨2, 2⟩] 100 []) 0 ⟨1, 1⟩ ⟨2, 2⟩
    (by decide) (by decide) (by decide) (by decide) (by decide) (by decide) (by decide)
    (by intro j c hj; omega) (by decide)).2
  ⟨e', h1, h3, h4⟩

/-- C4, counterexample to the claim as stated, in two parts.  (1) With
approvers `A(1), A(2)` and threshold 50, user `A` is the last approver of the
order and `100 * 1 / 2 = 50` meets the threshold; yet the expense is saved
`pending` with `A` as current approver.  (2) With fifty distinct approvers, of
whom 28 have approved, and threshold 58, the last approver approves:
`100 * 29 / 50 = 58` meets the threshold, but the handler computes
`(29 / 50) * 100` in doubles, which is `57.99999999999999`, and saves the
expense `pending` with no current approver. -/
theorem approvalsAction_threshold_counterexample :
    ((sortApprovers [⟨1, 1⟩, ⟨1, 2⟩]).getLast? = some ⟨1, 2⟩ ∧
      (50 : ℚ) ≤ 100 * (([HistoryEntry.mk 1 Action.approved none 0].countP
        (fun h : HistoryEntry => h.action = Action.approved) : Nat) : ℚ) /
          (([⟨1, 1⟩, ⟨1, 2⟩] : List Approver).length : ℚ) ∧
      ((approvalsAction
          (sampleStore (sampleExpense Status.pending (some 1) (some 50) [])
            [sampleRule [⟨1, 1⟩, ⟨1, 2⟩] 50 []])
          (managerToken 1) 7 Action.approved none 0).1.expenses 7).map
        (fun e => (e.status, e.currentApprover)) = some (Status.pending, some 1)) ∧
    ((sortApprovers (sampleChain 50)).getLast? = some ⟨50, 50⟩ ∧
      findIndex (sortApprovers (sampleChain 50)) (fun approver => approver.user == 50) = 49 ∧
      (58 : ℚ) ≤ 100 * (((sampleApprovals 28 ++ [HistoryEntry.mk 50 Action.approved none 0]).countP
        (fun h : HistoryEntry => h.action = Action.approved) : Nat) : ℚ) /
          ((sampleChain 50).length : ℚ) ∧
      approvalPercentage (sampleApprovals 28 ++ [HistoryEntry.mk 50 Action.approved none 0])
          (sortApprovers (sampleChain 50)) =
        JSNumber.finite (8162774324609023 / 140737488355328) ∧
      (8162774324609023 / 140737488355328 : ℚ) < 58 ∧
      ((approvalsAction
          (sampleStore (sampleExpense Status.pending (some 50) (some 50) (sampleApprovals 28))
            [sampleRule (sampleChain 50) 58 []])
          (managerToken 50) 7 Action.approved none 0).1.expenses 7).map
        (fun e => (e.status, e.currentApprover)) = some (Status.pending, none)) := by
  decide!

/-- C4, amended.  When the acting approver sits at the last index of the sorted
approvers and at no earlier index, an approval computes the percentage
`(count / total) * 100` in double-precision arithmetic, the quotient and the
product each rounded to the nearest double, where `count` is the number of
`approved` entries of the history including the entry just pushed, whoever
made them, and `total` is the number of approvers of the rule; when that
percentage is at least `minimumApprovalPercentage` the expense is saved
`approved` with no current approver. -/
theorem approvalsAction_threshold (s : Store) (user : AuthUser) (id : ObjectId)
    (comment : Option String) (now : Nat) (e : Expense) (ruleId : ObjectId)
    (rule : ApprovalRule) (i : Nat) (a : Approver)
    (he : s.expenses id = some e) (hs : e.status = Status.pending)
    (hc : e.currentApprover = some user.userId)
    (hrid : e.approvalRule = some ruleId) (hrule : s.findRuleById ruleId = some rule)
    (hi : (sortApprovers rule.approvers)[i]? = some a) (ha : a.user = user.userId)
    (hfirst : ∀ j c, j < i → (sortApprovers rule.approvers)[j]? = some c →
      c.user ≠ user.userId)
    (hlast : i + 1 = (sortApprovers rule.approvers).length) :
    approvalPercentage (e.approvalHistory ++ [HistoryEntry.mk user.userId Action.approved comment now])
        (sortApprovers rule.approvers) =
      JSNumber.finite (roundDouble (roundDouble
        ((((e.approvalHistory ++ [HistoryEntry.mk user.userId Action.approved comment now]).countP
          (fun h : HistoryEntry => h.action = Action.approved) : Nat) : ℚ) /
            (rule.approvers.length : ℚ)) * 100)) ∧
    (rule.minimumApprovalPercentage ≤
        roundDouble (roundDouble
          ((((e.approvalHistory ++ [HistoryEntry.mk user.userId Action.approved comment now]).countP
            (fun h : HistoryEntry => h.action = Action.approved) : Nat) : ℚ) /
              (rule.approvers.length : ℚ)) * 100) →
      ∃ e', (approvalsAction s user id Action.approved comment now).1.expenses id = some e' ∧
        (approvalsAction s user id Action.approved comment now).2.expense = some e' ∧
        e'.status = Status.approved ∧ e'.currentApprover = none) := by
  have hne : sortApprovers rule.approvers ≠ [] := by
    intro h0
    rw [h0] at hlast
    simp at hlast
  have hlen := sortApprovers_length rule.approvers
  refine ⟨?_, ?_⟩
  · rw [approvalPercentage_eq _ _ hne, hlen]
  · intro hmin
    rw [approvalsAction_of_pending s user id Action.approved comment now e he hs hc]
    refine ⟨_, saveExpense_same _ _ _, rfl, ?_⟩
    unfold decided
    rw [populateApprovalRule_eq s e ruleId rule hrid hrule,
      evaluateAction_last _ rule user.userId i a hi ha hfirst hlast]
    have hge : (approvalPercentage
        (e.approvalHistory ++ [pushedEntry user Action.approved comment now])
        (sortApprovers rule.approvers)).ge rule.minimumApprovalPercentage = true := by
      rw [approvalPercentage_ge_iff _ _ hne, hlen]
      exact hmin
    rw [if_pos hge]
    exact ⟨rfl, rfl⟩

/-- Witness of C4: six approvers, of whom four have approved, threshold
`83.33333333333334`; the last approver approves and `(5 / 6) * 100`, computed
in doubles, is that double, so the threshold is met, although
`100 * 5 / 6` is below it. -/
theorem approvalsAction_threshold_witness :
    (100 * 5 / 6 : ℚ) < 2932031007402667 / 35184372088832 ∧
    ∃ e', (approvalsAction
        (sampleStore
          (sampleExpense Status.pending (some 6) (some 50) (sampleApprovals 4))
          [sampleRule (sampleChain 6) (2932031007402667 / 35184372088832) []])
        (managerToken 6) 7 Action.approved none 1).1.expenses 7 = some e' ∧
      e'.status = Status.approved ∧ e'.currentApprover = none :=
  let ⟨e', h1, _, h3, h4⟩ := (approvalsAction_threshold
    (sampleStore
      (sampleExpense Status.pending (some 6) (some 50) (sampleApprovals 4))
      [sampleRule (sampleChain 6) (2932031007402667 / 35184372088832) []])
    (managerToken 6) 7 none 1
    (sampleExpense Status.pending (some 6) (some 50) (sampleApprovals 4)) 50
    (sampleRule (sampleChain 6) (2932031007402667 / 35184372088832) []) 5 ⟨6, 6⟩
    (by decide) (by decide) (by decide) (by decide) (by decide!) (by decide) (by decide)
    (by
      intro j c hj hc
      have hsorted : sortApprovers
          (sampleRule (sampleChain 6) (2932031007402667 / 35184372088832) []).approvers =
          [⟨1, 1⟩, ⟨2, 2⟩, ⟨3, 3⟩, ⟨4, 4⟩, ⟨5, 5⟩, ⟨6, 6⟩] := by decide
      rw [hsorted] at hc
      interval_cases j <;> simp at hc <;> subst hc <;> decide)
    (by decide)).2 (by decide!)
  ⟨by decide!, e', h1, h3, h4⟩

/-- C5, counterexample to the claim as stated, in two parts.  (1) With
approvers `A(1), A(2)`, threshold 100 and `A` an auto-approve conditional
approver, user `A` is the last approver of the order, the percentage after the
approval (50) is below the threshold and the history holds an approval by `A`;
yet the expense is saved `pending`, not `approved`, and its current approver is
`A`, not null.  (2) With six distinct approvers, of whom four have approved, no
conditional approver and the threshold `83.33333333333334` (a double), the last
approver approves: `100 * 5 / 6` is below the threshold, but the handler
computes `(5 / 6) * 100` in doubles, which is that very double, and saves the
expense `approved`. -/
theorem approvalsAction_conditional_counterexample :
    ((sortApprovers [⟨1, 1⟩, ⟨1, 2⟩]).getLast? = some ⟨1, 2⟩ ∧
      100 * (([HistoryEntry.mk 1 Action.approved none 0].countP
        (fun h : HistoryEntry => h.action = Action.approved) : Nat) : ℚ) /
          (([⟨1, 1⟩, ⟨1, 2⟩] : List Approver).length : ℚ) < 100 ∧
      hasConditionalApproval [⟨1, true⟩] [⟨1, Action.approved, none, 0⟩] = true ∧
      ((approvalsAction
          (sampleStore (sampleExpense Status.pending (some 1) (some 50) [])
            [sampleRule [⟨1, 1⟩, ⟨1, 2⟩] 100 [⟨1, true⟩]])
          (managerToken 1) 7 Action.approved none 0).1.expenses 7).map
        (fun e => (e.status, e.currentApprover)) = some (Status.pending, some 1)) ∧
    ((sortApprovers (sampleChain 6)).getLast? = some ⟨6, 6⟩ ∧
      findIndex (sortApprovers (sampleChain 6)) (fun approver => approver.user == 6) = 5 ∧
      100 * (((sampleApprovals 4 ++ [HistoryEntry.mk 6 Action.approved none 0]).countP
        (fun h : HistoryEntry => h.action = Action.approved) : Nat) : ℚ) /
          ((sampleChain 6).length : ℚ) < 2932031007402667 / 35184372088832 ∧
      approvalPercentage (sampleApprovals 4 ++ [HistoryEntry.mk 6 Action.approved none 0])
          (sortApprovers (sampleChain 6)) =
        JSNumber.finite (2932031007402667 / 35184372088832) ∧
      ((approvalsAction
          (sampleStore (sampleExpense Status.pending (some 6) (some 50) (sampleApprovals 4))
            [sampleRule (sampleChain 6) (2932031007402667 / 35184372088832) []])
          (managerToken 6) 7 Action.approved none 0).1.expenses 7).map
        (fun e => (e.status, e.currentApprover)) = some (Status.approved, none)) := by
  decide!

/-- C5, amended.  When the acting approver sits at the last index of the sorted
approvers and at no earlier index, approves, and the percentage
`(count / total) * 100`, computed in double-precision arithmetic with the
quotient and the product each rounded to the nearest double, is below
`minimumApprovalPercentage`, the expense is saved `approved` exactly when some
conditional approver of the rule has `autoApprove = true` and the saved history
holds an `approved` entry by that user; otherwise its status stays `pending`;
in both cases it has no current approver. -/
theorem approvalsAction_conditional (s : Store) (user : AuthUser) (id : ObjectId)
    (comment : Option String) (now : Nat) (e : Expense) (ruleId : ObjectId)
    (rule : ApprovalRule) (i : Nat) (a : Approver)
    (he : s.expenses id = some e) (hs : e.status = Status.pending)
    (hc : e.currentApprover = some user.userId)
    (hrid : e.approvalRule = some ruleId) (hrule : s.findRuleById ruleId = some rule)
    (hi : (sortApprovers rule.approvers)[i]? = some a) (ha : a.user = user.userId)
    (hfirst : ∀ j c, j < i → (sortApprovers rule.approvers)[j]? = some c →
      c.user ≠ user.userId)
    (hlast : i + 1 = (sortApprovers rule.approvers).length)
    (hlow : roundDouble (roundDouble
        ((((e.approvalHistory ++
          [HistoryEntry.mk user.userId Action.approved comment now]).countP
        (fun h : HistoryEntry => h.action = Action.approved) : Nat) : ℚ) /
          (rule.approvers.length : ℚ)) * 100) < rule.minimumApprovalPercentage) :
    ∃ e', (approvalsAction s user id Action.approved comment now).1.expenses id = some e' ∧
      (approvalsAction s user id Action.approved comment now).2.expense = some e' ∧
      e'.approvalHistory =
        e.approvalHistory ++ [HistoryEntry.mk user.userId Action.approved comment now] ∧
      (e'.status = Status.approved ↔
        ∃ c ∈ rule.conditionalApprovers, c.autoApprove = true ∧
          ∃ h ∈ e'.approvalHistory, h.approver = c.user ∧ h.action = Action.approved) ∧
      (e'.status = Status.approved ∨ e'.status = Status.pending) ∧
      e'.currentApprover = none := by
  have hne : sortApprovers rule.approvers ≠ [] := by
    intro h0
    rw [h0] at hlast
    simp at hlast
  have hlen := sortApprovers_length rule.approvers
  rw [approvalsAction_of_pending s user id Action.approved comment now e he hs hc]
  refine ⟨_, saveExpense_same _ _ _, rfl, decided_approvalHistory s e user _ comment now, ?_⟩
  rw [decided_approvalHistory]
  unfold decided
  rw [populateApprovalRule_eq s e ruleId rule hrid hrule,
    evaluateAction_last _ rule user.userId i a hi ha hfirst hlast]
  have hge : ¬ ((approvalPercentage
      (e.approvalHistory ++ [pushedEntry user Action.approved comment now])
      (sortApprovers rule.approvers)).ge rule.minimumApprovalPercentage = true) := by
    rw [approvalPercentage_ge_iff _ _ hne, hlen]
    exact not_le.mpr hlow
  rw [if_neg hge]
  by_cases hcond : hasConditionalApproval rule.conditionalApprovers
      (e.approvalHistory ++ [pushedEntry user Action.approved comment now]) = true
  · rw [if_pos hcond]
    exact ⟨⟨fun _ => (hasConditionalApproval_iff _ _).mp hcond, fun _ => rfl⟩, Or.inl rfl, rfl⟩
  · rw [if_neg hcond]
    refine ⟨⟨fun h => ?_, fun h => ?_⟩, Or.inr hs, rfl⟩
    · rw [show ({ e with approvalHistory := e.approvalHistory ++
          [pushedEntry user Action.approved comment now], currentApprover := none } :
          Expense).status = e.status from rfl, hs] at h
      cases h
    · exact absurd ((hasConditionalApproval_iff _ _).mpr h) hcond

/-- Witness of C5: `A` and `B` approve in turn, the threshold is 150 and `A`
is an auto-approve conditional approver: the expense is saved `approved`. -/
theorem approvalsAction_conditional_witness :
    ∃ e', (approvalsAction
        (sampleStore
          (sampleExpense Status.pending (some 2) (some 50) [⟨1, Action.approved, none, 0⟩])
          [sampleRule [⟨1, 1⟩, ⟨2, 2⟩] 150 [⟨1, true⟩]])
        (managerToken 2) 7 Action.approved none 1).1.expenses 7 = some e' ∧
      e'.status = Status.approved ∧ e'.currentApprover = none :=
  let ⟨e', h1, _, h3, h4, _, h6⟩ := approvalsAction_conditional
    (sampleStore
      (sampleExpense Status.pending (some 2) (some 50) [⟨1, Action.approved, none, 0⟩])
      [sampleRule [⟨1, 1⟩, ⟨2, 2⟩] 150 [⟨1, true⟩]])
    (managerToken 2) 7 none 1
    (sampleExpense Status.pending (some 2) (some 50) [⟨1, Action.approved, none, 0⟩]) 50
    (sampleRule [⟨1, 1⟩, ⟨2, 2⟩] 150 [⟨1, true⟩]) 1 ⟨2, 2⟩
    (by decide) (by decide) (by decide) (by decide) (by decide) (by decide) (by decide)
    (by
      intro j c hj hc
      have hj0 : j = 0 := by omega
      subst hj0
      have h0 : (sortApprovers (sampleRule [⟨1, 1⟩, ⟨2, 2⟩] 150 [⟨1, true⟩]).approvers)[0]? =
          some ⟨1, 1⟩ := by decide
      rw [h0] at hc
      cases hc
      decide)
    (by decide) (by decide!)
  ⟨e', h1,
    h4.mpr ⟨⟨1, true⟩, by decide, rfl, ⟨1, Action.approved, none, 0⟩, by rw [h3]; decide,
      rfl, rfl⟩,
    h6⟩

theorem decided_no_rule_approved (s : Store) (e : Expense) (user : AuthUser)
    (comment : Option String) (now : Nat) (h : s.populateApprovalRule e = none) :
    (decided s e user Action.approved comment now).status = Status.approved ∧
      (decided s e user Action.approved comment now).currentApprover = none := by
  simp [decided, evaluateAction, h]

/-- A pending expense whose current approver is the caller, who is no employee,
is decided and saved by the handler of `mongodb-server.js`. -/
theorem mongodbApprovalsAction_of_pending (s : Store) (user : AuthUser) (id : ObjectId)
    (comment : Option String) (now : Nat) (e : Expense)
    (hrole : user.role ≠ Role.employee)
    (he : s.expenses id = some e) (hs : e.status = Status.pending)
    (hc : e.currentApprover = some user.userId) :
    mongodbApprovalsAction s user id Action.approved comment now =
      (s.saveExpense id
          { e with
            approvalHistory := e.approvalHistory ++ [pushedEntry user Action.approved comment now]
            status := Status.approved
            currentApprover := none },
        ⟨200, "Expense approved successfully",
          some { e with
            approvalHistory := e.approvalHistory ++ [pushedEntry user Action.approved comment now]
            status := Status.approved
            currentApprover := none }, []⟩) := by
  have hf : s.findOneExpense id
      (fun e => e.currentApprover == some user.userId && e.status == Status.pending) = some e := by
    rw [findOneExpense_eq_some_iff]
    exact ⟨he, by simp [hs, hc]⟩
  simp only [mongodbApprovalsAction, if_neg hrole, hf, pushedEntry]
  simp [Action.toString]

/-- C6, counterexample to the claim as stated.  Expense `7` is pending, has no
rule and waits for user `10`, whose role is `employee` (a manager reference is
stored unchecked, so an employee can be the current approver).  User `10`
approves: `routes/approvals.js` saves the expense `approved`, but the handler
of `mongodb-server.js` answers 403 and the expense stays `pending` with user
`10` as current approver and an empty history. -/
theorem approvalsAction_no_rule_counterexample :
    (sampleExpense Status.pending (some 10) none []).approvalRule = none ∧
    ((approvalsAction (sampleStore (sampleExpense Status.pending (some 10) none []) [])
        ⟨10, Role.employee, 1⟩ 7 Action.approved none 0).1.expenses 7).map
      (fun e => (e.status, e.currentApprover, e.approvalHistory.length)) =
        some (Status.approved, none, 1) ∧
    (mongodbApprovalsAction (sampleStore (sampleExpense Status.pending (some 10) none []) [])
        ⟨10, Role.employee, 1⟩ 7 Action.approved none 0).2 =
      ⟨403, "Only managers and admins can approve/reject expenses", none, []⟩ ∧
    ((mongodbApprovalsAction (sampleStore (sampleExpense Status.pending (some 10) none []) [])
        ⟨10, Role.employee, 1⟩ 7 Action.approved none 0).1.expenses 7).map
      (fun e => (e.status, e.currentApprover, e.approvalHistory.length)) =
        some (Status.pending, some 10, 0) := by
  decide

/-- C6, amended.  For a pending expense with no attached rule whose current
approver is the caller, an approval through `routes/approvals.js` saves the
expense with status `approved`, no current approver and the previous history
followed by exactly one new entry; the handler of `mongodb-server.js` does the
same for a caller whose role is manager or admin, and for a caller whose role
is employee it answers 403 and returns the store as it was. -/
theorem approvalsAction_no_rule (s : Store) (user : AuthUser) (id : ObjectId)
    (comment : Option String) (now : Nat) (e : Expense)
    (he : s.expenses id = some e) (hs : e.status = Status.pending)
    (hc : e.currentApprover = some user.userId) (hnone : e.approvalRule = none) :
    (∃ e', (approvalsAction s user id Action.approved comment now).1.expenses id = some e' ∧
      (approvalsAction s user id Action.approved comment now).2.expense = some e' ∧
      (approvalsAction s user id Action.approved comment now).2.status = 200 ∧
      e'.status = Status.approved ∧ e'.currentApprover = none ∧
      e'.approvalHistory =
        e.approvalHistory ++ [HistoryEntry.mk user.userId Action.approved comment now]) ∧
    (user.role ≠ Role.employee →
      ∃ e', (mongodbApprovalsAction s user id Action.approved comment now).1.expenses id
          = some e' ∧
        (mongodbApprovalsAction s user id Action.approved comment now).2.expense = some e' ∧
        (mongodbApprovalsAction s user id Action.approved comment now).2.status = 200 ∧
        e'.status = Status.approved ∧ e'.currentApprover = none ∧
        e'.approvalHistory =
          e.approvalHistory ++ [HistoryEntry.mk user.userId Action.approved comment now]) ∧
    (user.role = Role.employee →
      mongodbApprovalsAction s user id Action.approved comment now =
        (s, ⟨403, "Only managers and admins can approve/reject expenses", none, []⟩)) := by
  have hpop : s.populateApprovalRule e = none := by
    simp [Store.populateApprovalRule, hnone]
  refine ⟨?_, ?_, ?_⟩
  · rw [approvalsAction_of_pending s user id Action.approved comment now e he hs hc]
    exact ⟨_, saveExpense_same _ _ _, rfl, rfl,
      (decided_no_rule_approved s e user comment now hpop).1,
      (decided_no_rule_approved s e user comment now hpop).2,
      decided_approvalHistory s e user _ comment now⟩
  · intro hrole
    rw [mongodbApprovalsAction_of_pending s user id comment now e hrole he hs hc]
    exact ⟨_, saveExpense_same _ _ _, rfl, rfl, rfl, rfl, rfl⟩
  · intro hrole
    unfold mongodbApprovalsAction
    rw [if_pos hrole]

/-- Witness of C6, the workflow test: a manager approves the submitted expense
of their employee; it ends `approved` with one history entry, through either
handler. -/
theorem approvalsAction_no_rule_witness :
    (∃ e', (approvalsAction (sampleStore (sampleExpense Status.pending (some 2) none []) [])
        (managerToken 2) 7 Action.approved (some "Approved by manager") 0).1.expenses 7
          = some e' ∧
      e'.status = Status.approved ∧ e'.approvalHistory.length = 1) ∧
    (∃ e', (mongodbApprovalsAction
        (sampleStore (sampleExpense Status.pending (some 2) none []) [])
        (managerToken 2) 7 Action.approved (some "Approved by manager") 0).1.expenses 7
          = some e' ∧
      e'.status = Status.approved ∧ e'.approvalHistory.length = 1) :=
  have h := approvalsAction_no_rule (sampleStore (sampleExpense Status.pending (some 2) none []) [])
    (managerToken 2) 7 (some "Approved by manager") 0
    (sampleExpense Status.pending (some 2) none []) (by decide) (by decide) (by decide)
    (by decide)
  let ⟨e1, a1, _, _, a4, _, a6⟩ := h.1
  let ⟨e2, b1, _, _, b4, _, b6⟩ := h.2.1 (by decide)
  ⟨⟨e1, a1, a4, by rw [a6]; rfl⟩, ⟨e2, b1, b4, by rw [b6]; rfl⟩⟩

/-- C7. Every successful decision (answer 200) returns and saves the expense
with the previous history followed by exactly one entry, which carries the
caller as approver, the given action and comment and the time of the request;
the earlier entries keep their content and position.  This holds for approve
and reject and in every branch of the rule evaluation. -/
theorem approvalsAction_appends_history (s : Store) (user : AuthUser) (id : ObjectId)
    (action : Action) (comment : Option String) (now : Nat)
    (h200 : (approvalsAction s user id action comment now).2.status = 200) :
    ∃ e e', s.expenses id = some e ∧
      (approvalsAction s user id action comment now).2.expense = some e' ∧
      (approvalsAction s user id action comment now).1.expenses id = some e' ∧
      e'.approvalHistory = e.approvalHistory ++ [HistoryEntry.mk user.userId action comment now] ∧
      e'.approvalHistory.length = e.approvalHistory.length + 1 ∧
      ∀ k, k < e.approvalHistory.length → e'.approvalHistory[k]? = e.approvalHistory[k]? := by
  by_cases hex : ∃ e, s.expenses id = some e ∧ e.status = Status.pending ∧
      e.currentApprover = some user.userId
  · obtain ⟨e, he, hs, hc⟩ := hex
    have hh := decided_approvalHistory s e user action comment now
    rw [approvalsAction_of_pending s user id action comment now e he hs hc]
    refine ⟨e, _, he, rfl, saveExpense_same _ _ _, hh, ?_, ?_⟩
    · rw [hh]; simp
    · intro k hk
      rw [hh, List.getElem?_append_left hk]
  · exfalso
    rw [approvalsAction_of_not_pending s user id action comment now
      (fun e he hp => hex ⟨e, he, hp.1, hp.2⟩)] at h200
    simp at h200

/-- Witness of C7: `B`, last of the chain `A, B`, approves with a comment. -/
theorem approvalsAction_appends_history_witness :
    ∃ e', (approvalsAction
        (sampleStore
          (sampleExpense Status.pending (some 2) (some 50) [⟨1, Action.approved, none, 0⟩])
          [sampleRule [⟨1, 1⟩, ⟨2, 2⟩] 100 []])
        (managerToken 2) 7 Action.approved (some "ok") 1).1.expenses 7 = some e' ∧
      e'.approvalHistory =
        [⟨1, Action.approved, none, 0⟩, ⟨2, Action.approved, some "ok", 1⟩] :=
  let ⟨e, e', h1, _, h3, h4, _, _⟩ := approvalsAction_appends_history
    (sampleStore
      (sampleExpense Status.pending (some 2) (some 50) [⟨1, Action.approved, none, 0⟩])
      [sampleRule [⟨1, 1⟩, ⟨2, 2⟩] 100 []])
    (managerToken 2) 7 Action.approved (some "ok") 1 (by decide!)
  ⟨e', h3, by
    have he : e = sampleExpense Status.pending (some 2) (some 50)
        [⟨1, Action.approved, none, 0⟩] := by
      have h7 : (sampleStore
          (sampleExpense Status.pending (some 2) (some 50) [⟨1, Action.approved, none, 0⟩])
          [sampleRule [⟨1, 1⟩, ⟨2, 2⟩] 100 []]).expenses 7 =
          some (sampleExpense Status.pending (some 2) (some 50)
            [⟨1, Action.approved, none, 0⟩]) := rfl
      rw [h7] at h1
      exact (Option.some.inj h1).symm
    rw [h4, he]
    rfl⟩

/-- A request to the submit handler for an expense that is not a draft of the
caller is answered 404 and changes nothing. -/
theorem expensesSubmit_of_not_draft (s : Store) (user : AuthUser) (id : ObjectId)
    (h : ∀ e, s.expenses id = some e →
      ¬ (e.employee = user.userId ∧ e.status = Status.draft)) :
    expensesSubmit s user id =
      (s, ⟨404, "Expense not found or already submitted", none, []⟩) := by
  have hf : s.findOneExpense id
      (fun e => e.employee == user.userId && e.status == Status.draft) = none := by
    rw [findOneExpense_eq_none_iff]
    intro e he
    have := h e he
    by_cases h1 : e.employee = user.userId
    · have h2 : e.status ≠ Status.draft := fun h2 => this ⟨h1, h2⟩
      simp [h2]
    · simp [h1]
  simp only [expensesSubmit, hf]

/-- The document saved by a submission of `expense`. -/
theorem expensesSubmit_of_draft (s : Store) (user : AuthUser) (id : ObjectId) (e : Expense)
    (he : s.expenses id = some e) (ho : e.employee = user.userId)
    (hd : e.status = Status.draft) :
    ∃ saved : Expense, expensesSubmit s user id =
        (s.saveExpense id saved, ⟨200, "Expense submitted for approval", some saved, []⟩) ∧
      saved.status = Status.pending ∧
      (saved.currentApprover = e.currentApprover ∨
        ∃ ruleId rule, e.approvalRule = some ruleId ∧ s.findRuleById ruleId = some rule ∧
          rule.approvers ≠ [] ∧
          saved.currentApprover = ((sortApprovers rule.approvers)[0]?).map Approver.user) := by
  have hf : s.findOneExpense id
      (fun e => e.employee == user.userId && e.status == Status.draft) = some e := by
    rw [findOneExpense_eq_some_iff]
    exact ⟨he, by simp [ho, hd]⟩
  simp only [expensesSubmit, hf]
  refine ⟨_, rfl, ?_, ?_⟩
  · cases hr : e.approvalRule with
    | none => rfl
    | some ruleId =>
      dsimp only
      cases hq : s.findRuleById ruleId with
      | none => rfl
      | some rule =>
        dsimp only
        split <;> rfl
  · cases hr : e.approvalRule with
    | none => exact Or.inl rfl
    | some ruleId =>
      dsimp only
      cases hq : s.findRuleById ruleId with
      | none => exact Or.inl rfl
      | some rule =>
        dsimp only
        by_cases hl : rule.approvers.length > 0
        · rw [if_pos hl]
          refine Or.inr ⟨ruleId, rule, rfl, hq, ?_, rfl⟩
          intro h0
          rw [h0] at hl
          simp at hl
        · rw [if_neg hl]
          exact Or.inl rfl

/-- The stored document under an id is touched by a lifecycle request only when
that request succeeds on this very id. -/
theorem handle_preserves_rejected (s : Store) (id : ObjectId) (e : Expense)
    (he : s.expenses id = some e) (hr : e.status = Status.rejected) (request : Request) :
    (handle s request).1.expenses id = some e := by
  cases request with
  | create user body rate newId =>
    simp only [handle, expensesCreate]
    split
    · exact he
    · split
      · exact he
      · split
        · exact he
        · by_cases hk : id = newId
          · subst hk
            simp [he]
          · split
            · exact he
            · rw [saveExpense_other _ _ _ _ hk]
              exact he
  | submit user k =>
    simp only [handle]
    by_cases hk : id = k
    · subst hk
      rw [expensesSubmit_of_not_draft s user id]
      · exact he
      · intro x hx hp
        rw [he] at hx
        cases hx
        rw [hr] at hp
        exact absurd hp.2 (by decide)
    · by_cases hex : ∃ x, s.expenses k = some x ∧ x.employee = user.userId ∧
          x.status = Status.draft
      · obtain ⟨x, hx, ho, hd⟩ := hex
        obtain ⟨saved, hsub, -, -⟩ := expensesSubmit_of_draft s user k x hx ho hd
        rw [hsub, saveExpense_other _ _ _ _ hk]
        exact he
      · rw [expensesSubmit_of_not_draft s user k
          (fun x hx hp => hex ⟨x, hx, hp.1, hp.2⟩)]
        exact he
  | action user k action comment now =>
    simp only [handle]
    by_cases hk : id = k
    · subst hk
      rw [approvalsAction_of_not_pending s user id action comment now]
      · exact he
      · intro x hx hp
        rw [he] at hx
        cases hx
        rw [hr] at hp
        exact absurd hp.1 (by decide)
    · by_cases hex : ∃ x, s.expenses k = some x ∧ x.status = Status.pending ∧
          x.currentApprover = some user.userId
      · obtain ⟨x, hx, hs, hc⟩ := hex
        rw [approvalsAction_of_pending s user k action comment now x hx hs hc,
          saveExpense_other _ _ _ _ hk]
        exact he
      · rw [approvalsAction_of_not_pending s user k action comment now
          (fun x hx hp => hex ⟨x, hx, hp.1, hp.2⟩)]
        exact he

theorem run_preserves_rejected (requests : List Request) :
    ∀ (s : Store) (id : ObjectId) (e : Expense), s.expenses id = some e →
      e.status = Status.rejected → (run s requests).expenses id = some e := by
  induction requests with
  | nil => intro s id e he _; exact he
  | cons r rs ih =>
    intro s id e he hr
    exact ih (handle s r).1 id e (handle_preserves_rejected s id e he hr r) hr

/-- C8. Rejection is terminal.  Once an expense is stored with status
`rejected`, then after any sequence of create, submit and decide requests it is
still stored unchanged, and every submit and every decide request on it, by any
caller and with any action, is answered 404 and leaves the store as it is. -/
theorem rejected_is_terminal (s : Store) (id : ObjectId) (e : Expense)
    (he : s.expenses id = some e) (hr : e.status = Status.rejected)
    (requests : List Request) :
    (run s requests).expenses id = some e ∧
    (∀ user, expensesSubmit (run s requests) user id =
      (run s requests, ⟨404, "Expense not found or already submitted", none, []⟩)) ∧
    (∀ user action comment now, approvalsAction (run s requests) user id action comment now =
      (run s requests, ⟨404, "Expense not found or not pending your approval", none, []⟩)) := by
  have hrun := run_preserves_rejected requests s id e he hr
  refine ⟨hrun, ?_, ?_⟩
  · intro user
    apply expensesSubmit_of_not_draft
    intro x hx hp
    rw [hrun] at hx
    cases hx
    rw [hr] at hp
    exact absurd hp.2 (by decide)
  · intro user action comment now
    apply approvalsAction_of_not_pending
    intro x hx hp
    rw [hrun] at hx
    cases hx
    rw [hr] at hp
    exact absurd hp.1 (by decide)

/-- Witness of C8: a rejected expense, then a submit by its owner and an
approval by its last approver; it stays as it was. -/
theorem rejected_is_terminal_witness :
    (run (sampleStore
        (sampleExpense Status.rejected none none [⟨2, Action.rejected, none, 0⟩]) [])
      [Request.submit ⟨9, Role.employee, 1⟩ 7,
        Request.action (managerToken 2) 7 Action.approved none 1]).expenses 7 =
      some (sampleExpense Status.rejected none none [⟨2, Action.rejected, none, 0⟩]) :=
  (rejected_is_terminal
    (sampleStore (sampleExpense Status.rejected none none [⟨2, Action.rejected, none, 0⟩]) [])
    7 (sampleExpense Status.rejected none none [⟨2, Action.rejected, none, 0⟩])
    (by decide) (by decide)
    [Request.submit ⟨9, Role.employee, 1⟩ 7,
      Request.action (managerToken 2) 7 Action.approved none 1]).1

/-- A decision on a pending expense leaves a current approver only on a
document that is still pending. -/
theorem evaluateAction_currentApprover (x : Expense) (rule : Option ApprovalRule)
    (userId : ObjectId) (action : Action) (hx : x.status = Status.pending)
    (h : (evaluateAction x rule userId action).status ≠ Status.pending) :
    (evaluateAction x rule userId action).currentApprover = none := by
  unfold evaluateAction at h ⊢
  split
  · rfl
  · rename_i hrej
    rw [if_neg hrej] at h
    cases rule with
    | none => rfl
    | some r =>
      dsimp only at h ⊢
      split
      · rename_i hlt
        rw [if_pos hlt] at h
        exact absurd hx h
      · split
        · rfl
        · split <;> rfl

/-- One lifecycle request keeps the invariant: a stored expense that is not
pending has no current approver. -/
theorem handle_preserves_invariant (s : Store) (request : Request)
    (hinv : ∀ id e, s.expenses id = some e → e.status ≠ Status.pending →
      e.currentApprover = none) :
    ∀ id e, (handle s request).1.expenses id = some e → e.status ≠ Status.pending →
      e.currentApprover = none := by
  intro id e
  cases request with
  | create user body rate newId =>
    simp only [handle, expensesCreate]
    split
    · exact hinv id e
    · split
      · exact hinv id e
      · split
        · exact hinv id e
        · split
          · exact hinv id e
          · by_cases hk : id = newId
            · subst hk
              rw [saveExpense_same]
              intro he _
              cases he
              rfl
            · rw [saveExpense_other _ _ _ _ hk]
              exact hinv id e
  | submit user k =>
    simp only [handle]
    by_cases hex : ∃ x, s.expenses k = some x ∧ x.employee = user.userId ∧
        x.status = Status.draft
    · obtain ⟨x, hx, ho, hd⟩ := hex
      obtain ⟨saved, hsub, hpend, -⟩ := expensesSubmit_of_draft s user k x hx ho hd
      rw [hsub]
      by_cases hk : id = k
      · subst hk
        rw [saveExpense_same]
        intro he hne
        cases he
        exact absurd hpend hne
      · rw [saveExpense_other _ _ _ _ hk]
        exact hinv id e
    · rw [expensesSubmit_of_not_draft s user k (fun x hx hp => hex ⟨x, hx, hp.1, hp.2⟩)]
      exact hinv id e
  | action user k action comment now =>
    simp only [handle]
    by_cases hex : ∃ x, s.expenses k = some x ∧ x.status = Status.pending ∧
        x.currentApprover = some user.userId
    · obtain ⟨x, hx, hs, hc⟩ := hex
      rw [approvalsAction_of_pending s user k action comment now x hx hs hc]
      by_cases hk : id = k
      · subst hk
        rw [saveExpense_same]
        intro he hne
        cases he
        exact evaluateAction_currentApprover _ _ _ _ hs hne
      · rw [saveExpense_other _ _ _ _ hk]
        exact hinv id e
    · rw [approvalsAction_of_not_pending s user k action comment now
        (fun x hx hp => hex ⟨x, hx, hp.1, hp.2⟩)]
      exact hinv id e

theorem run_preserves_invariant (requests : List Request) :
    ∀ s : Store,
      (∀ id e, s.expenses id = some e → e.status ≠ Status.pending →
        e.currentApprover = none) →
      ∀ id e, (run s requests).expenses id = some e → e.status ≠ Status.pending →
        e.currentApprover = none := by
  induction requests with
  | nil => intro s hinv; exact hinv
  | cons r rs ih =>
    intro s hinv
    exact ih (handle s r).1 (handle_preserves_invariant s r hinv)

/-- C9. Start from a store without expenses (any rules, users and companies)
and serve any sequence of create, submit and decide requests of `routes/`.
Every expense then stored whose status is `draft`, `approved` or `rejected`
has no current approver. -/
theorem reachable_currentApprover_none (s : Store) (hempty : ∀ id, s.expenses id = none)
    (requests : List Request) (id : ObjectId) (e : Expense)
    (he : (run s requests).expenses id = some e)
    (hst : e.status = Status.draft ∨ e.status = Status.approved ∨
      e.status = Status.rejected) :
    e.currentApprover = none := by
  apply run_preserves_invariant requests s _ id e he
  · rcases hst with h | h | h <;> rw [h] <;> decide
  · intro k x hx
    rw [hempty k] at hx
    cases hx

/-- Witness of C9: an expense is created under the chain `A, B`, submitted,
approved by `A` and rejected by `B`; it ends `rejected` without current
approver. -/
theorem reachable_currentApprover_none_witness :
    (run (sampleEmptyStore [sampleRule [⟨1, 1⟩, ⟨2, 2⟩] 100 []])
        [Request.create employeeToken sampleBody none 7,
          Request.submit employeeToken 7,
          Request.action (managerToken 1) 7 Action.approved none 1,
          Request.action (managerToken 2) 7 Action.rejected none 2]).expenses 7 =
      some (sampleExpense Status.rejected none (some 50)
        [⟨1, Action.approved, none, 1⟩, ⟨2, Action.rejected, none, 2⟩]) ∧
    (sampleExpense Status.rejected none (some 50)
      [⟨1, Action.approved, none, 1⟩, ⟨2, Action.rejected, none, 2⟩]).currentApprover = none :=
  ⟨by decide!,
    reachable_currentApprover_none (sampleEmptyStore [sampleRule [⟨1, 1⟩, ⟨2, 2⟩] 100 []])
      (fun _ => rfl)
      [Request.create employeeToken sampleBody none 7,
        Request.submit employeeToken 7,
        Request.action (managerToken 1) 7 Action.approved none 1,
        Request.action (managerToken 2) 7 Action.rejected none 2] 7
      (sampleExpense Status.rejected none (some 50)
        [⟨1, Action.approved, none, 1⟩, ⟨2, Action.rejected, none, 2⟩])
      (by decide!) (Or.inr (Or.inr rfl))⟩

/-- The head of the sorted approvers is the approver of least `sequence`, the
earliest of the list among those of least `sequence`. -/
theorem sortApprovers_head (l : List Approver) (hne : l ≠ []) :
    ∃ pre a post, l = pre ++ a :: post ∧ (∀ b ∈ pre, a.sequence < b.sequence) ∧
      (∀ b ∈ post, a.sequence ≤ b.sequence) ∧ (sortApprovers l)[0]? = some a := by
  induction l with
  | nil => exact absurd rfl hne
  | cons x xs ih =>
    cases xs with
    | nil =>
      exact ⟨[], x, [], rfl, by simp, by simp, rfl⟩
    | cons y ys =>
      obtain ⟨pre, a, post, hl, hpre, hpost, hhead⟩ := ih (by simp)
      have hsort : sortApprovers (x :: y :: ys) =
          List.orderedInsert (fun a b => a.sequence ≤ b.sequence) x
            (sortApprovers (y :: ys)) := rfl
      cases hs : sortApprovers (y :: ys) with
      | nil => rw [hs] at hhead; simp at hhead
      | cons h t =>
        rw [hs] at hhead
        have hha : h = a := by simpa using hhead
        subst hha
        rw [hsort, hs, List.orderedInsert]
        by_cases hle : x.sequence ≤ h.sequence
        · rw [if_pos hle]
          refine ⟨[], x, y :: ys, rfl, by simp, ?_, rfl⟩
          intro b hb
          rw [hl] at hb
          rcases List.mem_append.mp hb with hb | hb
          · exact le_trans hle (le_of_lt (hpre b hb))
          · rcases List.mem_cons.mp hb with hb | hb
            · rw [hb]; exact hle
            · exact le_trans hle (hpost b hb)
        · rw [if_neg hle]
          refine ⟨x :: pre, h, post, by rw [hl]; rfl, ?_, hpost, by simp⟩
          intro b hb
          rcases List.mem_cons.mp hb with hb | hb
          · rw [hb]; exact lt_of_not_le hle
          · exact hpre b hb

/-- C10. For a draft expense owned by the caller whose attached rule has a
non-empty approver list, the submit handler of `routes/expenses.js` saves the
expense with status `pending` and with current approver the user of the
approver of least `sequence`, the earliest-inserted one among the approvers of
least `sequence`: the rule's list splits as `pre ++ a :: post` with every
sequence in `pre` greater than that of `a` and every sequence in `post` at
least that of `a`, and the current approver is `a.user`. -/
theorem expensesSubmit_first_approver (s : Store) (user : AuthUser) (id : ObjectId)
    (e : Expense) (ruleId : ObjectId) (rule : ApprovalRule)
    (he : s.expenses id = some e) (ho : e.employee = user.userId)
    (hd : e.status = Status.draft)
    (hrid : e.approvalRule = some ruleId) (hrule : s.findRuleById ruleId = some rule)
    (hne : rule.approvers ≠ []) :
    ∃ pre a post, rule.approvers = pre ++ a :: post ∧
      (∀ b ∈ pre, a.sequence < b.sequence) ∧ (∀ b ∈ post, a.sequence ≤ b.sequence) ∧
      ∃ e', (expensesSubmit s user id).1.expenses id = some e' ∧
        (expensesSubmit s user id).2.expense = some e' ∧
        (expensesSubmit s user id).2.status = 200 ∧
        e'.status = Status.pending ∧ e'.currentApprover = some a.user := by
  obtain ⟨pre, a, post, hl, hpre, hpost, hhead⟩ := sortApprovers_head rule.approvers hne
  refine ⟨pre, a, post, hl, hpre, hpost, ?_⟩
  have hf : s.findOneExpense id
      (fun e => e.employee == user.userId && e.status == Status.draft) = some e := by
    rw [findOneExpense_eq_some_iff]
    exact ⟨he, by simp [ho, hd]⟩
  have hlen : rule.approvers.length > 0 := List.length_pos.mpr hne
  have hsub : expensesSubmit s user id =
      (s.saveExpense id { e with status := Status.pending, currentApprover := some a.user },
        ⟨200, "Expense submitted for approval",
          some { e with status := Status.pending, currentApprover := some a.user }, []⟩) := by
    simp only [expensesSubmit, hf, hrid, hrule, if_pos hlen, hhead]
    rfl
  rw [hsub]
  exact ⟨_, saveExpense_same _ _ _, rfl, rfl, rfl, rfl⟩

/-- Witness of C10: approvers `C(2), A(1), B(1)`; `A` and `B` share the least
sequence and `A` was inserted first, so `A` becomes the current approver. -/
theorem expensesSubmit_first_approver_witness :
    ∃ e', (expensesSubmit
        (sampleStore (sampleExpense Status.draft none (some 50) [])
          [sampleRule [⟨3, 2⟩, ⟨1, 1⟩, ⟨2, 1⟩] 100 []])
        employeeToken 7).1.expenses 7 = some e' ∧
      e'.status = Status.pending ∧ e'.currentApprover = some 1 :=
  let ⟨pre, a, post, h1, h2, h3, e', h4, _, _, h7, h8⟩ := expensesSubmit_first_approver
    (sampleStore (sampleExpense Status.draft none (some 50) [])
      [sampleRule [⟨3, 2⟩, ⟨1, 1⟩, ⟨2, 1⟩] 100 []])
    employeeToken 7 (sampleExpense Status.draft none (some 50) []) 50
    (sampleRule [⟨3, 2⟩, ⟨1, 1⟩, ⟨2, 1⟩] 100 [])
    (by decide) (by decide) (by decide) (by decide) (by decide) (by decide)
  ⟨e', h4, h7, by
    have hdec : (expensesSubmit
        (sampleStore (sampleExpense Status.draft none (some 50) [])
          [sampleRule [⟨3, 2⟩, ⟨1, 1⟩, ⟨2, 1⟩] 100 []])
        employeeToken 7).1.expenses 7 =
        some (sampleExpense Status.pending (some 1) (some 50) []) := by decide
    rw [hdec] at h4
    cases h4
    rfl⟩

/-! ## Claims about submission -/

/-- C11, counterexample to the claim as stated.  A submit by the owner on an
expense that is not a draft and a submit by another user on a draft get the
same answer, the 404 with the message of a missing expense: the handler has
one failure, not one for the wrong state and another for the wrong caller. -/
theorem expensesSubmit_guard_counterexample :
    (expensesSubmit (sampleStore (sampleExpense Status.pending (some 2) none []) [])
        employeeToken 7).2 =
      ⟨404, "Expense not found or already submitted", none, []⟩ ∧
    (expensesSubmit (sampleStore (sampleExpense Status.draft none none []) [])
        (managerToken 2) 7).2 =
      ⟨404, "Expense not found or already submitted", none, []⟩ := by
  decide

/-- C11, amended.  The submit handler of `routes/expenses.js` answers 200 only
for an expense that is stored under the given id, has the caller as employee
and is a draft; for every other request (no such expense, another caller, or
another status) it answers with the one 404 `Expense not found or already
submitted` and returns the store as it was. -/
theorem expensesSubmit_guard (s : Store) (user : AuthUser) (id : ObjectId) :
    ((expensesSubmit s user id).2.status = 200 →
      ∃ e, s.expenses id = some e ∧ e.employee = user.userId ∧ e.status = Status.draft) ∧
    ((¬ ∃ e, s.expenses id = some e ∧ e.employee = user.userId ∧ e.status = Status.draft) →
      expensesSubmit s user id =
        (s, ⟨404, "Expense not found or already submitted", none, []⟩)) := by
  have key : (¬ ∃ e, s.expenses id = some e ∧ e.employee = user.userId ∧
        e.status = Status.draft) →
      expensesSubmit s user id =
        (s, ⟨404, "Expense not found or already submitted", none, []⟩) := by
    intro h
    apply expensesSubmit_of_not_draft
    intro e he hp
    exact h ⟨e, he, hp.1, hp.2⟩
  refine ⟨?_, key⟩
  intro h200
  by_contra hne
  rw [key hne] at h200
  simp at h200

/-- Witness of C11: the owner submits an expense that is already pending. -/
theorem expensesSubmit_guard_witness :
    expensesSubmit (sampleStore (sampleExpense Status.pending (some 2) none []) [])
        employeeToken 7 =
      (sampleStore (sampleExpense Status.pending (some 2) none []) [],
        ⟨404, "Expense not found or already submitted", none, []⟩) :=
  (expensesSubmit_guard (sampleStore (sampleExpense Status.pending (some 2) none []) [])
      employeeToken 7).2
    (by
      rintro ⟨e, he, -, hd⟩
      simp only [sampleStore, if_true, Option.some.injEq] at he
      subst he
      simp [sampleExpense] at hd)

/-- The document saved by the submit handler of `mongodb-server.js`. -/
theorem mongodbExpensesSubmit_of_draft (s : Store) (user : AuthUser) (id : ObjectId)
    (e : Expense) (he : s.expenses id = some e) (ho : e.employee = user.userId)
    (hd : e.status = Status.draft) :
    mongodbExpensesSubmit s user id =
      (s.saveExpense id
          { e with
            status := Status.pending
            currentApprover :=
              match (s.findUserById user.userId).bind User.manager with
              | some manager => some manager
              | none => (s.findAdmin user.company).map User.id },
        ⟨200, "Expense submitted for approval",
          some { e with
            status := Status.pending
            currentApprover :=
              match (s.findUserById user.userId).bind User.manager with
              | some manager => some manager
              | none => (s.findAdmin user.company).map User.id }, []⟩) := by
  have hf : s.findOneExpense id
      (fun e => e.employee == user.userId && e.status == Status.draft) = some e := by
    rw [findOneExpense_eq_some_iff]
    exact ⟨he, by simp [ho, hd]⟩
  simp only [mongodbExpensesSubmit, hf]

theorem findAdmin_of_exists (s : Store) (company : ObjectId)
    (h : ∃ u ∈ s.users, u.company = company ∧ u.role = Role.admin) :
    ∃ a ∈ s.users, a.company = company ∧ a.role = Role.admin ∧ s.findAdmin company = some a := by
  unfold Store.findAdmin
  cases hfind : s.users.find? (fun u => u.company == company && u.role == Role.admin) with
  | none =>
    exfalso
    obtain ⟨u, hu, hc, hr⟩ := h
    have := List.find?_eq_none.mp hfind u hu
    simp [hc, hr] at this
  | some a =>
    have hp := List.find?_some hfind
    have hm := List.mem_of_find?_eq_some hfind
    simp only [Bool.and_eq_true, beq_iff_eq] at hp
    exact ⟨a, hm, hp.1, hp.2, rfl⟩

theorem findAdmin_eq_none (s : Store) (company : ObjectId)
    (h : ∀ u ∈ s.users, ¬ (u.company = company ∧ u.role = Role.admin)) :
    s.findAdmin company = none := by
  unfold Store.findAdmin
  rw [List.find?_eq_none]
  intro u hu
  have := h u hu
  simpa using this

/-- C12. In the submit handler of `mongodb-server.js`, for a draft expense
owned by the caller the expense is saved `pending`; when the caller's user
document has a manager the current approver is that manager; when it has none
(or is missing) and the caller's company has an admin user, the current
approver is an admin user of that company (the first one of the collection). -/
theorem mongodbExpensesSubmit_fallback (s : Store) (user : AuthUser) (id : ObjectId)
    (e : Expense) (he : s.expenses id = some e) (ho : e.employee = user.userId)
    (hd : e.status = Status.draft) :
    ∃ e', (mongodbExpensesSubmit s user id).1.expenses id = some e' ∧
      (mongodbExpensesSubmit s user id).2.expense = some e' ∧
      (mongodbExpensesSubmit s user id).2.status = 200 ∧
      e'.status = Status.pending ∧
      (∀ u m, s.findUserById user.userId = some u → u.manager = some m →
        e'.currentApprover = some m) ∧
      ((∀ u, s.findUserById user.userId = some u → u.manager = none) →
        (∃ u ∈ s.users, u.company = user.company ∧ u.role = Role.admin) →
        ∃ a ∈ s.users, a.company = user.company ∧ a.role = Role.admin ∧
          s.findAdmin user.company = some a ∧ e'.currentApprover = some a.id) := by
  rw [mongodbExpensesSubmit_of_draft s user id e he ho hd]
  refine ⟨_, saveExpense_same _ _ _, rfl, rfl, rfl, ?_, ?_⟩
  · intro u m hu hm
    simp [hu, hm]
  · intro hnone hex
    obtain ⟨a, ha, hc, hr, hfind⟩ := findAdmin_of_exists s user.company hex
    refine ⟨a, ha, hc, hr, hfind, ?_⟩
    have hb : (s.findUserById user.userId).bind User.manager = none := by
      cases hu : s.findUserById user.userId with
      | none => rfl
      | some u => simp [hnone u hu]
    simp [hb, hfind]

/-- Witness of C12, the workflow test: the employee, who reports to manager
`2`, submits; the expense waits for `2`. -/
theorem mongodbExpensesSubmit_fallback_witness :
    ∃ e', (mongodbExpensesSubmit
        (sampleUserStore (sampleExpense Status.draft none none []) [] sampleUsers)
        employeeToken 7).1.expenses 7 = some e' ∧
      e'.status = Status.pending ∧ e'.currentApprover = some 2 :=
  let ⟨e', h1, _, _, h4, h5, _⟩ := mongodbExpensesSubmit_fallback
    (sampleUserStore (sampleExpense Status.draft none none []) [] sampleUsers)
    employeeToken 7 (sampleExpense Status.draft none none [])
    (by decide) (by decide) (by decide)
  ⟨e', h1, h4, h5 ⟨9, "Employee User", "employee@test.com", Role.employee, 1, some 2, true⟩ 2
    (by decide) rfl⟩

/-- C13, counterexample to the claim as stated.  The employee has no manager
and the company has no admin user; the submit handler of `mongodb-server.js`
answers 200 and saves the expense `pending` with no current approver. -/
theorem submit_no_approver_counterexample :
    ((sampleUserStore (sampleExpense Status.draft none none []) []
        [⟨9, "Employee User", "employee@test.com", Role.employee, 1, none, true⟩]).findUserById
      9).bind User.manager = none ∧
    (sampleUserStore (sampleExpense Status.draft none none []) []
        [⟨9, "Employee User", "employee@test.com", Role.employee, 1, none, true⟩]).findAdmin 1
      = none ∧
    (mongodbExpensesSubmit
        (sampleUserStore (sampleExpense Status.draft none none []) []
          [⟨9, "Employee User", "employee@test.com", Role.employee, 1, none, true⟩])
        employeeToken 7).2.status = 200 ∧
    ((mongodbExpensesSubmit
        (sampleUserStore (sampleExpense Status.draft none none []) []
          [⟨9, "Employee User", "employee@test.com", Role.employee, 1, none, true⟩])
        employeeToken 7).1.expenses 7).map (fun e => (e.status, e.currentApprover)) =
      some (Status.pending, none) := by
  decide

/-- C13, amended.  When the submitting employee has no manager and the
caller's company has no admin user, submit does not fail: the handler of
`mongodb-server.js` answers 200 and saves the expense `pending` with no current
approver, and the handler of `routes/expenses.js`, which consults neither
managers nor admins, answers 200 and saves the expense `pending` as well. -/
theorem submit_no_approver (s : Store) (user : AuthUser) (id : ObjectId) (e : Expense)
    (he : s.expenses id = some e) (ho : e.employee = user.userId)
    (hd : e.status = Status.draft)
    (hmanager : ∀ u, s.findUserById user.userId = some u → u.manager = none)
    (hadmin : ∀ u ∈ s.users, ¬ (u.company = user.company ∧ u.role = Role.admin)) :
    ((mongodbExpensesSubmit s user id).2.status = 200 ∧
      ∃ e', (mongodbExpensesSubmit s user id).1.expenses id = some e' ∧
        e'.status = Status.pending ∧ e'.currentApprover = none) ∧
    ((expensesSubmit s user id).2.status = 200 ∧
      ∃ e', (expensesSubmit s user id).1.expenses id = some e' ∧
        e'.status = Status.pending) := by
  refine ⟨?_, ?_⟩
  · rw [mongodbExpensesSubmit_of_draft s user id e he ho hd]
    refine ⟨rfl, _, saveExpense_same _ _ _, rfl, ?_⟩
    have hb : (s.findUserById user.userId).bind User.manager = none := by
      cases hu : s.findUserById user.userId with
      | none => rfl
      | some u => simp [hmanager u hu]
    simp [hb, findAdmin_eq_none s user.company hadmin]
  · obtain ⟨saved, hsub, hpend, -⟩ := expensesSubmit_of_draft s user id e he ho hd
    rw [hsub]
    exact ⟨rfl, saved, saveExpense_same _ _ _, hpend⟩

/-- Witness of C13: the store holds no user at all. -/
theorem submit_no_approver_witness :
    ∃ e', (mongodbExpensesSubmit
        (sampleUserStore (sampleExpense Status.draft none none []) [] [])
        employeeToken 7).1.expenses 7 = some e' ∧
      e'.status = Status.pending ∧ e'.currentApprover = none :=
  (submit_no_approver (sampleUserStore (sampleExpense Status.draft none none []) [] [])
    employeeToken 7 (sampleExpense Status.draft none none [])
    (by decide) (by decide) (by decide)
    (by intro u hu; cases hu)
    (by intro u hu; exact absurd hu (List.not_mem_nil u))).1.2

/-- C14, the code at the failing input.  The employee reports to manager `2`
and the company has admin `3`.  The submit handler of `routes/expenses.js`
saves the expense `pending` without current approver, both when no rule is
attached and when the attached rule has no approvers; the handler of
`mongodb-server.js` assigns the manager on the same store. -/
theorem expensesSubmit_no_rule_unassigned :
    ((expensesSubmit
        (sampleUserStore (sampleExpense Status.draft none none []) [] sampleUsers)
        employeeToken 7).1.expenses 7).map (fun e => (e.status, e.currentApprover)) =
      some (Status.pending, none) ∧
    ((expensesSubmit
        (sampleUserStore (sampleExpense Status.draft none (some 50) [])
          [sampleRule [] 100 []] sampleUsers)
        employeeToken 7).1.expenses 7).map (fun e => (e.status, e.currentApprover)) =
      some (Status.pending, none) ∧
    ((mongodbExpensesSubmit
        (sampleUserStore (sampleExpense Status.draft none none []) [] sampleUsers)
        employeeToken 7).1.expenses 7).map (fun e => (e.status, e.currentApprover)) =
      some (Status.pending, some 2) := by
  decide

/-! ## Claims about creation and the frame of the lifecycle handlers -/

theorem findActiveRule_eq_none_iff (s : Store) (company : ObjectId) (category : String) :
    s.findActiveRule company category = none ↔
      ¬ ∃ r ∈ s.rules, r.isActive = true ∧ r.company = company ∧ r.category = category := by
  unfold Store.findActiveRule
  rw [List.find?_eq_none]
  constructor
  · rintro h ⟨r, hr, h1, h2, h3⟩
    exact h r hr (by simp [h1, h2, h3])
  · intro h r hr hp
    simp only [Bool.and_eq_true, beq_iff_eq] at hp
    exact h ⟨r, hr, hp.2, hp.1.1, hp.1.2⟩

theorem findActiveRule_some (s : Store) (company : ObjectId) (category : String)
    (r : ApprovalRule) (h : s.findActiveRule company category = some r) :
    r ∈ s.rules ∧ r.isActive = true ∧ r.company = company ∧ r.category = category := by
  unfold Store.findActiveRule at h
  have hp := List.find?_some h
  simp only [Bool.and_eq_true, beq_iff_eq] at hp
  exact ⟨List.mem_of_find?_eq_some h, hp.2, hp.1.1, hp.1.2⟩

/-- The answer of `POST /api/expenses` is 201 only from the last branch, which
stores the new draft with the rule found for its company and category. -/
theorem expensesCreate_of_created (s : Store) (user : AuthUser) (body : ExpenseBody)
    (rate : Option ℚ) (newId : ObjectId)
    (h : (expensesCreate s user body rate newId).2.status = 201) :
    ∃ e, expensesCreate s user body rate newId =
        (s.saveExpense newId e, ⟨201, "Expense created successfully", some e, []⟩) ∧
      e.category = body.category ∧ e.company = user.company ∧ e.employee = user.userId ∧
      e.status = Status.draft ∧ e.currentApprover = none ∧
      e.approvalRule = (s.findActiveRule user.company body.category).map ApprovalRule.id := by
  unfold expensesCreate at h ⊢
  by_cases hv : body.validationErrors ≠ []
  · rw [if_pos hv] at h
    simp at h
  · rw [if_neg hv] at h ⊢
    cases hcompany : s.findCompanyById user.company with
    | none =>
      rw [hcompany] at h
      simp at h
    | some company =>
      rw [hcompany] at h
      dsimp only at h ⊢
      generalize (if body.currency ≠ company.baseCurrency then
          Option.map (fun r => roundDouble (body.amount * r)) rate
          else some body.amount) = converted at h ⊢
      cases converted with
      | none => simp at h
      | some amount =>
        dsimp only at h ⊢
        by_cases hfresh : (s.expenses newId).isSome = true
        · rw [if_pos hfresh] at h
          simp at h
        · rw [if_neg hfresh]
          exact ⟨_, rfl, rfl, rfl, rfl, rfl, rfl, rfl⟩

/-- The status of the answer of `POST /api/expenses` does not depend on the
rules of the store. -/
theorem expensesCreate_status_rules (s : Store) (rules : List ApprovalRule) (user : AuthUser)
    (body : ExpenseBody) (rate : Option ℚ) (newId : ObjectId) :
    (expensesCreate { s with rules := rules } user body rate newId).2.status =
      (expensesCreate s user body rate newId).2.status := by
  unfold expensesCreate
  by_cases hv : body.validationErrors ≠ []
  · rw [if_pos hv, if_pos hv]
  · rw [if_neg hv, if_neg hv]
    have hc : Store.findCompanyById { s with rules := rules } user.company =
        s.findCompanyById user.company := rfl
    rw [hc]
    cases s.findCompanyById user.company with
    | none => rfl
    | some company =>
      dsimp only
      cases (if body.currency ≠ company.baseCurrency then
          Option.map (fun r => roundDouble (body.amount * r)) rate
          else some body.amount) with
      | none => rfl
      | some amount =>
        dsimp only
        by_cases hfresh : (s.expenses newId).isSome = true
        · rw [if_pos hfresh, if_pos hfresh]
        · rw [if_neg hfresh, if_neg hfresh]

/-- C15. The handler `POST /` of `routes/expenses.js` never fails for lack of
a rule: the status of its answer is the same for every rule collection.  When
it creates the expense (answer 201), a rule reference attached to the expense
is the id of a stored rule that is active, of the caller's company and of
exactly the category of the expense, and no rule is attached exactly when the
store holds no such rule. -/
theorem expensesCreate_attaches_rule (s : Store) (user : AuthUser) (body : ExpenseBody)
    (rate : Option ℚ) (newId : ObjectId) :
    (∀ rules : List ApprovalRule,
      (expensesCreate { s with rules := rules } user body rate newId).2.status =
        (expensesCreate s user body rate newId).2.status) ∧
    ((expensesCreate s user body rate newId).2.status = 201 →
      ∃ e, (expensesCreate s user body rate newId).1.expenses newId = some e ∧
        (expensesCreate s user body rate newId).2.expense = some e ∧
        e.category = body.category ∧
        (∀ ruleId, e.approvalRule = some ruleId →
          ∃ r ∈ s.rules, r.id = ruleId ∧ r.isActive = true ∧ r.company = user.company ∧
            r.category = e.category) ∧
        (e.approvalRule = none ↔
          ¬ ∃ r ∈ s.rules, r.isActive = true ∧ r.company = user.company ∧
            r.category = e.category)) := by
  refine ⟨fun rules => expensesCreate_status_rules s rules user body rate newId, ?_⟩
  intro h
  obtain ⟨e, hcreate, hcat, -, -, -, -, hrule⟩ := expensesCreate_of_created s user body rate newId h
  rw [hcreate]
  refine ⟨e, saveExpense_same _ _ _, rfl, hcat, ?_, ?_⟩
  · intro ruleId hid
    rw [hrule] at hid
    cases hfind : s.findActiveRule user.company body.category with
    | none => rw [hfind] at hid; cases hid
    | some r =>
      rw [hfind] at hid
      have hr := findActiveRule_some s user.company body.category r hfind
      refine ⟨r, hr.1, ?_, hr.2.1, hr.2.2.1, ?_⟩
      · simpa using hid
      · rw [hcat]; exact hr.2.2.2
  · rw [hrule, hcat, ← findActiveRule_eq_none_iff]
    cases s.findActiveRule user.company body.category <;> simp

/-- Witness of C15: the store holds an inactive rule, a rule of a category that
differs in case only, and the active rule `50` of the category; the new expense
refers to rule `50`. -/
theorem expensesCreate_attaches_rule_witness :
    ∃ e, (expensesCreate
        (sampleEmptyStore
          [{ sampleRule [] 100 [] with id := 48, isActive := false },
            { sampleRule [] 100 [] with id := 49, category := "food & dining" },
            sampleRule [⟨1, 1⟩] 100 []])
        employeeToken sampleBody none 7).1.expenses 7 = some e ∧
      e.approvalRule = some 50 :=
  let ⟨e, h1, _, _, _, _⟩ := (expensesCreate_attaches_rule
    (sampleEmptyStore
      [{ sampleRule [] 100 [] with id := 48, isActive := false },
        { sampleRule [] 100 [] with id := 49, category := "food & dining" },
        sampleRule [⟨1, 1⟩] 100 []])
    employeeToken sampleBody none 7).2 (by decide!)
  ⟨e, h1, by
    have hdec : (expensesCreate
        (sampleEmptyStore
          [{ sampleRule [] 100 [] with id := 48, isActive := false },
            { sampleRule [] 100 [] with id := 49, category := "food & dining" },
            sampleRule [⟨1, 1⟩] 100 []])
        employeeToken sampleBody none 7).1.expenses 7 =
        some (sampleExpense Status.draft none (some 50) []) := by decide!
    rw [hdec] at h1
    cases h1
    rfl⟩

/-- The evaluation of a decision writes `status` and `currentApprover` only. -/
theorem evaluateAction_frame (x : Expense) (rule : Option ApprovalRule) (userId : ObjectId)
    (action : Action) :
    evaluateAction x rule userId action =
      { x with
        status := (evaluateAction x rule userId action).status
        currentApprover := (evaluateAction x rule userId action).currentApprover } := by
  unfold evaluateAction
  split
  · rfl
  · cases rule with
    | none => rfl
    | some r =>
      dsimp only
      split
      · rfl
      · split
        · rfl
        · split <;> rfl

/-- A submission writes `status` and `currentApprover` only. -/
theorem expensesSubmit_frame (s : Store) (user : AuthUser) (id : ObjectId) (e : Expense)
    (he : s.expenses id = some e) (ho : e.employee = user.userId)
    (hd : e.status = Status.draft) :
    ∃ saved : Expense, expensesSubmit s user id =
        (s.saveExpense id saved, ⟨200, "Expense submitted for approval", some saved, []⟩) ∧
      saved = { e with status := saved.status, currentApprover := saved.currentApprover } := by
  have hf : s.findOneExpense id
      (fun e => e.employee == user.userId && e.status == Status.draft) = some e := by
    rw [findOneExpense_eq_some_iff]
    exact ⟨he, by simp [ho, hd]⟩
  simp only [expensesSubmit, hf]
  refine ⟨_, rfl, ?_⟩
  cases hr : e.approvalRule with
  | none => rfl
  | some ruleId =>
    dsimp only
    cases hq : s.findRuleById ruleId with
    | none => rfl
    | some rule =>
      dsimp only
      split <;> rfl

/-- C16. A successful submit (answer 200) saves the expense with every field
other than `status` and `currentApprover` as it was, and a successful decide
saves it with every field other than `status`, `currentApprover` and
`approvalHistory` as it was (so `amountInBaseCurrency`, `amount`, `employee`,
`company`, `category` and `approvalRule` are kept); neither touches another
expense nor the rules, users or companies. -/
theorem lifecycle_frame (s : Store) (user : AuthUser) (id : ObjectId) :
    ((expensesSubmit s user id).2.status = 200 →
      ∃ e e', s.expenses id = some e ∧
        (expensesSubmit s user id).1.expenses id = some e' ∧
        (expensesSubmit s user id).2.expense = some e' ∧
        e' = { e with status := e'.status, currentApprover := e'.currentApprover } ∧
        (∀ k, k ≠ id → (expensesSubmit s user id).1.expenses k = s.expenses k) ∧
        (expensesSubmit s user id).1.rules = s.rules ∧
        (expensesSubmit s user id).1.users = s.users ∧
        (expensesSubmit s user id).1.companies = s.companies) ∧
    (∀ action comment now, (approvalsAction s user id action comment now).2.status = 200 →
      ∃ e e', s.expenses id = some e ∧
        (approvalsAction s user id action comment now).1.expenses id = some e' ∧
        (approvalsAction s user id action comment now).2.expense = some e' ∧
        e' = { e with
          status := e'.status
          currentApprover := e'.currentApprover
          approvalHistory := e'.approvalHistory } ∧
        (∀ k, k ≠ id →
          (approvalsAction s user id action comment now).1.expenses k = s.expenses k) ∧
        (approvalsAction s user id action comment now).1.rules = s.rules ∧
        (approvalsAction s user id action comment now).1.users = s.users ∧
        (approvalsAction s user id action comment now).1.companies = s.companies) := by
  refine ⟨?_, ?_⟩
  · intro h200
    by_cases hex : ∃ e, s.expenses id = some e ∧ e.employee = user.userId ∧
        e.status = Status.draft
    · obtain ⟨e, he, ho, hd⟩ := hex
      obtain ⟨saved, hsub, hframe⟩ := expensesSubmit_frame s user id e he ho hd
      rw [hsub]
      exact ⟨e, saved, he, saveExpense_same _ _ _, rfl, hframe,
        fun k hk => saveExpense_other _ _ _ _ hk, rfl, rfl, rfl⟩
    · exfalso
      rw [expensesSubmit_of_not_draft s user id
        (fun e he hp => hex ⟨e, he, hp.1, hp.2⟩)] at h200
      simp at h200
  · intro action comment now h200
    by_cases hex : ∃ e, s.expenses id = some e ∧ e.status = Status.pending ∧
        e.currentApprover = some user.userId
    · obtain ⟨e, he, hs, hc⟩ := hex
      rw [approvalsAction_of_pending s user id action comment now e he hs hc]
      refine ⟨e, _, he, saveExpense_same _ _ _, rfl, ?_,
        fun k hk => saveExpense_other _ _ _ _ hk, rfl, rfl, rfl⟩
      have hfr := evaluateAction_frame
        { e with
          approvalHistory := e.approvalHistory ++ [pushedEntry user action comment now] }
        (s.populateApprovalRule e) user.userId action
      unfold decided
      rw [evaluateAction_approvalHistory]
      exact hfr
    · exfalso
      rw [approvalsAction_of_not_pending s user id action comment now
        (fun e he hp => hex ⟨e, he, hp.1, hp.2⟩)] at h200
      simp at h200

/-- Witness of C16: the owner submits a draft under the chain `C, A, B`; only
`status` and `currentApprover` differ afterwards. -/
theorem lifecycle_frame_witness :
    ∃ e', (expensesSubmit
        (sampleStore (sampleExpense Status.draft none (some 50) [])
          [sampleRule [⟨3, 3⟩, ⟨1, 1⟩, ⟨2, 2⟩] 100 []])
        employeeToken 7).1.expenses 7 = some e' ∧
      e' = { sampleExpense Status.draft none (some 50) [] with
        status := e'.status, currentApprover := e'.currentApprover } :=
  let ⟨e, e', h1, h2, _, h4, _⟩ := (lifecycle_frame
    (sampleStore (sampleExpense Status.draft none (some 50) [])
      [sampleRule [⟨3, 3⟩, ⟨1, 1⟩, ⟨2, 2⟩] 100 []])
    employeeToken 7).1 (by decide)
  ⟨e', h2, by
    have he : e = sampleExpense Status.draft none (some 50) [] := by
      have h7 : (sampleStore (sampleExpense Status.draft none (some 50) [])
          [sampleRule [⟨3, 3⟩, ⟨1, 1⟩, ⟨2, 2⟩] 100 []]).expenses 7 =
          some (sampleExpense Status.draft none (some 50) []) := rfl
      rw [h7] at h1
      exact (Option.some.inj h1).symm
    rw [← he]
    exact h4⟩

/-! ## Routing and the flag `isManagerApprover` -/

theorem find_rule_flag (k : ObjectId) (l l' : List ApprovalRule)
    (h : List.Forall₂ sameUpToManagerFlag l l') :
    (l.find? (fun r => r.id == k) = none ∧ l'.find? (fun r => r.id == k) = none) ∨
    ∃ r r', l.find? (fun r => r.id == k) = some r ∧
      l'.find? (fun r => r.id == k) = some r' ∧ sameUpToManagerFlag r r' := by
  induction h with
  | nil => exact Or.inl ⟨rfl, rfl⟩
  | @cons a b l l' hab _ ih =>
    have hid : b.id = a.id := by
      unfold sameUpToManagerFlag at hab
      rw [hab]
    by_cases hk : a.id = k
    · refine Or.inr ⟨a, b, ?_, ?_, hab⟩
      · simp [List.find?_cons, hk]
      · simp [List.find?_cons, hid, hk]
    · have hk' : ¬ b.id = k := by rw [hid]; exact hk
      simpa [List.find?_cons, hk, hk'] using ih

theorem evaluateAction_flag (x : Expense) (r r' : ApprovalRule) (userId : ObjectId)
    (action : Action) (h : sameUpToManagerFlag r r') :
    evaluateAction x (some r') userId action = evaluateAction x (some r) userId action := by
  unfold sameUpToManagerFlag at h
  rw [h]
  rfl

/-- C20. Let two stores hold the same expenses, users and companies and rule
collections that agree rule by rule except for the values of
`isManagerApprover`.  Then submit and decide of `routes/` give, for every
caller, expense, action and comment, the same answer (so the same status, the
same current approver and the same history in the returned expense) and save
the same expenses. -/
theorem routing_ignores_isManagerApprover (s s' : Store)
    (hexp : s'.expenses = s.expenses)
    (hrules : List.Forall₂ sameUpToManagerFlag s.rules s'.rules)
    (user : AuthUser) (id : ObjectId) :
    ((expensesSubmit s' user id).2 = (expensesSubmit s user id).2 ∧
      (expensesSubmit s' user id).1.expenses = (expensesSubmit s user id).1.expenses) ∧
    (∀ action comment now,
      (approvalsAction s' user id action comment now).2 =
        (approvalsAction s user id action comment now).2 ∧
      (approvalsAction s' user id action comment now).1.expenses =
        (approvalsAction s user id action comment now).1.expenses) := by
  have hfind : ∀ c, s'.findOneExpense id c = s.findOneExpense id c := by
    intro c
    unfold Store.findOneExpense
    rw [hexp]
  have hsave : ∀ x y, x = y → (s'.saveExpense id x).expenses = (s.saveExpense id y).expenses := by
    intro x y hxy
    unfold Store.saveExpense
    rw [hxy]
    funext k
    simp only [hexp]
  refine ⟨?_, ?_⟩
  · unfold expensesSubmit
    rw [hfind]
    cases s.findOneExpense id
        (fun e => e.employee == user.userId && e.status == Status.draft) with
    | none => exact ⟨rfl, hexp⟩
    | some e =>
      dsimp only
      have hsaved : (match e.approvalRule with
          | some ruleId =>
            match s'.findRuleById ruleId with
            | some approvalRule =>
              if approvalRule.approvers.length > 0 then
                { e with
                  status := Status.pending
                  currentApprover := ((sortApprovers approvalRule.approvers)[0]?).map Approver.user }
              else { e with status := Status.pending }
            | none => { e with status := Status.pending }
          | none => { e with status := Status.pending }) =
          (match e.approvalRule with
          | some ruleId =>
            match s.findRuleById ruleId with
            | some approvalRule =>
              if approvalRule.approvers.length > 0 then
                { e with
                  status := Status.pending
                  currentApprover := ((sortApprovers approvalRule.approvers)[0]?).map Approver.user }
              else { e with status := Status.pending }
            | none => { e with status := Status.pending }
          | none => { e with status := Status.pending } : Expense) := by
        cases e.approvalRule with
        | none => rfl
        | some ruleId =>
          dsimp only
          unfold Store.findRuleById
          rcases find_rule_flag ruleId s.rules s'.rules hrules with ⟨h1, h2⟩ | ⟨r, r', h1, h2, hr⟩
          · rw [h1, h2]
          · rw [h1, h2]
            unfold sameUpToManagerFlag at hr
            rw [hr]
      exact ⟨by rw [hsaved], hsave _ _ hsaved⟩
  · intro action comment now
    unfold approvalsAction
    rw [hfind]
    cases s.findOneExpense id
        (fun e => e.currentApprover == some user.userId && e.status == Status.pending) with
    | none => exact ⟨rfl, hexp⟩
    | some e =>
      dsimp only
      have hsaved : evaluateAction
            { e with approvalHistory := e.approvalHistory ++ [⟨user.userId, action, comment, now⟩] }
            (s'.populateApprovalRule e) user.userId action =
          evaluateAction
            { e with approvalHistory := e.approvalHistory ++ [⟨user.userId, action, comment, now⟩] }
            (s.populateApprovalRule e) user.userId action := by
        unfold Store.populateApprovalRule
        cases e.approvalRule with
        | none => rfl
        | some ruleId =>
          simp only [Option.some_bind]
          unfold Store.findRuleById
          rcases find_rule_flag ruleId s.rules s'.rules hrules with ⟨h1, h2⟩ | ⟨r, r', h1, h2, hr⟩
          · rw [h1, h2]
          · rw [h1, h2]
            exact evaluateAction_flag _ r r' user.userId action hr
      exact ⟨by rw [hsaved], hsave _ _ hsaved⟩

/-- Witness of C20: the chain `C, A, B` with the flag off and on; `A` approves
and both stores hand the expense to `B`. -/
theorem routing_ignores_isManagerApprover_witness :
    (approvalsAction
        (sampleStore (sampleExpense Status.pending (some 1) (some 50) [])
          [{ sampleRule [⟨3, 3⟩, ⟨1, 1⟩, ⟨2, 2⟩] 100 [] with isManagerApprover := true }])
        (managerToken 1) 7 Action.approved none 0).2 =
      (approvalsAction
        (sampleStore (sampleExpense Status.pending (some 1) (some 50) [])
          [sampleRule [⟨3, 3⟩, ⟨1, 1⟩, ⟨2, 2⟩] 100 []])
        (managerToken 1) 7 Action.approved none 0).2 :=
  ((routing_ignores_isManagerApprover
    (sampleStore (sampleExpense Status.pending (some 1) (some 50) [])
      [sampleRule [⟨3, 3⟩, ⟨1, 1⟩, ⟨2, 2⟩] 100 []])
    (sampleStore (sampleExpense Status.pending (some 1) (some 50) [])
      [{ sampleRule [⟨3, 3⟩, ⟨1, 1⟩, ⟨2, 2⟩] 100 [] with isManagerApprover := true }])
    rfl (List.Forall₂.cons rfl List.Forall₂.nil) (managerToken 1) 7).2
      Action.approved none 0).1

/-! ## Claims about the rule handlers -/

theorem handle_rules (s : Store) (request : Request) : (handle s request).1.rules = s.rules := by
  cases request with
  | create user body rate newId =>
    simp only [handle, expensesCreate]
    split
    · rfl
    · split
      · rfl
      · split
        · rfl
        · split <;> rfl
  | submit user id =>
    simp only [handle, expensesSubmit]
    split <;> rfl
  | action user id action comment now =>
    simp only [handle, approvalsAction]
    split <;> rfl

theorem run_rules (requests : List Request) : ∀ s : Store, (run s requests).rules = s.rules := by
  induction requests with
  | nil => intro s; rfl
  | cons r rs ih =>
    intro s
    exact (ih (handle s r).1).trans (handle_rules s r)

/-- The answer of `POST /api/approval-rules` is 201 only from the last branch,
which appends the new rule. -/
theorem rulesCreate_of_created (s : Store) (user : AuthUser) (body : RuleBody)
    (newId : ObjectId) (h : (rulesCreate s user body newId).2.status = 201) :
    user.role = Role.admin ∧ body.createErrors = [] ∧
    rulesCreate s user body newId =
      ({ s with rules := s.rules ++
          [{ id := newId
             company := user.company
             name := body.name.getD ""
             category := body.category.getD ""
             isManagerApprover := body.isManagerApprover.getD false
             approvers := body.approvers.orEmpty
             minimumApprovalPercentage := body.minimumApprovalPercentage.orDefault
             conditionalApprovers := body.conditionalApprovers.getD []
             isActive := true }] },
        ⟨201, "Approval rule created successfully",
          some { id := newId
                 company := user.company
                 name := body.name.getD ""
                 category := body.category.getD ""
                 isManagerApprover := body.isManagerApprover.getD false
                 approvers := body.approvers.orEmpty
                 minimumApprovalPercentage := body.minimumApprovalPercentage.orDefault
                 conditionalApprovers := body.conditionalApprovers.getD []
                 isActive := true }, []⟩) := by
  unfold rulesCreate at h ⊢
  by_cases hrole : user.role ≠ Role.admin
  · rw [if_pos hrole] at h
    simp at h
  · rw [if_neg hrole] at h ⊢
    by_cases hv : body.createErrors ≠ []
    · rw [if_pos hv] at h
      simp at h
    · rw [if_neg hv] at h ⊢
      by_cases hfresh : (s.rules.any (fun r => r.id == newId)) = true
      · rw [if_pos hfresh] at h
        simp at h
      · rw [if_neg hfresh]
        exact ⟨not_not.mp hrole, not_not.mp hv, rfl⟩

theorem createErrors_approvers (body : RuleBody) (h : body.createErrors = []) :
    RawApprovers.array body.approvers.orEmpty = body.approvers := by
  unfold RuleBody.createErrors at h
  cases ha : body.approvers with
  | absent => rw [ha] at h; simp at h
  | notArray => rw [ha] at h; simp at h
  | array l => rfl

/-- C17. When an admin creates a rule from a valid input (answer 201), then
after any sequence of create, submit and decide requests of `routes/` the
rules fetched for the company hold a rule with the new id whose `approvers`
and `conditionalApprovers` are the submitted lists, element for element in the
submitted order (an absent `conditionalApprovers` is the empty list); the
lifecycle requests leave the rule collection as the creation left it. -/
theorem rulesCreate_roundtrip (s : Store) (user : AuthUser) (body : RuleBody)
    (newId : ObjectId) (requests : List Request)
    (hcreated : (rulesCreate s user body newId).2.status = 201) :
    (run (rulesCreate s user body newId).1 requests).rules =
      (rulesCreate s user body newId).1.rules ∧
    ∃ r ∈ rulesGet (run (rulesCreate s user body newId).1 requests) user,
      r.id = newId ∧ (rulesCreate s user body newId).2.rule = some r ∧
      RawApprovers.array r.approvers = body.approvers ∧
      r.conditionalApprovers = body.conditionalApprovers.getD [] := by
  obtain ⟨-, hv, hcreate⟩ := rulesCreate_of_created s user body newId hcreated
  refine ⟨run_rules requests _, ?_⟩
  rw [hcreate]
  refine ⟨_, ?_, rfl, rfl, createErrors_approvers body hv, rfl⟩
  unfold rulesGet
  rw [run_rules]
  simp

/-- Witness of C17: the chain `C(2), A(1), B(1)` with two equal sequences and
two conditional approvers is created, then an expense is created and
submitted under it; the fetched rule has the lists as submitted. -/
theorem rulesCreate_roundtrip_witness :
    ∃ r ∈ rulesGet
        (run (rulesCreate (sampleEmptyStore []) adminToken
            (sampleRuleBody (some "Meals") (RawApprovers.array [⟨3, 2⟩, ⟨1, 1⟩, ⟨2, 1⟩])
              (RawPercentage.number 100) (some [⟨2, true⟩, ⟨1, false⟩])) 50).1
          [Request.create employeeToken sampleBody none 7, Request.submit employeeToken 7])
        adminToken,
      r.id = 50 ∧ r.approvers = [⟨3, 2⟩, ⟨1, 1⟩, ⟨2, 1⟩] ∧
      r.conditionalApprovers = [⟨2, true⟩, ⟨1, false⟩] :=
  let ⟨r, h1, h2, _, h4, h5⟩ := (rulesCreate_roundtrip (sampleEmptyStore []) adminToken
    (sampleRuleBody (some "Meals") (RawApprovers.array [⟨3, 2⟩, ⟨1, 1⟩, ⟨2, 1⟩])
      (RawPercentage.number 100) (some [⟨2, true⟩, ⟨1, false⟩])) 50
    [Request.create employeeToken sampleBody none 7, Request.submit employeeToken 7]
    (by decide!)).2
  ⟨r, h1, h2, RawApprovers.array.inj h4, h5⟩

/-- The values that `isNumeric()` refuses. -/
theorem isNumeric_eq_false_iff (p : RawPercentage) :
    p.isNumeric = false ↔
      (p = RawPercentage.absent ∨ p = RawPercentage.notNumeric ∨
        ∃ q, p = RawPercentage.number q ∧ q ≠ 0 ∧
          (|q| < roundDouble (1 / 10 ^ 6) ∨ 10 ^ 21 ≤ |q|)) := by
  cases p with
  | absent => simp [RawPercentage.isNumeric]
  | notNumeric => simp [RawPercentage.isNumeric]
  | numericString q => simp [RawPercentage.isNumeric]
  | number q =>
    have hdec : (RawPercentage.number q).isNumeric = false ↔
        ¬ (q = 0 ∨ (roundDouble (1 / 10 ^ 6) ≤ |q| ∧ |q| < 10 ^ 21)) := by
      show decide (q = 0 ∨ (roundDouble (1 / 10 ^ 6) ≤ |q| ∧ |q| < 10 ^ 21)) = false ↔ _
      rw [decide_eq_false_iff_not]
    rw [hdec]
    constructor
    · intro h
      refine Or.inr (Or.inr ⟨q, rfl, fun h0 => h (Or.inl h0), ?_⟩)
      by_cases hlow : |q| < roundDouble (1 / 10 ^ 6)
      · exact Or.inl hlow
      · refine Or.inr ?_
        by_contra hlt
        exact h (Or.inr ⟨not_lt.mp hlow, not_le.mp hlt⟩)
    · rintro (h | h | ⟨r, hr, h0, h⟩)
      · cases h
      · cases h
      · cases hr
        rintro (hh | ⟨h1, h2⟩)
        · exact h0 hh
        · rcases h with h | h
          · exact absurd h1 (not_le.mpr h)
          · exact absurd h2 (not_lt.mpr h)

/-- The bodies that the validators of rule create refuse. -/
theorem createErrors_ne_nil_iff (body : RuleBody) :
    body.createErrors ≠ [] ↔
      (body.name = none ∨ body.name = some "" ∨ body.category = none ∨
        body.category = some "" ∨
        body.minimumApprovalPercentage = RawPercentage.absent ∨
        body.minimumApprovalPercentage = RawPercentage.notNumeric ∨
        (∃ q, body.minimumApprovalPercentage = RawPercentage.number q ∧ q ≠ 0 ∧
          (|q| < roundDouble (1 / 10 ^ 6) ∨ 10 ^ 21 ≤ |q|)) ∨
        body.approvers = RawApprovers.absent ∨ body.approvers = RawApprovers.notArray) := by
  have hnum := isNumeric_eq_false_iff body.minimumApprovalPercentage
  have happ : (match body.approvers with
      | RawApprovers.array _ => ([] : List String)
      | _ => ["Approvers must be an array"]) ≠ [] ↔
      (body.approvers = RawApprovers.absent ∨ body.approvers = RawApprovers.notArray) := by
    cases body.approvers <;> simp
  unfold RuleBody.createErrors
  by_cases h1 : body.name = none ∨ body.name = some ""
  · rw [if_pos h1]
    constructor
    · intro _
      rcases h1 with h | h
      · exact Or.inl h
      · exact Or.inr (Or.inl h)
    · intro _; simp
  · rw [if_neg h1]
    by_cases h2 : body.category = none ∨ body.category = some ""
    · rw [if_pos h2]
      constructor
      · intro _
        rcases h2 with h | h
        · exact Or.inr (Or.inr (Or.inl h))
        · exact Or.inr (Or.inr (Or.inr (Or.inl h)))
      · intro _; simp
    · rw [if_neg h2]
      by_cases h3 : body.minimumApprovalPercentage.isNumeric = true
      · rw [if_pos h3]
        have hn : ¬ (body.minimumApprovalPercentage.isNumeric = false) := by simp [h3]
        rw [hnum] at hn
        simp only [List.nil_append, List.append_nil]
        rw [happ]
        constructor
        · intro h
          exact Or.inr (Or.inr (Or.inr (Or.inr (Or.inr (Or.inr (Or.inr h))))))
        · intro h
          rcases h with h | h | h | h | h | h | h | h
          · exact absurd (Or.inl h) h1
          · exact absurd (Or.inr h) h1
          · exact absurd (Or.inl h) h2
          · exact absurd (Or.inr h) h2
          · exact absurd (Or.inl h) hn
          · exact absurd (Or.inr (Or.inl h)) hn
          · exact absurd (Or.inr (Or.inr h)) hn
          · exact h
      · rw [if_neg h3]
        have hf : body.minimumApprovalPercentage.isNumeric = false := by simpa using h3
        rw [hnum] at hf
        constructor
        · intro _
          rcases hf with h | h | h
          · exact Or.inr (Or.inr (Or.inr (Or.inr (Or.inl h))))
          · exact Or.inr (Or.inr (Or.inr (Or.inr (Or.inr (Or.inl h)))))
          · exact Or.inr (Or.inr (Or.inr (Or.inr (Or.inr (Or.inr (Or.inl h))))))
        · intro _; simp

/-- The bodies that the validators of rule update refuse. -/
theorem updateErrors_ne_nil_iff (body : RuleBody) :
    body.updateErrors ≠ [] ↔
      (body.name = some "" ∨ body.category = some "" ∨
        body.minimumApprovalPercentage = RawPercentage.notNumeric ∨
        (∃ q, body.minimumApprovalPercentage = RawPercentage.number q ∧ q ≠ 0 ∧
          (|q| < roundDouble (1 / 10 ^ 6) ∨ 10 ^ 21 ≤ |q|)) ∨
        body.approvers = RawApprovers.notArray) := by
  have hnum := isNumeric_eq_false_iff body.minimumApprovalPercentage
  have happ : (match body.approvers with
      | RawApprovers.notArray => ["Approvers must be an array"]
      | _ => ([] : List String)) ≠ [] ↔ body.approvers = RawApprovers.notArray := by
    cases body.approvers <;> simp
  unfold RuleBody.updateErrors
  by_cases h1 : body.name = some ""
  · rw [if_pos h1]
    exact ⟨fun _ => Or.inl h1, fun _ => by simp⟩
  · rw [if_neg h1]
    by_cases h2 : body.category = some ""
    · rw [if_pos h2]
      exact ⟨fun _ => Or.inr (Or.inl h2), fun _ => by simp⟩
    · rw [if_neg h2]
      by_cases h3 : body.minimumApprovalPercentage = RawPercentage.absent ∨
          body.minimumApprovalPercentage.isNumeric = true
      · rw [if_pos h3]
        simp only [List.nil_append, List.append_nil]
        rw [happ]
        constructor
        · intro h
          exact Or.inr (Or.inr (Or.inr (Or.inr h)))
        · intro h
          rcases h with h | h | h | h | h
          · exact absurd h h1
          · exact absurd h h2
          · rcases h3 with h3 | h3
            · rw [h] at h3; cases h3
            · rw [h] at h3; simp [RawPercentage.isNumeric] at h3
          · rcases h3 with h3 | h3
            · obtain ⟨q, hq, -⟩ := h
              rw [hq] at h3; cases h3
            · have hf : body.minimumApprovalPercentage.isNumeric = false :=
                hnum.mpr (Or.inr (Or.inr h))
              rw [hf] at h3; cases h3
          · exact h
      · rw [if_neg h3]
        have hf : body.minimumApprovalPercentage.isNumeric = false := by
          cases hb : body.minimumApprovalPercentage.isNumeric with
          | false => rfl
          | true => exact absurd (Or.inr hb) h3
        have hna : body.minimumApprovalPercentage ≠ RawPercentage.absent :=
          fun h => h3 (Or.inl h)
        rw [hnum] at hf
        constructor
        · intro _
          rcases hf with h | h | h
          · exact absurd h hna
          · exact Or.inr (Or.inr (Or.inl h))
          · exact Or.inr (Or.inr (Or.inr (Or.inl h)))
        · intro _; simp

/-- C18, counterexample to the claim as stated.  An admin creates a rule with
`minimumApprovalPercentage = 150` and without `conditionalApprovers`, and then
sets the percentage to `-5`; both requests are accepted and the values are
stored.  A manager who posts a form with an empty name is answered 403, with no
validation error. -/
theorem rules_validation_counterexample :
    (rulesCreate (sampleEmptyStore []) adminToken
        (sampleRuleBody (some "Meals") (RawApprovers.array []) (RawPercentage.number 150) none)
        50).2.status = 201 ∧
    (rulesCreate (sampleEmptyStore []) adminToken
        (sampleRuleBody (some "Meals") (RawApprovers.array []) (RawPercentage.number 150) none)
        50).1.rules.map
      (fun r => (r.minimumApprovalPercentage, r.conditionalApprovers)) = [(150, [])] ∧
    (rulesUpdate (sampleEmptyStore [sampleRule [] 100 []]) adminToken 50
        (sampleRuleBody none RawApprovers.absent (RawPercentage.number (-5)) none)).2.status
      = 200 ∧
    (rulesUpdate (sampleEmptyStore [sampleRule [] 100 []]) adminToken 50
        (sampleRuleBody none RawApprovers.absent (RawPercentage.number (-5)) none)).1.rules.map
      ApprovalRule.minimumApprovalPercentage = [-5] ∧
    (rulesCreate (sampleEmptyStore []) (managerToken 2)
        (sampleRuleBody (some "") (RawApprovers.array []) (RawPercentage.number 100) none)
        50).2 = ⟨403, "Only admins can create approval rules", none, []⟩ := by
  decide!

/-- C18, amended.  For a caller who is an admin, rule create answers 400
exactly for the inputs whose name or category is absent or empty, whose
`minimumApprovalPercentage` is absent or not numeric, or whose `approvers` is
absent or not an array; rule update answers 400 exactly for the inputs whose
name or category is present and empty, whose `minimumApprovalPercentage` is
present and not numeric, or whose `approvers` is present and not an array.
Not numeric is a value that, written as a string, is no decimal numeral without
exponent; among the JSON numbers these are the non-zero numbers below `1e-6` or
from `1e21` on in magnitude, which JavaScript prints with an exponent.  A 400
answer carries a non-empty list of validation errors and leaves the store as it
was.  Every other input whose fields have the types of the rule schema is
accepted, whatever the value of the percentage and with or without
`conditionalApprovers`: create stores the rule under an unused `_id` and
answers 201, update writes the fields of the body to the rule of the caller's
company with the given id and answers 200 (404 when there is no such rule). -/
theorem rules_validation (s : Store) (user : AuthUser) (body : RuleBody)
    (hadmin : user.role = Role.admin) :
    (∀ newId,
      ((rulesCreate s user body newId).2.status = 400 ↔
        (body.name = none ∨ body.name = some "" ∨ body.category = none ∨
          body.category = some "" ∨
          body.minimumApprovalPercentage = RawPercentage.absent ∨
          body.minimumApprovalPercentage = RawPercentage.notNumeric ∨
          (∃ q, body.minimumApprovalPercentage = RawPercentage.number q ∧ q ≠ 0 ∧
            (|q| < roundDouble (1 / 10 ^ 6) ∨ 10 ^ 21 ≤ |q|)) ∨
          body.approvers = RawApprovers.absent ∨ body.approvers = RawApprovers.notArray)) ∧
      ((rulesCreate s user body newId).2.status = 400 →
        (rulesCreate s user body newId).1 = s ∧
          (rulesCreate s user body newId).2.errors ≠ [] ∧
          (rulesCreate s user body newId).2.rule = none) ∧
      ((rulesCreate s user body newId).2.status ≠ 400 → (∀ r ∈ s.rules, r.id ≠ newId) →
        ∃ r, rulesCreate s user body newId =
            ({ s with rules := s.rules ++ [r] },
              ⟨201, "Approval rule created successfully", some r, []⟩) ∧
          r.id = newId ∧ r.company = user.company ∧
          r.minimumApprovalPercentage = body.minimumApprovalPercentage.orDefault ∧
          RawApprovers.array r.approvers = body.approvers ∧
          r.conditionalApprovers = body.conditionalApprovers.getD [])) ∧
    (∀ id,
      ((rulesUpdate s user id body).2.status = 400 ↔
        (body.name = some "" ∨ body.category = some "" ∨
          body.minimumApprovalPercentage = RawPercentage.notNumeric ∨
          (∃ q, body.minimumApprovalPercentage = RawPercentage.number q ∧ q ≠ 0 ∧
            (|q| < roundDouble (1 / 10 ^ 6) ∨ 10 ^ 21 ≤ |q|)) ∨
          body.approvers = RawApprovers.notArray)) ∧
      ((rulesUpdate s user id body).2.status = 400 →
        (rulesUpdate s user id body).1 = s ∧
          (rulesUpdate s user id body).2.errors ≠ [] ∧
          (rulesUpdate s user id body).2.rule = none) ∧
      ((rulesUpdate s user id body).2.status ≠ 400 →
        (s.findRuleOfCompany id user.company = none →
          rulesUpdate s user id body = (s, ⟨404, "Approval rule not found", none, []⟩)) ∧
        (∀ rule, s.findRuleOfCompany id user.company = some rule →
          rulesUpdate s user id body =
            ({ s with
                rules := updateFirst (fun r => r.id == id && r.company == user.company)
                  body.applyTo s.rules },
              ⟨200, "Approval rule updated successfully", some (body.applyTo rule), []⟩) ∧
          (∀ q, (body.minimumApprovalPercentage = RawPercentage.number q ∨
              body.minimumApprovalPercentage = RawPercentage.numericString q) →
            (body.applyTo rule).minimumApprovalPercentage = q) ∧
          (body.minimumApprovalPercentage = RawPercentage.absent →
            (body.applyTo rule).minimumApprovalPercentage =
              rule.minimumApprovalPercentage)))) := by
  have hrole : ¬ user.role ≠ Role.admin := not_not.mpr hadmin
  refine ⟨?_, ?_⟩
  · intro newId
    have hiff := createErrors_ne_nil_iff body
    by_cases hv : body.createErrors ≠ []
    · have hform : rulesCreate s user body newId = (s, ⟨400, "", none, body.createErrors⟩) := by
        unfold rulesCreate
        rw [if_neg hrole, if_pos hv]
      rw [hform]
      exact ⟨⟨fun _ => hiff.mp hv, fun _ => rfl⟩, fun _ => ⟨rfl, hv, rfl⟩,
        fun h => absurd rfl h⟩
    · have hstatus : (rulesCreate s user body newId).2.status ≠ 400 := by
        unfold rulesCreate
        rw [if_neg hrole, if_neg hv]
        by_cases hfresh : (s.rules.any (fun r => r.id == newId)) = true
        · rw [if_pos hfresh]
          exact fun h => (by decide : ¬ ((500 : Nat) = 400)) h
        · rw [if_neg hfresh]
          exact fun h => (by decide : ¬ ((201 : Nat) = 400)) h
      refine ⟨⟨fun h => absurd h hstatus, fun h => absurd (hiff.mpr h) hv⟩,
        fun h => absurd h hstatus, ?_⟩
      intro _ hfresh
      have hf : ¬ ((s.rules.any (fun r => r.id == newId)) = true) := by
        simp only [List.any_eq_true, beq_iff_eq, not_exists, not_and]
        exact hfresh
      unfold rulesCreate
      rw [if_neg hrole, if_neg hv]
      dsimp only
      rw [if_neg hf]
      exact ⟨_, rfl, rfl, rfl, rfl, createErrors_approvers body (not_not.mp hv), rfl⟩
  · intro id
    have hiff := updateErrors_ne_nil_iff body
    by_cases hv : body.updateErrors ≠ []
    · have hform : rulesUpdate s user id body = (s, ⟨400, "", none, body.updateErrors⟩) := by
        unfold rulesUpdate
        rw [if_neg hrole, if_pos hv]
      rw [hform]
      exact ⟨⟨fun _ => hiff.mp hv, fun _ => rfl⟩, fun _ => ⟨rfl, hv, rfl⟩,
        fun h => absurd rfl h⟩
    · have hnone : s.findRuleOfCompany id user.company = none →
          rulesUpdate s user id body = (s, ⟨404, "Approval rule not found", none, []⟩) := by
        intro hfind
        unfold rulesUpdate
        rw [if_neg hrole, if_neg hv, hfind]
      have hsome : ∀ rule, s.findRuleOfCompany id user.company = some rule →
          rulesUpdate s user id body =
            ({ s with
                rules := updateFirst (fun r => r.id == id && r.company == user.company)
                  body.applyTo s.rules },
              ⟨200, "Approval rule updated successfully", some (body.applyTo rule), []⟩) := by
        intro rule hfind
        unfold rulesUpdate
        rw [if_neg hrole, if_neg hv, hfind]
      have hstatus : (rulesUpdate s user id body).2.status ≠ 400 := by
        cases hfind : s.findRuleOfCompany id user.company with
        | none =>
          rw [hnone hfind]
          exact fun h => (by decide : ¬ ((404 : Nat) = 400)) h
        | some rule =>
          rw [hsome rule hfind]
          exact fun h => (by decide : ¬ ((200 : Nat) = 400)) h
      refine ⟨⟨fun h => absurd h hstatus, fun h => absurd (hiff.mpr h) hv⟩,
        fun h => absurd h hstatus, fun _ => ⟨hnone, ?_⟩⟩
      intro rule hfind
      refine ⟨hsome rule hfind, ?_, ?_⟩
      · intro q hq
        rcases hq with hq | hq <;> simp [RuleBody.applyTo, hq]
      · intro habs
        simp [RuleBody.applyTo, habs]

/-- Witness of C18: an admin posts a rule form whose percentage is the JSON
number `1e21`, which is refused with 400, and a form whose percentage is 150,
which is stored (answer 201). -/
theorem rules_validation_witness :
    (rulesCreate (sampleEmptyStore []) adminToken
        (sampleRuleBody (some "Meals") (RawApprovers.array []) (RawPercentage.number (10 ^ 21))
          none) 50).2.status = 400 ∧
    (rulesCreate (sampleEmptyStore []) adminToken
        (sampleRuleBody (some "Meals") (RawApprovers.array []) (RawPercentage.number (10 ^ 21))
          none) 50).1 = sampleEmptyStore [] ∧
    ∃ r, (rulesCreate (sampleEmptyStore []) adminToken
        (sampleRuleBody (some "Meals") (RawApprovers.array []) (RawPercentage.number 150)
          none) 50).2 = ⟨201, "Approval rule created successfully", some r, []⟩ ∧
      r.minimumApprovalPercentage = 150 :=
  have hrefused := (rules_validation (sampleEmptyStore []) adminToken
    (sampleRuleBody (some "Meals") (RawApprovers.array []) (RawPercentage.number (10 ^ 21)) none)
    rfl).1 50
  have hstatus := hrefused.1.mpr
    (Or.inr (Or.inr (Or.inr (Or.inr (Or.inr (Or.inr (Or.inl
      ⟨10 ^ 21, rfl, by decide!, Or.inr (by decide!)⟩)))))))
  have haccepted := (rules_validation (sampleEmptyStore []) adminToken
    (sampleRuleBody (some "Meals") (RawApprovers.array []) (RawPercentage.number 150) none)
    rfl).1 50
  let ⟨r, h1, _, _, h4, _⟩ := haccepted.2.2 (by decide!) (by decide)
  ⟨hstatus, (hrefused.2.1 hstatus).1, r, by rw [h1], by rw [h4]; decide!⟩

theorem updateFirst_of_find_none {α : Type} (p : α → Bool) (f : α → α) (l : List α)
    (h : l.find? p = none) : updateFirst p f l = l := by
  induction l with
  | nil => rfl
  | cons x xs ih =>
    by_cases hx : p x = true
    · simp [List.find?_cons, hx] at h
    · have hx' : p x = false := by simpa using hx
      simp only [List.find?_cons, hx'] at h
      simp only [updateFirst, hx', Bool.false_eq_true, if_false, ih h]

theorem updateFirst_of_find_some {α : Type} (p : α → Bool) (f : α → α) (l : List α) (r : α)
    (h : l.find? p = some r) :
    ∃ pre post, l = pre ++ r :: post ∧ updateFirst p f l = pre ++ f r :: post := by
  induction l with
  | nil => simp at h
  | cons x xs ih =>
    by_cases hx : p x = true
    · simp only [List.find?_cons, hx, Option.some.injEq] at h
      subst h
      exact ⟨[], xs, rfl, by simp [updateFirst, hx]⟩
    · have hx' : p x = false := by simpa using hx
      simp only [List.find?_cons, hx'] at h
      obtain ⟨pre, post, h1, h2⟩ := ih h
      refine ⟨x :: pre, post, by rw [h1]; rfl, ?_⟩
      simp only [updateFirst, hx', Bool.false_eq_true, if_false, h2]
      rfl

theorem eraseP_of_find_some {α : Type} (p : α → Bool) (l : List α) (r : α)
    (h : l.find? p = some r) :
    ∃ pre post, l = pre ++ r :: post ∧ l.eraseP p = pre ++ post := by
  induction l with
  | nil => simp at h
  | cons x xs ih =>
    by_cases hx : p x = true
    · simp only [List.find?_cons, hx, Option.some.injEq] at h
      subst h
      exact ⟨[], xs, rfl, by simp [List.eraseP_cons, hx]⟩
    · have hx' : p x = false := by simpa using hx
      simp only [List.find?_cons, hx'] at h
      obtain ⟨pre, post, h1, h2⟩ := ih h
      refine ⟨x :: pre, post, by rw [h1]; rfl, ?_⟩
      simp [List.eraseP_cons, hx', h2]

theorem findRuleOfCompany_some (s : Store) (id company : ObjectId) (r : ApprovalRule)
    (h : s.findRuleOfCompany id company = some r) : r.id = id ∧ r.company = company := by
  unfold Store.findRuleOfCompany at h
  have hp := List.find?_some h
  simpa using hp

theorem findRuleOfCompany_none (s : Store) (id company : ObjectId)
    (h : ¬ ∃ r ∈ s.rules, r.id = id ∧ r.company = company) :
    s.findRuleOfCompany id company = none := by
  unfold Store.findRuleOfCompany
  rw [List.find?_eq_none]
  intro r hr hp
  simp only [Bool.and_eq_true, beq_iff_eq] at hp
  exact h ⟨r, hr, hp⟩

theorem rulesUpdate_touchesOnly (s : Store) (user : AuthUser) (id : ObjectId)
    (body : RuleBody) :
    touchesOnly user.company id s.rules (rulesUpdate s user id body).1.rules := by
  unfold rulesUpdate
  split
  · exact Or.inl rfl
  · split
    · exact Or.inl rfl
    · cases hfind : s.findRuleOfCompany id user.company with
      | none => exact Or.inl rfl
      | some r =>
        obtain ⟨hid, hcompany⟩ := findRuleOfCompany_some s id user.company r hfind
        obtain ⟨pre, post, h1, h2⟩ := updateFirst_of_find_some
          (fun r : ApprovalRule => r.id == id && r.company == user.company) body.applyTo s.rules r hfind
        exact Or.inr ⟨pre, r, post, h1, hid, hcompany, Or.inr ⟨_, h2⟩⟩

theorem rulesDelete_touchesOnly (s : Store) (user : AuthUser) (id : ObjectId) :
    touchesOnly user.company id s.rules (rulesDelete s user id).1.rules := by
  unfold rulesDelete
  split
  · exact Or.inl rfl
  · cases hfind : s.findRuleOfCompany id user.company with
    | none => exact Or.inl rfl
    | some r =>
      obtain ⟨hid, hcompany⟩ := findRuleOfCompany_some s id user.company r hfind
      obtain ⟨pre, post, h1, h2⟩ := eraseP_of_find_some
        (fun r : ApprovalRule => r.id == id && r.company == user.company) s.rules r hfind
      exact Or.inr ⟨pre, r, post, h1, hid, hcompany, Or.inl h2⟩

theorem rulesToggle_touchesOnly (s : Store) (user : AuthUser) (id : ObjectId)
    (isActive : Option Bool) :
    touchesOnly user.company id s.rules (rulesToggle s user id isActive).1.rules := by
  unfold rulesToggle
  split
  · exact Or.inl rfl
  · cases hfind : s.findRuleOfCompany id user.company with
    | none => exact Or.inl rfl
    | some r =>
      obtain ⟨hid, hcompany⟩ := findRuleOfCompany_some s id user.company r hfind
      obtain ⟨pre, post, h1, h2⟩ := updateFirst_of_find_some
        (fun r : ApprovalRule => r.id == id && r.company == user.company)
        (fun r : ApprovalRule => { r with isActive := !(isActive.getD false) }) s.rules r hfind
      exact Or.inr ⟨pre, r, post, h1, hid, hcompany, Or.inr ⟨_, h2⟩⟩

/-- C19. For a caller whose role is not admin, rule create, update, delete and
toggle of `routes/approvalRules.js` each answer 403 and return the store as it
was.  For an admin, update, delete and toggle leave the rule collection as it
was or replace or remove exactly one rule, which has the given id and the
admin's company; when the store holds no rule with the given id in the admin's
company, delete and toggle, and update with a body that passes its validators,
answer 404 and return the store as it was. -/
theorem rules_access_control (s : Store) (user : AuthUser) (id : ObjectId) :
    (user.role ≠ Role.admin →
      (∀ body newId, rulesCreate s user body newId =
        (s, ⟨403, "Only admins can create approval rules", none, []⟩)) ∧
      (∀ body, rulesUpdate s user id body =
        (s, ⟨403, "Only admins can update approval rules", none, []⟩)) ∧
      rulesDelete s user id = (s, ⟨403, "Only admins can delete approval rules", none, []⟩) ∧
      (∀ isActive, rulesToggle s user id isActive =
        (s, ⟨403, "Only admins can toggle approval rules", none, []⟩))) ∧
    (user.role = Role.admin →
      (∀ body, touchesOnly user.company id s.rules (rulesUpdate s user id body).1.rules) ∧
      touchesOnly user.company id s.rules (rulesDelete s user id).1.rules ∧
      (∀ isActive, touchesOnly user.company id s.rules
        (rulesToggle s user id isActive).1.rules) ∧
      ((¬ ∃ r ∈ s.rules, r.id = id ∧ r.company = user.company) →
        (∀ body, body.updateErrors = [] → rulesUpdate s user id body =
          (s, ⟨404, "Approval rule not found", none, []⟩)) ∧
        rulesDelete s user id = (s, ⟨404, "Approval rule not found", none, []⟩) ∧
        (∀ isActive, rulesToggle s user id isActive =
          (s, ⟨404, "Approval rule not found", none, []⟩)))) := by
  refine ⟨?_, ?_⟩
  · intro hrole
    refine ⟨?_, ?_, ?_, ?_⟩
    · intro body newId
      unfold rulesCreate
      rw [if_pos hrole]
    · intro body
      unfold rulesUpdate
      rw [if_pos hrole]
    · unfold rulesDelete
      rw [if_pos hrole]
    · intro isActive
      unfold rulesToggle
      rw [if_pos hrole]
  · intro hadmin
    have hrole : ¬ user.role ≠ Role.admin := not_not.mpr hadmin
    refine ⟨fun body => rulesUpdate_touchesOnly s user id body,
      rulesDelete_touchesOnly s user id,
      fun isActive => rulesToggle_touchesOnly s user id isActive, ?_⟩
    intro hnone
    have hfind := findRuleOfCompany_none s id user.company hnone
    refine ⟨?_, ?_, ?_⟩
    · intro body hv
      unfold rulesUpdate
      rw [if_neg hrole, if_neg (not_not.mpr hv), hfind]
    · unfold rulesDelete
      rw [if_neg hrole, hfind]
    · intro isActive
      unfold rulesToggle
      rw [if_neg hrole, hfind]

/-- Witness of C19: a manager asks to delete rule `50` of their own company. -/
theorem rules_access_control_witness :
    rulesDelete (sampleEmptyStore [sampleRule [⟨1, 1⟩] 100 []]) (managerToken 2) 50 =
      (sampleEmptyStore [sampleRule [⟨1, 1⟩] 100 []],
        ⟨403, "Only admins can delete approval rules", none, []⟩) :=
  ((rules_access_control (sampleEmptyStore [sampleRule [⟨1, 1⟩] 100 []]) (managerToken 2) 50).1
    (by decide)).2.2.1

/-! ## Claims about currency conversion, tenants and notification -/

/-- C22. In `POST /` of `routes/expenses.js`, for a body that passes the
validators and a caller whose company exists: when the currency of the body
differs from the base currency of the company and the exchange-rate request
fails, the answer is 400 `Currency conversion failed` and the store is returned
as it was, whereas with a rate and an unused `_id` the expense is created with
the converted amount; when the currency is the base currency, the answer and
the store do not depend on the exchange-rate request, a returned expense has
`amountInBaseCurrency` equal to `amount`, and with an unused `_id` the answer
is 201 and the draft is stored with `amountInBaseCurrency` equal to `amount`,
whatever the exchange-rate request would have given. -/
theorem expensesCreate_conversion (s : Store) (user : AuthUser) (body : ExpenseBody)
    (newId : ObjectId) (company : Company)
    (hvalid : body.validationErrors = [])
    (hcompany : s.findCompanyById user.company = some company) :
    (body.currency ≠ company.baseCurrency →
      expensesCreate s user body none newId =
          (s, ⟨400, "Currency conversion failed", none, []⟩) ∧
      (s.expenses newId = none → ∀ r, ∃ e,
        expensesCreate s user body (some r) newId =
          (s.saveExpense newId e, ⟨201, "Expense created successfully", some e, []⟩) ∧
        e.amountInBaseCurrency = roundDouble (body.amount * r) ∧ e.amount = body.amount)) ∧
    (body.currency = company.baseCurrency →
      (∀ rate rate', expensesCreate s user body rate newId =
        expensesCreate s user body rate' newId) ∧
      (∀ rate e, (expensesCreate s user body rate newId).2.expense = some e →
        e.amountInBaseCurrency = body.amount ∧ e.amount = body.amount ∧
        (expensesCreate s user body rate newId).1.expenses newId = some e) ∧
      (s.expenses newId = none → ∀ rate, ∃ e,
        expensesCreate s user body rate newId =
          (s.saveExpense newId e, ⟨201, "Expense created successfully", some e, []⟩) ∧
        (expensesCreate s user body rate newId).1.expenses newId = some e ∧
        e.amountInBaseCurrency = body.amount ∧ e.amount = body.amount ∧
        e.currency = body.currency ∧ e.employee = user.userId ∧
        e.status = Status.draft)) := by
  have hv : ¬ body.validationErrors ≠ [] := not_not.mpr hvalid
  refine ⟨?_, ?_⟩
  · intro hne
    refine ⟨?_, ?_⟩
    · unfold expensesCreate
      rw [if_neg hv, hcompany]
      simp [hne]
    · intro hfresh r
      have hf : ¬ ((s.expenses newId).isSome = true) := by simp [hfresh]
      unfold expensesCreate
      rw [if_neg hv, hcompany]
      dsimp only
      rw [if_pos hne]
      dsimp only [Option.map]
      rw [if_neg hf]
      exact ⟨_, rfl, rfl, rfl⟩
  · intro heq
    have hnn : ¬ body.currency ≠ company.baseCurrency := not_not.mpr heq
    have hform : ∀ rate, expensesCreate s user body rate newId =
        if (s.expenses newId).isSome then (s, ⟨500, "Server error", none, []⟩)
        else
          (s.saveExpense newId
              { employee := user.userId
                company := user.company
                description := body.description
                category := body.category
                amount := body.amount
                currency := body.currency
                amountInBaseCurrency := body.amount
                expenseDate := body.expenseDate
                paidBy := body.paidBy
                remarks := body.remarks
                receipt := none
                status := Status.draft
                approvalRule := (s.findActiveRule user.company body.category).map
                  ApprovalRule.id
                currentApprover := none
                approvalHistory := [] },
            ⟨201, "Expense created successfully",
              some { employee := user.userId
                     company := user.company
                     description := body.description
                     category := body.category
                     amount := body.amount
                     currency := body.currency
                     amountInBaseCurrency := body.amount
                     expenseDate := body.expenseDate
                     paidBy := body.paidBy
                     remarks := body.remarks
                     receipt := none
                     status := Status.draft
                     approvalRule := (s.findActiveRule user.company body.category).map
                       ApprovalRule.id
                     currentApprover := none
                     approvalHistory := [] }, []⟩) := by
      intro rate
      unfold expensesCreate
      rw [if_neg hv, hcompany]
      dsimp only
      rw [if_neg hnn]
    refine ⟨fun rate rate' => (hform rate).trans (hform rate').symm, ?_, ?_⟩
    · intro rate e he
      rw [hform rate] at he ⊢
      by_cases hfresh : (s.expenses newId).isSome = true
      · rw [if_pos hfresh] at he
        simp at he
      · rw [if_neg hfresh] at he ⊢
        simp only [Option.some.injEq] at he
        subst he
        exact ⟨rfl, rfl, saveExpense_same _ _ _⟩
    · intro hfresh rate
      have hf : ¬ ((s.expenses newId).isSome = true) := by simp [hfresh]
      rw [hform rate, if_neg hf]
      exact ⟨_, rfl, saveExpense_same _ _ _, rfl, rfl, rfl, rfl, rfl⟩

/-- Witness of C22: for the company whose base currency is the dollar, an
expense in euros is refused while the exchange-rate request fails, and the
same expense in dollars is created and stored with
`amountInBaseCurrency = amount = 50`, although the exchange-rate request would
fail. -/
theorem expensesCreate_conversion_witness :
    expensesCreate (sampleEmptyStore []) employeeToken { sampleBody with currency := "EUR" }
        none 7 =
      (sampleEmptyStore [], ⟨400, "Currency conversion failed", none, []⟩) ∧
    ∃ e, (expensesCreate (sampleEmptyStore []) employeeToken sampleBody none 7).2.status = 201 ∧
      (expensesCreate (sampleEmptyStore []) employeeToken sampleBody none 7).1.expenses 7 =
        some e ∧
      e.amountInBaseCurrency = 50 ∧ e.amount = 50 :=
  ⟨((expensesCreate_conversion (sampleEmptyStore []) employeeToken
      { sampleBody with currency := "EUR" } 7 ⟨1, "Acme", "US", "USD", 3⟩
      (by decide!) (by decide)).1 (by decide)).1,
    let ⟨e, h1, h2, h3, h4, _⟩ := ((expensesCreate_conversion (sampleEmptyStore [])
      employeeToken sampleBody 7 ⟨1, "Acme", "US", "USD", 3⟩
      (by decide!) (by decide)).2 (by decide)).2.2 (by decide) none
    ⟨e, by rw [h1], h2, h3, h4⟩⟩

/-- C23, the code at the failing input.  Expense `7` belongs to company `1`
and waits for user `20`, whom a rule or a manager link may name although that
user belongs to company `2`.  The admin `20` of company `2` reads the expense,
an employee of company `2` reads its history, and user `20` decides it. -/
theorem tenant_isolation_fails :
    (sampleExpense Status.pending (some 20) none [⟨2, Action.approved, none, 0⟩]).company = 1 ∧
    foreignAdminToken.company = 2 ∧
    expensesGet
        (sampleUserStore
          (sampleExpense Status.pending (some 20) none [⟨2, Action.approved, none, 0⟩]) []
          sampleUsers)
        foreignAdminToken 7 =
      ⟨200, "",
        some (sampleExpense Status.pending (some 20) none [⟨2, Action.approved, none, 0⟩]),
        []⟩ ∧
    approvalsHistory
        (sampleUserStore
          (sampleExpense Status.pending (some 20) none [⟨2, Action.approved, none, 0⟩]) []
          sampleUsers)
        foreignEmployeeToken 7 =
      ⟨200, "", some [⟨2, Action.approved, none, 0⟩]⟩ ∧
    (approvalsAction
        (sampleUserStore
          (sampleExpense Status.pending (some 20) none [⟨2, Action.approved, none, 0⟩]) []
          sampleUsers)
        foreignAdminToken 7 Action.rejected none 1).2.status = 200 ∧
    ((approvalsAction
        (sampleUserStore
          (sampleExpense Status.pending (some 20) none [⟨2, Action.approved, none, 0⟩]) []
          sampleUsers)
        foreignAdminToken 7 Action.rejected none 1).1.expenses 7).map Expense.status =
      some Status.rejected := by
  decide

/-- C24. In the decide handler of `mongodb-server.js` the notification does not
undo or block the decision.  For every behaviour of the e-mail calls the store
and the answer are those of the decision alone; in particular, when the
notification block throws after a decision on a pending expense, the expense
is stored with its post-decision status, no current approver and the extended
history, the answer is the 200 carrying that expense, and no mail is sent. -/
theorem mongodbApprovalsAction_notification (s : Store) (user : AuthUser) (id : ObjectId)
    (action : Action) (comment : Option String) (now : Nat) (env : MailEnvironment) :
    ((mongodbApprovalsActionNotified s user id action comment now env).1 =
        (mongodbApprovalsAction s user id action comment now).1 ∧
      (mongodbApprovalsActionNotified s user id action comment now env).2.1 =
        (mongodbApprovalsAction s user id action comment now).2) ∧
    (∀ e saved message, user.role ≠ Role.employee → s.expenses id = some e →
      e.status = Status.pending → e.currentApprover = some user.userId →
      (mongodbApprovalsAction s user id action comment now).2.expense = some saved →
      notifyEmployee (mongodbApprovalsAction s user id action comment now).1 env saved user
        action = Except.error message →
      (mongodbApprovalsActionNotified s user id action comment now env).1.expenses id =
        some saved ∧
      (mongodbApprovalsActionNotified s user id action comment now env).2.1.status = 200 ∧
      (mongodbApprovalsActionNotified s user id action comment now env).2.1.expense =
        some saved ∧
      (mongodbApprovalsActionNotified s user id action comment now env).2.2 = [] ∧
      saved.status = (if action = Action.rejected then Status.rejected else Status.approved) ∧
      saved.currentApprover = none ∧
      saved.approvalHistory =
        e.approvalHistory ++ [HistoryEntry.mk user.userId action comment now]) := by
  have hsame : (mongodbApprovalsActionNotified s user id action comment now env).1 =
        (mongodbApprovalsAction s user id action comment now).1 ∧
      (mongodbApprovalsActionNotified s user id action comment now env).2.1 =
        (mongodbApprovalsAction s user id action comment now).2 := by
    unfold mongodbApprovalsActionNotified
    split
    · exact ⟨rfl, rfl⟩
    · split <;> exact ⟨rfl, rfl⟩
  refine ⟨hsame, ?_⟩
  intro e saved message hrole he hs hc hsaved hfail
  have hmails : (mongodbApprovalsActionNotified s user id action comment now env).2.2 = [] := by
    unfold mongodbApprovalsActionNotified
    rw [hsaved]
    dsimp only
    rw [hfail]
  rw [hsame.1, hsame.2]
  have hf : s.findOneExpense id
      (fun e => e.currentApprover == some user.userId && e.status == Status.pending) = some e := by
    rw [findOneExpense_eq_some_iff]
    exact ⟨he, by simp [hs, hc]⟩
  unfold mongodbApprovalsAction at hsaved ⊢
  rw [if_neg hrole, hf] at hsaved ⊢
  dsimp only at hsaved ⊢
  simp only [Option.some.injEq] at hsaved
  subst hsaved
  refine ⟨saveExpense_same _ _ _, rfl, rfl, hmails, ?_, ?_, ?_⟩
  · by_cases ha : action = Action.rejected
    · rw [if_pos ha, if_pos ha]
    · rw [if_neg ha, if_neg ha]
  · by_cases ha : action = Action.rejected
    · rw [if_pos ha]
    · rw [if_neg ha]
  · by_cases ha : action = Action.rejected
    · rw [if_pos ha]
    · rw [if_neg ha]

/-- Witness of C24: the manager approves the expense of the employee while
`sendEmail` throws; the expense is stored approved and the answer is 200. -/
theorem mongodbApprovalsAction_notification_witness :
    ((mongodbApprovalsActionNotified
        (sampleUserStore (sampleExpense Status.pending (some 2) none []) [] sampleUsers)
        (managerToken 2) 7 Action.approved none 0 ⟨false, true⟩).1.expenses 7 =
      some (sampleExpense Status.approved none none [⟨2, Action.approved, none, 0⟩])) ∧
    (mongodbApprovalsActionNotified
        (sampleUserStore (sampleExpense Status.pending (some 2) none []) [] sampleUsers)
        (managerToken 2) 7 Action.approved none 0 ⟨false, true⟩).2.1.status = 200 :=
  have h := (mongodbApprovalsAction_notification
    (sampleUserStore (sampleExpense Status.pending (some 2) none []) [] sampleUsers)
    (managerToken 2) 7 Action.approved none 0 ⟨false, true⟩).2
    (sampleExpense Status.pending (some 2) none [])
    (sampleExpense Status.approved none none [⟨2, Action.approved, none, 0⟩])
    "sendEmail failed" (by decide) (by decide) (by decide) (by decide) (by decide) (by rfl)
  ⟨h.1, h.2.1⟩

/-- C25, the code at the failing input.  The admin presses Deactivate on the
active rule `50`: the client sends `isActive: false` and the server stores its
negation, so the rule stays active; pressing Activate on an inactive rule
leaves it inactive in the same way. -/
theorem handleToggleStatus_keeps_isActive :
    (handleToggleStatus (sampleEmptyStore [sampleRule [⟨1, 1⟩] 100 []]) adminToken 50
        true).2.status = 200 ∧
    (handleToggleStatus (sampleEmptyStore [sampleRule [⟨1, 1⟩] 100 []]) adminToken 50
        true).1.rules.map ApprovalRule.isActive = [true] ∧
    (handleToggleStatus
        (sampleEmptyStore [{ sampleRule [⟨1, 1⟩] 100 [] with isActive := false }]) adminToken 50
        false).1.rules.map ApprovalRule.isActive = [false] := by
  decide!

/-- C30, the code at the failing input.  An admin posts a rule form whose
`minimumApprovalPercentage` is the number `0`: the rule is created with the
threshold `100`, as `0 || 100` is `100`.  The same form with `25` keeps `25`,
and with the string `"0"` keeps `0`. -/
theorem rulesCreate_zero_threshold :
    (rulesCreate (sampleEmptyStore []) adminToken
        (sampleRuleBody (some "Meals") (RawApprovers.array [⟨1, 1⟩]) (RawPercentage.number 0)
          none) 50).2.status = 201 ∧
    (rulesCreate (sampleEmptyStore []) adminToken
        (sampleRuleBody (some "Meals") (RawApprovers.array [⟨1, 1⟩]) (RawPercentage.number 0)
          none) 50).1.rules.map ApprovalRule.minimumApprovalPercentage = [100] ∧
    (rulesCreate (sampleEmptyStore []) adminToken
        (sampleRuleBody (some "Meals") (RawApprovers.array [⟨1, 1⟩]) (RawPercentage.number 25)
          none) 50).1.rules.map ApprovalRule.minimumApprovalPercentage = [25] ∧
    (rulesCreate (sampleEmptyStore []) adminToken
        (sampleRuleBody (some "Meals") (RawApprovers.array [⟨1, 1⟩])
          (RawPercentage.numericString 0) none) 50).1.rules.map
      ApprovalRule.minimumApprovalPercentage = [0] := by
  decide!

/-! ## Claims about runs along a chain -/

theorem mem_sortApprovers (l : List Approver) (a : Approver) : a ∈ sortApprovers l ↔ a ∈ l :=
  List.mem_insertionSort _

/-- Approval by a user who is no approver of a non-empty rule hands the expense
to the head of the sorted approvers. -/
theorem evaluateAction_stranger (x : Expense) (rule : ApprovalRule) (userId : ObjectId)
    (a : Approver) (hhead : (sortApprovers rule.approvers)[0]? = some a)
    (habsent : ∀ b ∈ rule.approvers, b.user ≠ userId) :
    evaluateAction x (some rule) userId Action.approved =
      { x with currentApprover := some a.user } := by
  have hidx : findIndex (sortApprovers rule.approvers) (fun approver => approver.user == userId)
      = -1 := by
    apply findIndex_eq_neg_one
    intro b hb
    have := habsent b ((mem_sortApprovers _ _).mp hb)
    simpa using this
  have hlen : 0 < (sortApprovers rule.approvers).length :=
    (List.getElem?_eq_some_iff.mp hhead).1
  have hcond : (-1 : Int) < ((sortApprovers rule.approvers).length : Int) - 1 := by omega
  have hnat : ((-1 : Int) + 1).toNat = 0 := by decide
  simp only [evaluateAction, hidx, hcond, hnat, hhead]
  simp

/-- C29. If the caller, current approver of a pending expense, does not occur
among the users of the non-empty approver list of the attached rule, an
approval leaves the status `pending` and makes the first approver of the
sequence order the current approver (the rule's list splits as
`pre ++ a :: post` with every sequence in `pre` greater than that of `a` and
every sequence in `post` at least that of `a`), whatever the threshold and the
conditional approvers of the rule are. -/
theorem approvalsAction_stranger (s : Store) (user : AuthUser) (id : ObjectId)
    (comment : Option String) (now : Nat) (e : Expense) (ruleId : ObjectId)
    (rule : ApprovalRule)
    (he : s.expenses id = some e) (hs : e.status = Status.pending)
    (hc : e.currentApprover = some user.userId)
    (hrid : e.approvalRule = some ruleId) (hrule : s.findRuleById ruleId = some rule)
    (hne : rule.approvers ≠ [])
    (habsent : ∀ b ∈ rule.approvers, b.user ≠ user.userId) :
    ∃ pre a post, rule.approvers = pre ++ a :: post ∧
      (∀ b ∈ pre, a.sequence < b.sequence) ∧ (∀ b ∈ post, a.sequence ≤ b.sequence) ∧
      ∃ e', (approvalsAction s user id Action.approved comment now).1.expenses id = some e' ∧
        (approvalsAction s user id Action.approved comment now).2.expense = some e' ∧
        e'.status = Status.pending ∧ e'.currentApprover = some a.user := by
  obtain ⟨pre, a, post, hl, hpre, hpost, hhead⟩ := sortApprovers_head rule.approvers hne
  refine ⟨pre, a, post, hl, hpre, hpost, ?_⟩
  rw [approvalsAction_of_pending s user id Action.approved comment now e he hs hc]
  refine ⟨_, saveExpense_same _ _ _, rfl, ?_⟩
  unfold decided
  rw [populateApprovalRule_eq s e ruleId rule hrid hrule,
    evaluateAction_stranger _ rule user.userId a hhead habsent]
  exact ⟨hs, rfl⟩

/-- Witness of C29: the expense waits for user `9`, who is not in the chain
`C, A, B` with threshold 0; after the approval by `9` it waits for `A`. -/
theorem approvalsAction_stranger_witness :
    ∃ e', (approvalsAction
        (sampleStore (sampleExpense Status.pending (some 9) (some 50) [])
          [sampleRule [⟨3, 3⟩, ⟨1, 1⟩, ⟨2, 2⟩] 0 [⟨9, true⟩]])
        employeeToken 7 Action.approved none 0).1.expenses 7 = some e' ∧
      e'.status = Status.pending ∧ e'.currentApprover = some 1 :=
  let ⟨pre, a, post, h1, h2, h3, e', h4, _, h6, h7⟩ := approvalsAction_stranger
    (sampleStore (sampleExpense Status.pending (some 9) (some 50) [])
      [sampleRule [⟨3, 3⟩, ⟨1, 1⟩, ⟨2, 2⟩] 0 [⟨9, true⟩]])
    employeeToken 7 none 0 (sampleExpense Status.pending (some 9) (some 50) []) 50
    (sampleRule [⟨3, 3⟩, ⟨1, 1⟩, ⟨2, 2⟩] 0 [⟨9, true⟩])
    (by decide) (by decide) (by decide) (by decide) (by decide) (by decide) (by decide)
  ⟨e', h4, h6, by
    have hdec : ((approvalsAction
        (sampleStore (sampleExpense Status.pending (some 9) (some 50) [])
          [sampleRule [⟨3, 3⟩, ⟨1, 1⟩, ⟨2, 2⟩] 0 [⟨9, true⟩]])
        employeeToken 7 Action.approved none 0).1.expenses 7).map Expense.currentApprover =
        some (some 1) := by decide
    rw [h4] at hdec
    simpa using hdec⟩

/-- While the two first approvers of the order are the same user, an approval
by that user hands the expense to that user again. -/
theorem duplicate_step (s : Store) (user : AuthUser) (id : ObjectId)
    (comment : Option String) (now : Nat) (e : Expense) (ruleId : ObjectId)
    (rule : ApprovalRule) (x y : Approver) (rest : List Approver)
    (he : s.expenses id = some e) (hs : e.status = Status.pending)
    (hc : e.currentApprover = some user.userId) (hux : user.userId = x.user)
    (hrid : e.approvalRule = some ruleId) (hrule : s.findRuleById ruleId = some rule)
    (hsorted : sortApprovers rule.approvers = x :: y :: rest) (hxy : y.user = x.user) :
    ∃ e', (approvalsAction s user id Action.approved comment now).1.expenses id = some e' ∧
      e'.status = Status.pending ∧ e'.currentApprover = some x.user ∧
      e'.approvalRule = some ruleId ∧
      (approvalsAction s user id Action.approved comment now).1.findRuleById ruleId =
        some rule := by
  rw [approvalsAction_of_pending s user id Action.approved comment now e he hs hc]
  refine ⟨_, saveExpense_same _ _ _, ?_, ?_, ?_, hrule⟩
  all_goals
    unfold decided
    rw [populateApprovalRule_eq s e ruleId rule hrid hrule,
      evaluateAction_advance _ rule user.userId 0 x y (by rw [hsorted]; rfl) hux.symm
        (by intro j c hj; omega) (by rw [hsorted]; simp)]
  · exact hs
  · show some y.user = some x.user
    rw [hxy]
  · exact hrid

theorem duplicate_run (id ruleId : ObjectId) (rule : ApprovalRule) (x y : Approver)
    (rest : List Approver) (hsorted : sortApprovers rule.approvers = x :: y :: rest)
    (hxy : y.user = x.user) :
    ∀ (calls : List (AuthUser × Option String × Nat)) (s : Store) (e : Expense),
      s.expenses id = some e → e.status = Status.pending →
      e.currentApprover = some x.user → e.approvalRule = some ruleId →
      s.findRuleById ruleId = some rule → byCurrentApprover s id calls →
      ∃ e', (approveAll s id calls).expenses id = some e' ∧ e'.status = Status.pending ∧
        e'.currentApprover = some x.user := by
  intro calls
  induction calls with
  | nil =>
    intro s e he hs hc _ _ _
    exact ⟨e, he, hs, hc⟩
  | cons call rest' ih =>
    intro s e he hs hc hrid hrule hby
    obtain ⟨user, comment, now⟩ := call
    obtain ⟨⟨e0, he0, hcur⟩, hby'⟩ := hby
    rw [he] at he0
    cases he0
    have hux : user.userId = x.user := by
      rw [hc] at hcur
      exact (Option.some.inj hcur).symm
    obtain ⟨e1, h1, h2, h3, h4, h5⟩ := duplicate_step s user id comment now e ruleId rule x y
      rest he hs (by rw [hc, hux]) hux hrid hrule hsorted hxy
    exact ih _ e1 h1 h2 h3 h4 h5 hby'

/-- C28. For a rule whose two first approvers in sequence order are the same
user `A` (such as `A` at sequences 1 and 2) and an expense submitted under it
from draft, after any number of approvals, each made by the then-current
approver, the expense is still `pending` with current approver `A`: the chain
does not terminate by approvals. -/
theorem duplicate_approver_never_terminates (s : Store) (owner : AuthUser) (id : ObjectId)
    (e : Expense) (ruleId : ObjectId) (rule : ApprovalRule) (x y : Approver)
    (rest : List Approver) (calls : List (AuthUser × Option String × Nat))
    (he : s.expenses id = some e) (ho : e.employee = owner.userId)
    (hd : e.status = Status.draft)
    (hrid : e.approvalRule = some ruleId) (hrule : s.findRuleById ruleId = some rule)
    (hsorted : sortApprovers rule.approvers = x :: y :: rest) (hxy : y.user = x.user)
    (hby : byCurrentApprover (expensesSubmit s owner id).1 id calls) :
    ∃ e', (approveAll (expensesSubmit s owner id).1 id calls).expenses id = some e' ∧
      e'.status = Status.pending ∧ e'.currentApprover = some x.user := by
  have hf : s.findOneExpense id
      (fun e => e.employee == owner.userId && e.status == Status.draft) = some e := by
    rw [findOneExpense_eq_some_iff]
    exact ⟨he, by simp [ho, hd]⟩
  have hne : rule.approvers ≠ [] := by
    intro h0
    rw [h0] at hsorted
    cases hsorted
  have hlen : rule.approvers.length > 0 := List.length_pos.mpr hne
  have hhead : (sortApprovers rule.approvers)[0]? = some x := by rw [hsorted]; rfl
  have hsub : expensesSubmit s owner id =
      (s.saveExpense id { e with status := Status.pending, currentApprover := some x.user },
        ⟨200, "Expense submitted for approval",
          some { e with status := Status.pending, currentApprover := some x.user }, []⟩) := by
    simp only [expensesSubmit, hf, hrid, hrule, if_pos hlen, hhead]
    rfl
  rw [hsub] at hby ⊢
  exact duplicate_run id ruleId rule x y rest hsorted hxy calls _ _ (saveExpense_same _ _ _)
    rfl rfl hrid hrule hby

/-- Witness of C28: user `A` at sequences 1 and 2; after submission and three
approvals by `A` the expense still waits for `A`. -/
theorem duplicate_approver_never_terminates_witness :
    ∃ e', (approveAll
        (expensesSubmit
          (sampleStore (sampleExpense Status.draft none (some 50) [])
            [sampleRule [⟨1, 1⟩, ⟨1, 2⟩] 100 []])
          employeeToken 7).1 7
        [(managerToken 1, none, 1), (managerToken 1, none, 2), (managerToken 1, none, 3)]).expenses
          7 = some e' ∧
      e'.status = Status.pending ∧ e'.currentApprover = some 1 :=
  duplicate_approver_never_terminates
    (sampleStore (sampleExpense Status.draft none (some 50) [])
      [sampleRule [⟨1, 1⟩, ⟨1, 2⟩] 100 []])
    employeeToken 7 (sampleExpense Status.draft none (some 50) []) 50
    (sampleRule [⟨1, 1⟩, ⟨1, 2⟩] 100 []) ⟨1, 1⟩ ⟨1, 2⟩ []
    [(managerToken 1, none, 1), (managerToken 1, none, 2), (managerToken 1, none, 3)]
    (by decide) (by decide) (by decide) (by decide) (by decide) (by decide) (by decide)
    ⟨⟨sampleExpense Status.pending (some 1) (some 50) [], by decide, by decide⟩,
      ⟨sampleExpense Status.pending (some 1) (some 50) [⟨1, Action.approved, none, 1⟩],
        by decide, by decide⟩,
      ⟨sampleExpense Status.pending (some 1) (some 50)
          [⟨1, Action.approved, none, 1⟩, ⟨1, Action.approved, none, 2⟩],
        by decide, by decide⟩,
      trivial⟩

theorem nodup_first_occurrence (l : List Approver) (hn : (l.map Approver.user).Nodup)
    (k : Nat) (a : Approver) (hk : l[k]? = some a) :
    ∀ j c, j < k → l[j]? = some c → c.user ≠ a.user := by
  intro j c hj hc huser
  obtain ⟨hklt, hka⟩ := List.getElem?_eq_some_iff.mp hk
  obtain ⟨hjlt, hjc⟩ := List.getElem?_eq_some_iff.mp hc
  have hjm : j < (l.map Approver.user).length := by rw [List.length_map]; exact hjlt
  have hkm : k < (l.map Approver.user).length := by rw [List.length_map]; exact hklt
  have heq : (l.map Approver.user)[j] = (l.map Approver.user)[k] := by
    rw [List.getElem_map, List.getElem_map, hjc, hka]
    exact huser
  have := (hn.getElem_inj_iff).mp heq
  omega

theorem sortApprovers_nodup (l : List Approver) (hn : (l.map Approver.user).Nodup) :
    ((sortApprovers l).map Approver.user).Nodup :=
  ((List.perm_insertionSort _ l).map Approver.user).nodup_iff.mpr hn

/-- One approval along a chain of pairwise distinct users, before the last
approver. -/
theorem chain_step (s : Store) (user : AuthUser) (id : ObjectId) (comment : Option String)
    (now : Nat) (e : Expense) (ruleId : ObjectId) (rule : ApprovalRule) (k : Nat)
    (he : s.expenses id = some e) (hrule : s.findRuleById ruleId = some rule)
    (hn : ((sortApprovers rule.approvers).map Approver.user).Nodup)
    (hst : chainState rule ruleId k e)
    (hk : k + 1 < (sortApprovers rule.approvers).length)
    (hcur : e.currentApprover = some user.userId) :
    ∃ e', (approvalsAction s user id Action.approved comment now).1.expenses id = some e' ∧
      chainState rule ruleId (k + 1) e' ∧
      (approvalsAction s user id Action.approved comment now).1.findRuleById ruleId =
        some rule := by
  obtain ⟨hs, hrid, hca, hhist⟩ := hst
  have hklt : k < (sortApprovers rule.approvers).length := by omega
  have hi : (sortApprovers rule.approvers)[k]? = some ((sortApprovers rule.approvers)[k]) :=
    List.getElem?_eq_getElem hklt
  have hb : (sortApprovers rule.approvers)[k + 1]? =
      some ((sortApprovers rule.approvers)[k + 1]) := List.getElem?_eq_getElem hk
  have ha : ((sortApprovers rule.approvers)[k]).user = user.userId := by
    rw [hca, hi] at hcur
    exact Option.some.inj hcur
  have hfirst : ∀ j c, j < k → (sortApprovers rule.approvers)[j]? = some c →
      c.user ≠ user.userId := by
    intro j c hj hc
    rw [← ha]
    exact nodup_first_occurrence _ hn k _ hi j c hj hc
  rw [approvalsAction_of_pending s user id Action.approved comment now e he hs hcur]
  refine ⟨_, saveExpense_same _ _ _, ?_, hrule⟩
  unfold decided
  rw [populateApprovalRule_eq s e ruleId rule hrid hrule,
    evaluateAction_advance _ rule user.userId k _ _ hi ha hfirst hb]
  refine ⟨hs, hrid, ?_, ?_⟩
  · show some _ = _
    rw [hb]
    rfl
  · show (e.approvalHistory ++ [pushedEntry user Action.approved comment now]).map _ = _
    rw [List.map_append, hhist, List.take_succ, hi, List.map_append]
    simp [pushedEntry, ha]

theorem chain_run (id ruleId : ObjectId) (rule : ApprovalRule)
    (hn : ((sortApprovers rule.approvers).map Approver.user).Nodup) :
    ∀ (calls : List (AuthUser × Option String × Nat)) (s : Store) (e : Expense) (k : Nat),
      s.expenses id = some e → s.findRuleById ruleId = some rule →
      chainState rule ruleId k e →
      k + calls.length < (sortApprovers rule.approvers).length →
      byCurrentApprover s id calls →
      ∃ e', (approveAll s id calls).expenses id = some e' ∧
        chainState rule ruleId (k + calls.length) e' ∧
        (approveAll s id calls).findRuleById ruleId = some rule := by
  intro calls
  induction calls with
  | nil =>
    intro s e k he hrule hst _ _
    exact ⟨e, he, hst, hrule⟩
  | cons call rest ih =>
    intro s e k he hrule hst hk hby
    obtain ⟨user, comment, now⟩ := call
    obtain ⟨⟨e0, he0, hcur⟩, hby'⟩ := hby
    rw [he] at he0
    cases he0
    simp only [List.length_cons] at hk
    obtain ⟨e1, h1, h2, h3⟩ := chain_step s user id comment now e ruleId rule k he hrule hn hst
      (by omega) hcur
    obtain ⟨e2, g1, g2, g3⟩ := ih _ e1 (k + 1) h1 h3 h2 (by omega) hby'
    refine ⟨e2, g1, ?_, g3⟩
    have hlen : k + (rest.length + 1) = k + 1 + rest.length := by omega
    simp only [List.length_cons]
    rw [hlen]
    exact g2

/-- The submission of a draft with empty history under a rule with approvers
starts the chain. -/
theorem expensesSubmit_chainState (s : Store) (owner : AuthUser) (id : ObjectId) (e : Expense)
    (ruleId : ObjectId) (rule : ApprovalRule)
    (he : s.expenses id = some e) (ho : e.employee = owner.userId)
    (hd : e.status = Status.draft) (hh : e.approvalHistory = [])
    (hrid : e.approvalRule = some ruleId) (hrule : s.findRuleById ruleId = some rule)
    (hne : rule.approvers ≠ []) :
    ∃ e', (expensesSubmit s owner id).1.expenses id = some e' ∧ chainState rule ruleId 0 e' ∧
      (expensesSubmit s owner id).1.findRuleById ruleId = some rule := by
  have hf : s.findOneExpense id
      (fun e => e.employee == owner.userId && e.status == Status.draft) = some e := by
    rw [findOneExpense_eq_some_iff]
    exact ⟨he, by simp [ho, hd]⟩
  have hlen : rule.approvers.length > 0 := List.length_pos.mpr hne
  have hsub : expensesSubmit s owner id =
      (s.saveExpense id
          { e with
            status := Status.pending
            currentApprover := ((sortApprovers rule.approvers)[0]?).map Approver.user },
        ⟨200, "Expense submitted for approval",
          some { e with
            status := Status.pending
            currentApprover := ((sortApprovers rule.approvers)[0]?).map Approver.user },
          []⟩) := by
    simp only [expensesSubmit, hf, hrid, hrule, if_pos hlen]
  rw [hsub]
  refine ⟨_, saveExpense_same _ _ _, ⟨rfl, hrid, rfl, ?_⟩, hrule⟩
  show e.approvalHistory.map _ = _
  rw [hh]
  rfl

/-- C26. Let a rule have `n` approvers naming pairwise distinct users, and let
an expense with empty history be submitted from draft under it.  After `k < n`
approvals, each made by the then-current approver, with the rule as it was,
the expense is `pending`, its current approver is the user at index `k` of the
sequence order (the `k + 1`-th user), and its history has exactly `k` entries,
all `approved`, by the first `k` users of the sequence order in that order. -/
theorem chain_advances (s : Store) (owner : AuthUser) (id : ObjectId) (e : Expense)
    (ruleId : ObjectId) (rule : ApprovalRule) (calls : List (AuthUser × Option String × Nat))
    (he : s.expenses id = some e) (ho : e.employee = owner.userId)
    (hd : e.status = Status.draft) (hh : e.approvalHistory = [])
    (hrid : e.approvalRule = some ruleId) (hrule : s.findRuleById ruleId = some rule)
    (hdistinct : (rule.approvers.map Approver.user).Nodup)
    (hk : calls.length < rule.approvers.length)
    (hby : byCurrentApprover (expensesSubmit s owner id).1 id calls) :
    ∃ e' a, (approveAll (expensesSubmit s owner id).1 id calls).expenses id = some e' ∧
      e'.status = Status.pending ∧
      (sortApprovers rule.approvers)[calls.length]? = some a ∧
      e'.currentApprover = some a.user ∧
      e'.approvalHistory.length = calls.length ∧
      e'.approvalHistory.map (fun h => (h.approver, h.action)) =
        ((sortApprovers rule.approvers).take calls.length).map
          (fun a => (a.user, Action.approved)) := by
  have hne : rule.approvers ≠ [] := by
    intro h0
    rw [h0] at hk
    simp at hk
  have hk' : calls.length < (sortApprovers rule.approvers).length := by
    rw [sortApprovers_length]; exact hk
  obtain ⟨e0, h1, h2, h3⟩ := expensesSubmit_chainState s owner id e ruleId rule he ho hd hh
    hrid hrule hne
  obtain ⟨e', g1, g2, -⟩ := chain_run id ruleId rule (sortApprovers_nodup _ hdistinct) calls _
    e0 0 h1 h3 h2 (by omega) hby
  rw [Nat.zero_add] at g2
  obtain ⟨hs, -, hca, hhist⟩ := g2
  have hget : (sortApprovers rule.approvers)[calls.length]? =
      some ((sortApprovers rule.approvers)[calls.length]) := List.getElem?_eq_getElem hk'
  refine ⟨e', _, g1, hs, hget, ?_, ?_, hhist⟩
  · rw [hca, hget]
    rfl
  · have := congrArg List.length hhist
    simp only [List.length_map, List.length_take] at this
    omega

/-- Witness of C26: the chain `C(3), A(1), B(2)`; after submission and the
approvals of `A` and `B` the expense waits for `C` with two history entries. -/
theorem chain_advances_witness :
    ∃ e' a, (approveAll
        (expensesSubmit
          (sampleStore (sampleExpense Status.draft none (some 50) [])
            [sampleRule [⟨3, 3⟩, ⟨1, 1⟩, ⟨2, 2⟩] 100 []])
          employeeToken 7).1 7
        [(managerToken 1, none, 1), (managerToken 2, none, 2)]).expenses 7 = some e' ∧
      e'.status = Status.pending ∧
      (sortApprovers (sampleRule [⟨3, 3⟩, ⟨1, 1⟩, ⟨2, 2⟩] 100 []).approvers)[2]? = some a ∧
      e'.currentApprover = some a.user ∧ e'.approvalHistory.length = 2 :=
  let ⟨e', a, h1, h2, h3, h4, h5, _⟩ := chain_advances
    (sampleStore (sampleExpense Status.draft none (some 50) [])
      [sampleRule [⟨3, 3⟩, ⟨1, 1⟩, ⟨2, 2⟩] 100 []])
    employeeToken 7 (sampleExpense Status.draft none (some 50) []) 50
    (sampleRule [⟨3, 3⟩, ⟨1, 1⟩, ⟨2, 2⟩] 100 [])
    [(managerToken 1, none, 1), (managerToken 2, none, 2)]
    (by decide) (by decide) (by decide) (by decide) (by decide) (by decide) (by decide)
    (by decide)
    ⟨⟨sampleExpense Status.pending (some 1) (some 50) [], by decide, by decide⟩,
      ⟨sampleExpense Status.pending (some 2) (some 50) [⟨1, Action.approved, none, 1⟩],
        by decide, by decide⟩,
      trivial⟩
  ⟨e', a, h1, h2, h3, h4, h5⟩

/-- The approval of the last approver of a chain of pairwise distinct users. -/
theorem chain_last (s : Store) (user : AuthUser) (id : ObjectId) (comment : Option String)
    (now : Nat) (e : Expense) (ruleId : ObjectId) (rule : ApprovalRule) (k : Nat)
    (he : s.expenses id = some e) (hrule : s.findRuleById ruleId = some rule)
    (hn : ((sortApprovers rule.approvers).map Approver.user).Nodup)
    (hst : chainState rule ruleId k e)
    (hk : k + 1 = (sortApprovers rule.approvers).length)
    (hcur : e.currentApprover = some user.userId) :
    ∃ e', (approvalsAction s user id Action.approved comment now).1.expenses id = some e' ∧
      e'.approvalHistory.length = rule.approvers.length ∧
      approvalCount e'.approvalHistory = rule.approvers.length ∧
      approvalPercentage e'.approvalHistory (sortApprovers rule.approvers) =
        JSNumber.finite 100 ∧
      (e'.status = Status.approved ↔
        rule.minimumApprovalPercentage ≤ 100 ∨
          ∃ c ∈ rule.conditionalApprovers, c.autoApprove = true ∧
            c.user ∈ rule.approvers.map Approver.user) ∧
      (e'.status = Status.approved ∨ e'.status = Status.pending) ∧
      e'.currentApprover = none := by
  obtain ⟨hs, hrid, hca, hhist⟩ := hst
  have hklt : k < (sortApprovers rule.approvers).length := by omega
  have hne : sortApprovers rule.approvers ≠ [] := by
    intro h0
    rw [h0] at hklt
    simp at hklt
  have hslen := sortApprovers_length rule.approvers
  have hi : (sortApprovers rule.approvers)[k]? = some ((sortApprovers rule.approvers)[k]) :=
    List.getElem?_eq_getElem hklt
  have ha : ((sortApprovers rule.approvers)[k]).user = user.userId := by
    rw [hca, hi] at hcur
    exact Option.some.inj hcur
  have hfirst : ∀ j c, j < k → (sortApprovers rule.approvers)[j]? = some c →
      c.user ≠ user.userId := by
    intro j c hj hc
    rw [← ha]
    exact nodup_first_occurrence _ hn k _ hi j c hj hc
  -- the history after the push lists the approvals of all approvers
  have hmap : (e.approvalHistory ++ [pushedEntry user Action.approved comment now]).map
        (fun h => (h.approver, h.action)) =
      (sortApprovers rule.approvers).map (fun a => (a.user, Action.approved)) := by
    have htake : (sortApprovers rule.approvers).take (k + 1) = sortApprovers rule.approvers :=
      List.take_of_length_le (by omega)
    have hsplit : sortApprovers rule.approvers =
        (sortApprovers rule.approvers).take k ++ [(sortApprovers rule.approvers)[k]] := by
      have h := @List.take_succ _ (sortApprovers rule.approvers) k
      rw [htake, hi] at h
      exact h
    rw [List.map_append, hhist]
    conv_rhs => rw [hsplit]
    rw [List.map_append]
    simp [pushedEntry, ha]
  have hlenH : (e.approvalHistory ++ [pushedEntry user Action.approved comment now]).length =
      rule.approvers.length := by
    have := congrArg List.length hmap
    simp only [List.length_map] at this
    rw [this, hslen]
  have hall : ∀ h ∈ e.approvalHistory ++ [pushedEntry user Action.approved comment now],
      h.action = Action.approved := by
    intro h hh
    have hm : (h.approver, h.action) ∈
        (e.approvalHistory ++ [pushedEntry user Action.approved comment now]).map
          (fun h => (h.approver, h.action)) := List.mem_map.mpr ⟨h, hh, rfl⟩
    rw [hmap] at hm
    obtain ⟨a, -, haeq⟩ := List.mem_map.mp hm
    exact (Prod.mk.inj haeq).2.symm
  have hcountP : (e.approvalHistory ++ [pushedEntry user Action.approved comment now]).countP
      (fun h => decide (h.action = Action.approved)) = rule.approvers.length := by
    rw [← hlenH, List.countP_eq_length]
    intro h hh
    simpa using hall h hh
  have hcount : approvalCount
      (e.approvalHistory ++ [pushedEntry user Action.approved comment now]) =
      rule.approvers.length := by
    unfold approvalCount
    rw [List.filter_eq_self.mpr, hlenH]
    intro h hh
    simpa using hall h hh
  have hnpos : (rule.approvers.length : ℚ) ≠ 0 := by
    have : rule.approvers.length ≠ 0 := by
      rw [← hslen]; omega
    exact_mod_cast this
  have hratio : roundDouble (roundDouble (((e.approvalHistory ++
      [pushedEntry user Action.approved comment now]).countP
        (fun h => decide (h.action = Action.approved)) : ℚ) /
      ((sortApprovers rule.approvers).length : ℚ)) * 100) = 100 := by
    rw [hcountP, hslen]
    exact roundDouble_full _ (by rw [← hslen]; omega)
  have husers : (∃ c ∈ rule.conditionalApprovers, c.autoApprove = true ∧
      ∃ h ∈ e.approvalHistory ++ [pushedEntry user Action.approved comment now],
        h.approver = c.user ∧ h.action = Action.approved) ↔
      ∃ c ∈ rule.conditionalApprovers, c.autoApprove = true ∧
        c.user ∈ rule.approvers.map Approver.user := by
    constructor
    · rintro ⟨c, hc, hauto, h, hh, hap, -⟩
      refine ⟨c, hc, hauto, ?_⟩
      have hm : (h.approver, h.action) ∈
          (e.approvalHistory ++ [pushedEntry user Action.approved comment now]).map
            (fun h => (h.approver, h.action)) := List.mem_map.mpr ⟨h, hh, rfl⟩
      rw [hmap] at hm
      obtain ⟨a, hamem, haeq⟩ := List.mem_map.mp hm
      rw [← hap, ← (Prod.mk.inj haeq).1]
      exact List.mem_map.mpr ⟨a, (mem_sortApprovers _ _).mp hamem, rfl⟩
    · rintro ⟨c, hc, hauto, hmem⟩
      refine ⟨c, hc, hauto, ?_⟩
      obtain ⟨a, hamem, hau⟩ := List.mem_map.mp hmem
      have hm : (a.user, Action.approved) ∈
          (sortApprovers rule.approvers).map (fun a => (a.user, Action.approved)) :=
        List.mem_map.mpr ⟨a, (mem_sortApprovers _ _).mpr hamem, rfl⟩
      rw [← hmap] at hm
      obtain ⟨h, hh, hheq⟩ := List.mem_map.mp hm
      exact ⟨h, hh, by rw [(Prod.mk.inj hheq).1, hau], (Prod.mk.inj hheq).2⟩
  rw [approvalsAction_of_pending s user id Action.approved comment now e he hs hcur]
  have hhistory := decided_approvalHistory s e user Action.approved comment now
  have hform : decided s e user Action.approved comment now =
      if (approvalPercentage
          (e.approvalHistory ++ [pushedEntry user Action.approved comment now])
          (sortApprovers rule.approvers)).ge rule.minimumApprovalPercentage then
        { e with
          approvalHistory := e.approvalHistory ++ [pushedEntry user Action.approved comment now]
          status := Status.approved
          currentApprover := none }
      else if hasConditionalApproval rule.conditionalApprovers
          (e.approvalHistory ++ [pushedEntry user Action.approved comment now]) then
        { e with
          approvalHistory := e.approvalHistory ++ [pushedEntry user Action.approved comment now]
          status := Status.approved
          currentApprover := none }
      else
        { e with
          approvalHistory := e.approvalHistory ++ [pushedEntry user Action.approved comment now]
          currentApprover := none } := by
    unfold decided
    rw [populateApprovalRule_eq s e ruleId rule hrid hrule,
      evaluateAction_last _ rule user.userId k _ hi ha hfirst hk]
  refine ⟨_, saveExpense_same _ _ _, ?_, ?_, ?_, ?_⟩
  · rw [hhistory]; exact hlenH
  · rw [hhistory]; exact hcount
  · rw [hhistory, approvalPercentage_eq _ _ hne, hratio]
  · rw [hform]
    by_cases hge : (approvalPercentage
        (e.approvalHistory ++ [pushedEntry user Action.approved comment now])
        (sortApprovers rule.approvers)).ge rule.minimumApprovalPercentage = true
    · rw [if_pos hge]
      have hmin : rule.minimumApprovalPercentage ≤ 100 := by
        rw [approvalPercentage_ge_iff _ _ hne, hratio] at hge
        exact hge
      exact ⟨⟨fun _ => Or.inl hmin, fun _ => rfl⟩, Or.inl rfl, rfl⟩
    · rw [if_neg hge]
      have hmin : ¬ rule.minimumApprovalPercentage ≤ 100 := by
        rw [approvalPercentage_ge_iff _ _ hne, hratio] at hge
        exact hge
      by_cases hcond : hasConditionalApproval rule.conditionalApprovers
          (e.approvalHistory ++ [pushedEntry user Action.approved comment now]) = true
      · rw [if_pos hcond]
        have := husers.mp ((hasConditionalApproval_iff _ _).mp hcond)
        exact ⟨⟨fun _ => Or.inr this, fun _ => rfl⟩, Or.inl rfl, rfl⟩
      · rw [if_neg hcond]
        refine ⟨⟨fun h => ?_, fun h => ?_⟩, Or.inr hs, rfl⟩
        · have hst' : e.status = Status.approved := h
          rw [hs] at hst'
          cases hst'
        · rcases h with h | h
          · exact absurd h hmin
          · exact absurd ((hasConditionalApproval_iff _ _).mpr (husers.mpr h)) hcond

theorem chain_run_last (id ruleId : ObjectId) (rule : ApprovalRule)
    (hn : ((sortApprovers rule.approvers).map Approver.user).Nodup) :
    ∀ (calls : List (AuthUser × Option String × Nat)) (s : Store) (e : Expense) (k : Nat),
      s.expenses id = some e → s.findRuleById ruleId = some rule →
      chainState rule ruleId k e →
      k + calls.length = (sortApprovers rule.approvers).length → calls ≠ [] →
      byCurrentApprover s id calls →
      ∃ e', (approveAll s id calls).expenses id = some e' ∧
        e'.approvalHistory.length = rule.approvers.length ∧
        approvalCount e'.approvalHistory = rule.approvers.length ∧
        approvalPercentage e'.approvalHistory (sortApprovers rule.approvers) =
          JSNumber.finite 100 ∧
        (e'.status = Status.approved ↔
          rule.minimumApprovalPercentage ≤ 100 ∨
            ∃ c ∈ rule.conditionalApprovers, c.autoApprove = true ∧
              c.user ∈ rule.approvers.map Approver.user) ∧
        (e'.status = Status.approved ∨ e'.status = Status.pending) ∧
        e'.currentApprover = none := by
  intro calls
  induction calls with
  | nil => intro s e k _ _ _ _ hne; exact absurd rfl hne
  | cons call rest ih =>
    intro s e k he hrule hst hk _ hby
    obtain ⟨user, comment, now⟩ := call
    obtain ⟨⟨e0, he0, hcur⟩, hby'⟩ := hby
    rw [he] at he0
    cases he0
    simp only [List.length_cons] at hk
    cases rest with
    | nil =>
      exact chain_last s user id comment now e ruleId rule k he hrule hn hst
        (by simpa using hk) hcur
    | cons call' rest' =>
      obtain ⟨e1, h1, h2, h3⟩ := chain_step s user id comment now e ruleId rule k he hrule hn
        hst (by simp only [List.length_cons] at hk; omega) hcur
      exact ih _ e1 (k + 1) h1 h3 h2 (by simp only [List.length_cons] at hk ⊢; omega)
        (by simp) hby'

/-- C27. Let a rule have `n ≥ 1` approvers naming pairwise distinct users, and
let an expense with empty history be submitted from draft under it.  After `n`
approvals, each made by the then-current approver, with the rule as it was,
the history holds `n` entries, the approved-count is `n` and the percentage is
exactly 100; the expense is `approved` exactly when
`minimumApprovalPercentage ≤ 100` or some conditional approver with
`autoApprove = true` names one of the rule's approvers, and is `pending`
otherwise; in both cases it has no current approver. -/
theorem chain_completes (s : Store) (owner : AuthUser) (id : ObjectId) (e : Expense)
    (ruleId : ObjectId) (rule : ApprovalRule) (calls : List (AuthUser × Option String × Nat))
    (he : s.expenses id = some e) (ho : e.employee = owner.userId)
    (hd : e.status = Status.draft) (hh : e.approvalHistory = [])
    (hrid : e.approvalRule = some ruleId) (hrule : s.findRuleById ruleId = some rule)
    (hdistinct : (rule.approvers.map Approver.user).Nodup)
    (hpos : 1 ≤ rule.approvers.length)
    (hk : calls.length = rule.approvers.length)
    (hby : byCurrentApprover (expensesSubmit s owner id).1 id calls) :
    ∃ e', (approveAll (expensesSubmit s owner id).1 id calls).expenses id = some e' ∧
      e'.approvalHistory.length = rule.approvers.length ∧
      approvalCount e'.approvalHistory = rule.approvers.length ∧
      approvalPercentage e'.approvalHistory (sortApprovers rule.approvers) =
        JSNumber.finite 100 ∧
      (e'.status = Status.approved ↔
        rule.minimumApprovalPercentage ≤ 100 ∨
          ∃ c ∈ rule.conditionalApprovers, c.autoApprove = true ∧
            c.user ∈ rule.approvers.map Approver.user) ∧
      (e'.status = Status.approved ∨ e'.status = Status.pending) ∧
      e'.currentApprover = none := by
  have hne : rule.approvers ≠ [] := by
    intro h0
    rw [h0] at hpos
    simp at hpos
  have hcalls : calls ≠ [] := by
    intro h0
    rw [h0] at hk
    simp at hk
    omega
  obtain ⟨e0, h1, h2, h3⟩ := expensesSubmit_chainState s owner id e ruleId rule he ho hd hh
    hrid hrule hne
  exact chain_run_last id ruleId rule (sortApprovers_nodup _ hdistinct) calls _ e0 0 h1 h3 h2
    (by rw [sortApprovers_length]; omega) hcalls hby

/-- Witness of C27: the chain `A, B` with threshold 150 and `B` an auto-approve
conditional approver; after both approvals the expense is approved although
the percentage, 100, is below the threshold. -/
theorem chain_completes_witness :
    ∃ e', (approveAll
        (expensesSubmit
          (sampleStore (sampleExpense Status.draft none (some 50) [])
            [sampleRule [⟨1, 1⟩, ⟨2, 2⟩] 150 [⟨2, true⟩]])
          employeeToken 7).1 7
        [(managerToken 1, none, 1), (managerToken 2, none, 2)]).expenses 7 = some e' ∧
      e'.status = Status.approved ∧ e'.currentApprover = none :=
  let ⟨e', h1, _, _, _, h5, _, h7⟩ := chain_completes
    (sampleStore (sampleExpense Status.draft none (some 50) [])
      [sampleRule [⟨1, 1⟩, ⟨2, 2⟩] 150 [⟨2, true⟩]])
    employeeToken 7 (sampleExpense Status.draft none (some 50) []) 50
    (sampleRule [⟨1, 1⟩, ⟨2, 2⟩] 150 [⟨2, true⟩])
    [(managerToken 1, none, 1), (managerToken 2, none, 2)]
    (by decide) (by decide) (by decide) (by decide) (by decide) (by decide) (by decide)
    (by decide) (by decide)
    ⟨⟨sampleExpense Status.pending (some 1) (some 50) [], by decide, by decide⟩,
      ⟨sampleExpense Status.pending (some 2) (some 50) [⟨1, Action.approved, none, 1⟩],
        by decide, by decide⟩,
      trivial⟩
  ⟨e', h1, h5.mpr (Or.inr ⟨⟨2, true⟩, by decide, rfl, by decide⟩), h7⟩

end ExpenseManagement
